import Mathlib

/-!
# Picard predictor-corrector integrator (`picard.c`)

A shallow embedding of `one_step` and of the drive loop of `main`.

The C type `real` (a `double`) is kept abstract: every definition takes the
arithmetic of `real` as a record `real_ops R` of the operations the source
uses (`+`, `-`, `*`, the literal `0.5`, `!=`, `<`).  Three instances are given:

* `double_ops` : IEEE-754 binary64 with round-to-nearest-even, subnormals,
  overflow to infinity, infinities and NaN (the sign of zero is not kept);
  this is the arithmetic the program runs on;
* `exact_ops K` : exact arithmetic in a linearly ordered field `K` (for
  instance `ℚ`), used for the statements that are about exact numbers;
* `nan_ops` : exact rationals extended with one not-a-number value that is
  absorbing for the arithmetic and unordered for the comparisons.

The two `while` loops of the source carry a fuel argument: the number of
times the loop body may run.  A loop returns `none` exactly when its test is
still true after the body has run that many times.
-/

namespace Picard

/-- The operations of the C type `real` used by `picard.c`. -/
structure real_ops (R : Type) where
  /-- Addition `a + b`. -/
  add : R → R → R
  /-- Subtraction `a - b`. -/
  sub : R → R → R
  /-- Multiplication `a * b`. -/
  mul : R → R → R
  /-- The literal `0.5`. -/
  half : R
  /-- The test `a != b`. -/
  ne : R → R → Bool
  /-- The test `a < b`. -/
  lt : R → R → Bool

/-- The record `typedef struct { real x; real y; } iter_state;` (lines 39-49). -/
structure iter_state (R : Type) where
  x : R
  y : R
deriving DecidableEq

/-- The type `typedef real (*rhs_func)(real x, real y);` (line 36). -/
abbrev rhs_func (R : Type) := R → R → R

/-- Exact arithmetic in a linearly ordered field: no rounding, overflow, infinity
or NaN.  It is not the arithmetic the program runs on (that is `double_ops`); it
is used for the statements that are about exact numbers. -/
def exact_ops (K : Type) [LinearOrderedField K] : real_ops K where
  add := fun a b => a + b
  sub := fun a b => a - b
  mul := fun a b => a * b
  half := 1 / 2
  ne := fun a b => decide (a ≠ b)
  lt := fun a b => decide (a < b)

/-- Lift of a binary rational operation that yields NaN as soon as one operand is NaN. -/
def nan_lift (op : ℚ → ℚ → ℚ) : Option ℚ → Option ℚ → Option ℚ
  | some a, some b => some (op a b)
  | _, _ => none

/-- Exact rationals with a NaN (`none`): arithmetic on NaN gives NaN, `!=` is
true and `<` is false as soon as one operand is NaN. -/
def nan_ops : real_ops (Option ℚ) where
  add := nan_lift (fun a b => a + b)
  sub := nan_lift (fun a b => a - b)
  mul := nan_lift (fun a b => a * b)
  half := some (1 / 2)
  ne := fun a b =>
    match a, b with
    | some p, some q => decide (p ≠ q)
    | _, _ => true
  lt := fun a b =>
    match a, b with
    | some p, some q => decide (p < q)
    | _, _ => false

/-- The value `v` behaves as a NaN of the arithmetic `A`: it absorbs `+` and
`*` and compares unequal to everything, itself included. -/
structure is_nan {R : Type} (A : real_ops R) (v : R) : Prop where
  add_left : ∀ a, A.add v a = v
  add_right : ∀ a, A.add a v = v
  mul_left : ∀ a, A.mul v a = v
  mul_right : ∀ a, A.mul a v = v
  ne_left : ∀ a, A.ne v a = true
  ne_right : ∀ a, A.ne a v = true

/-- The values of a C `double` (IEEE-754 binary64): NaN, the two infinities and
the finite values `m * 2 ^ e`.  Finite values are kept in the canonical form
`|m| < 2 ^ 53`, `-1074 ≤ e ≤ 971`, with `2 ^ 52 ≤ |m|` unless `e = -1074`
(subnormals and zero); zero is `fin 0 (-1074)`, its sign is not kept. -/
inductive double
  | nan
  | inf (negative : Bool)
  | fin (m : ℤ) (e : ℤ)
deriving DecidableEq

/-- Number of binary digits of `n`, by repeated halving (first argument: fuel). -/
def bit_length_aux : ℕ → ℕ → ℕ
  | 0, _ => 0
  | fuel + 1, n => if n = 0 then 0 else bit_length_aux fuel (n / 2) + 1

/-- Number of binary digits of `n` (`0` for `n = 0`). -/
def bit_length (n : ℕ) : ℕ := bit_length_aux n n

/-- Rounding of the quotient `num / den` to the nearest integer, ties to even. -/
def rne_div (num den : ℕ) : ℕ :=
  if den < 2 * (num % den) ∨ (2 * (num % den) = den ∧ (num / den) % 2 = 1) then num / den + 1
  else num / den

/-- Exponent of the leading binary digit of `n / d` (for `n, d > 0`), that is
`floor (log2 (n / d))`: the difference of the bit lengths, or one less. -/
def lead_exp (n d : ℕ) : ℤ :=
  if (if 0 ≤ (bit_length n : ℤ) - (bit_length d : ℤ)
        then decide (d * 2 ^ ((bit_length n : ℤ) - (bit_length d : ℤ)).toNat ≤ n)
        else decide (d ≤ n * 2 ^ (-((bit_length n : ℤ) - (bit_length d : ℤ))).toNat))
  then (bit_length n : ℤ) - (bit_length d : ℤ)
  else (bit_length n : ℤ) - (bit_length d : ℤ) - 1

/-- The `double` of sign `negative` and magnitude `M * 2 ^ E`, for a rounded
mantissa `M ≤ 2 ^ 53`: a mantissa of `2 ^ 53` is renormalised, and a magnitude of
`2 ^ 1024` or more overflows to an infinity. -/
def double.pack (negative : Bool) (M : ℕ) (E : ℤ) : double :=
  if 971 < (if M = 2 ^ 53 then E + 1 else E) then double.inf negative
  else double.fin
    (if negative then -((if M = 2 ^ 53 then 2 ^ 52 else M : ℕ) : ℤ)
      else ((if M = 2 ^ 53 then 2 ^ 52 else M : ℕ) : ℤ))
    (if M = 2 ^ 53 then E + 1 else E)

/-- Rounding to binary64, to nearest with ties to even: the `double` nearest
to `(p / d) * 2 ^ e` (for `d > 0`).  The exponent `E` of the last kept bit is 52
below that of the leading bit of the value, and at least `-1074` (which gives the
subnormals); the mantissa is the value divided by `2 ^ E`, rounded. -/
def round_ratio (p : ℤ) (d : ℕ) (e : ℤ) : double :=
  if p.natAbs = 0 ∨ d = 0 then double.fin 0 (-1074)
  else
    double.pack (decide (p < 0))
      (rne_div
        (if 0 ≤ e - max (lead_exp p.natAbs d + e - 52) (-1074)
          then p.natAbs * 2 ^ (e - max (lead_exp p.natAbs d + e - 52) (-1074)).toNat
          else p.natAbs)
        (if 0 ≤ e - max (lead_exp p.natAbs d + e - 52) (-1074)
          then d
          else d * 2 ^ (-(e - max (lead_exp p.natAbs d + e - 52) (-1074))).toNat))
      (max (lead_exp p.natAbs d + e - 52) (-1074))

/-- Negation `-a`. -/
def double.neg : double → double
  | .nan => .nan
  | .inf b => .inf (!b)
  | .fin m e => .fin (-m) e

/-- Addition `a + b` of binary64: the exact sum of two finite values, rounded;
`inf + (-inf)` is NaN. -/
def double.add : double → double → double
  | .nan, _ => .nan
  | _, .nan => .nan
  | .inf a, .inf b => if a = b then .inf a else .nan
  | .inf a, .fin _ _ => .inf a
  | .fin _ _, .inf b => .inf b
  | .fin m1 e1, .fin m2 e2 =>
    round_ratio (m1 * 2 ^ (e1 - min e1 e2).toNat + m2 * 2 ^ (e2 - min e1 e2).toNat) 1 (min e1 e2)

/-- Subtraction `a - b` of binary64. -/
def double.sub (a b : double) : double := a.add b.neg

/-- Multiplication `a * b` of binary64: the exact product of two finite values,
rounded; `inf * 0` is NaN. -/
def double.mul : double → double → double
  | .nan, _ => .nan
  | _, .nan => .nan
  | .inf a, .inf b => .inf (a != b)
  | .inf a, .fin m _ => if m = 0 then .nan else .inf (a != decide (m < 0))
  | .fin m _, .inf b => if m = 0 then .nan else .inf (decide (m < 0) != b)
  | .fin m1 e1, .fin m2 e2 => round_ratio (m1 * m2) 1 (e1 + e2)

/-- The test `a < b` of binary64, false as soon as one operand is NaN. -/
def double.lt : double → double → Bool
  | .nan, _ => false
  | _, .nan => false
  | .inf a, .inf b => a && !b
  | .inf a, .fin _ _ => a
  | .fin _ _, .inf b => !b
  | .fin m1 e1, .fin m2 e2 =>
    decide (m1 * 2 ^ (e1 - min e1 e2).toNat < m2 * 2 ^ (e2 - min e1 e2).toNat)

/-- The test `a != b` of binary64, true as soon as one operand is NaN. -/
def double.ne : double → double → Bool
  | .nan, _ => true
  | _, .nan => true
  | a, b => decide (a ≠ b)

/-- The arithmetic of a C `double`. -/
def double_ops : real_ops double where
  add := double.add
  sub := double.sub
  mul := double.mul
  half := double.fin (2 ^ 52) (-53)
  ne := double.ne
  lt := double.lt

/-- The `double` denoted by the decimal or integer literal of value `p / d`. -/
def double.of_ratio (p : ℤ) (d : ℕ) : double := round_ratio p d 0

/-- The `double` of value `2 ^ e` (zero or infinity outside the range). -/
def double.pow2 (e : ℤ) : double := round_ratio 1 1 e

/-- The rational value of a finite `double` (`0` for NaN and the infinities). -/
def double.to_rat : double → ℚ
  | .fin m e => m * (2 : ℚ) ^ e
  | _ => 0

/-- The assignment in the body of the corrector loop (lines 62-65):
`ylast + 0.5 * (f(state->x, ylast) + f(state->x + dx, state->y)) * dx`. -/
def picard_update {R : Type} (A : real_ops R) (dx : R) (f : rhs_func R)
    (x ylast y : R) : R :=
  A.add ylast (A.mul (A.mul A.half (A.add (f x ylast) (f (A.add x dx) y))) dx)

/-- The corrector loop (lines 58-66) on the pair `(pylast, state->y)`;
`state->x`, `ylast`, `dx` and `f` do not change while it runs.  The first
argument is the fuel. -/
def picard_loop {R : Type} (A : real_ops R) (dx : R) (f : rhs_func R) (x ylast : R) :
    Nat → R → R → Option R
  | 0, pylast, y => if A.ne pylast y then none else some y
  | n + 1, pylast, y =>
    if A.ne pylast y then picard_loop A dx f x ylast n y (picard_update A dx f x ylast y)
    else some y

/-- The function `method one_step (real dx, rhs_func f, iter_state* state)` (lines 51-69),
with `fuel` bounding the iterations of the corrector loop. -/
def one_step {R : Type} (A : real_ops R) (fuel : Nat) (dx : R) (f : rhs_func R)
    (state : iter_state R) : Option (iter_state R) :=
  let ylast := state.y
  let y := A.add state.y (A.mul dx (f state.x ylast))
  let pylast := ylast
  match picard_loop A dx f state.x ylast fuel pylast y with
  | none => none
  | some y1 => some { x := A.add state.x dx, y := y1 }

/-- The right-hand side `real f(real x, real y) { return y; }` (lines 71-74). -/
def f {R : Type} (_x y : R) : R := y

/-- The loop of line 89, `while (xy.x < xfinal - dx) one_step(dx, f, &xy);`.
`m` is the fuel handed to each `one_step`, the `Nat` argument the fuel of this loop. -/
def drive_loop {R : Type} (A : real_ops R) (m : Nat) (dx : R) (f : rhs_func R) (xfinal : R) :
    Nat → iter_state R → Option (iter_state R)
  | 0, xy => if A.lt xy.x (A.sub xfinal dx) then none else some xy
  | n + 1, xy =>
    if A.lt xy.x (A.sub xfinal dx) then
      match one_step A m dx f xy with
      | none => none
      | some xy1 => drive_loop A m dx f xfinal n xy1
    else some xy

/-- Lines 89-94 of `main` for arbitrary initial state, `dx`, `f` and `xfinal`:
the drive loop, then `x_corr = xfinal - xy.x; one_step(x_corr, f, &xy);`. -/
def integrate {R : Type} (A : real_ops R) (m n : Nat) (dx : R) (f : rhs_func R) (xfinal : R)
    (xy : iter_state R) : Option (iter_state R) :=
  match drive_loop A m dx f xfinal n xy with
  | none => none
  | some xy1 =>
    let x_corr := A.sub xfinal xy1.x
    one_step A m x_corr f xy1

/-- The states stored by the successive full-size steps of the drive loop
(line 89), in order; the list stops where the loop stops, where the fuel
ends, or where a step does not return. -/
def drive_trace {R : Type} (A : real_ops R) (m : Nat) (dx : R) (f : rhs_func R) (xfinal : R) :
    Nat → iter_state R → List (iter_state R)
  | 0, _ => []
  | n + 1, xy =>
    if A.lt xy.x (A.sub xfinal dx) then
      match one_step A m dx f xy with
      | none => []
      | some xy1 => xy1 :: drive_trace A m dx f xfinal n xy1
    else []

/-- Reference iteration, following the words of the specification: the Euler
predictor `q_0 = y_old + dx * f(x_old, y_old)` and the corrector
`q_(k+1) = y_old + 0.5 * dx * (f(x_old, y_old) + f(x_old + dx, q_k))`. -/
def q_ref {K : Type} [LinearOrderedField K] (f : rhs_func K) (dx x_old y_old : K) : Nat → K
  | 0 => y_old + dx * f x_old y_old
  | k + 1 => y_old + (1 / 2) * dx * (f x_old y_old + f (x_old + dx) (q_ref f dx x_old y_old k))

/-- The predecessor `q_(k-1)` of `q_k` in the reference iteration, with `q_(-1) = y_old`. -/
def q_prev {K : Type} [LinearOrderedField K] (f : rhs_func K) (dx x_old y_old : K) : Nat → K
  | 0 => y_old
  | k + 1 => q_ref f dx x_old y_old k

/-- The value held in `state->y` after `k` runs of the body of the corrector
loop (lines 60-65), started on the Euler predictor of line 54. -/
def q_code {R : Type} (A : real_ops R) (dx : R) (f : rhs_func R) (x ylast : R) (k : Nat) : R :=
  (picard_update A dx f x ylast)^[k] (A.add ylast (A.mul dx (f x ylast)))

/-- The value held in `pylast` when the loop test is evaluated for the `k`-th
time after the first: `ylast` at first (line 57), then the previous `state->y`. -/
def q_code_prev {R : Type} (A : real_ops R) (dx : R) (f : rhs_func R) (x ylast : R) : Nat → R
  | 0 => ylast
  | k + 1 => q_code A dx f x ylast k

/-- Reference iteration, following the words of the specification, computed in
the arithmetic `A`: `q_0 = y_old + dx * f(x_old, y_old)` and
`q_(k+1) = y_old + 0.5 * dx * (f(x_old, y_old) + f(x_old + dx, q_k))`. -/
def q_spec {R : Type} (A : real_ops R) (f : rhs_func R) (dx x_old y_old : R) : Nat → R
  | 0 => A.add y_old (A.mul dx (f x_old y_old))
  | k + 1 =>
    A.add y_old (A.mul (A.mul A.half dx)
      (A.add (f x_old y_old) (f (A.add x_old dx) (q_spec A f dx x_old y_old k))))

/-- Reading the values of `real` as numbers through `val`, the arithmetic on `x`
is exact at the abscissa `x` of the drive: the test of line 89 is the comparison
`x < xfinal - dx` of numbers, and `x + dx`, `xfinal - x` and `x + (xfinal - x)`
are computed without rounding. -/
def x_exact_at {R K : Type} [LinearOrderedField K] (A : real_ops R) (val : R → K)
    (dx xfinal x : R) : Prop :=
  (A.lt x (A.sub xfinal dx) = true ↔ val x < val xfinal - val dx) ∧
  val (A.add x dx) = val x + val dx ∧
  val (A.sub xfinal x) = val xfinal - val x ∧
  val (A.add x (A.sub xfinal x)) = val x + val (A.sub xfinal x)

instance {R K : Type} [LinearOrderedField K] (A : real_ops R) (val : R → K)
    (dx xfinal x : R) : Decidable (x_exact_at A val dx xfinal x) :=
  inferInstanceAs (Decidable (_ ∧ _ ∧ _ ∧ _))

/-- The arithmetic on `x` is exact along the drive: at the initial state and at
every state stored by its first `n` full steps. -/
def x_exact {R K : Type} [LinearOrderedField K] (A : real_ops R) (val : R → K) (m : Nat)
    (dx : R) (f : rhs_func R) (xfinal : R) (n : Nat) (s : iter_state R) : Prop :=
  ∀ t ∈ s :: drive_trace A m dx f xfinal n s, x_exact_at A val dx xfinal t.x

instance {R K : Type} [LinearOrderedField K] (A : real_ops R) (val : R → K) (m : Nat)
    (dx : R) (f : rhs_func R) (xfinal : R) (n : Nat) (s : iter_state R) :
    Decidable (x_exact A val m dx f xfinal n s) :=
  inferInstanceAs (Decidable (∀ t ∈ _, _))

/-- Reading the values of `real` as numbers through `val`, the Euler predictor and
the first `k` corrector values of a step with the right-hand side `f(x, y) = y`
are computed without rounding. -/
def y_exact {R K : Type} [LinearOrderedField K] (A : real_ops R) (val : R → K)
    (dx x0 y0 : R) (k : Nat) : Prop :=
  val (q_code A dx f x0 y0 0) = val y0 + val dx * val y0 ∧
  ∀ j, j < k → val (q_code A dx f x0 y0 (j + 1))
    = val y0 + (1 / 2) * (val y0 + val (q_code A dx f x0 y0 j)) * val dx

instance {R K : Type} [LinearOrderedField K] (A : real_ops R) (val : R → K)
    (dx x0 y0 : R) (k : Nat) : Decidable (y_exact A val dx x0 y0 k) :=
  inferInstanceAs (Decidable (_ ∧ ∀ j, j < k → _))

/-- The computation of `main` (lines 78-94) on binary64: `xy = (0.0, 1.0)`,
`dx = 1e-6`, `xfinal = 1.0`, right-hand side `f`. -/
def main (m n : Nat) : Option (iter_state double) :=
  integrate double_ops m n (double.of_ratio 1 1000000) f (double.of_ratio 1 1)
    { x := double.of_ratio 0 1, y := double.of_ratio 1 1 }

/-- The `double` `a` is a positive normal number in canonical form: `fin M E`
with `2 ^ 52 ≤ M < 2 ^ 53` and `-1074 ≤ E ≤ 970`. -/
def pos_normal (a : double) : Prop :=
  ∃ (M : ℕ) (E : ℤ), a = double.fin (M : ℤ) E ∧ 2 ^ 52 ≤ M ∧ M < 2 ^ 53 ∧ -1074 ≤ E ∧ E ≤ 970

/-- The `double` `a` is the binary64 rounding of the positive number `x`, in the
normal range and without overflow: `a` packs a mantissa `M` and an exponent `E`
with `2 ^ 52 ≤ x / 2 ^ E < 2 ^ 53`, `M` nearest to `x / 2 ^ E` and even on a tie. -/
def rounds_to (x : ℚ) (a : double) : Prop :=
  ∃ (M : ℕ) (E : ℤ), a = double.pack false M E ∧ -1074 ≤ E ∧ E ≤ 969 ∧
    2 ^ 52 ≤ M ∧ M ≤ 2 ^ 53 ∧
    (2 : ℚ) ^ 52 ≤ x / 2 ^ E ∧ x / 2 ^ E < 2 ^ 53 ∧
    |(M : ℚ) - x / 2 ^ E| ≤ 1 / 2 ∧ (|(M : ℚ) - x / 2 ^ E| = 1 / 2 → M % 2 = 0)

/-- Invariant of the drive loop of `main` after `k` full steps: `x` is within
`k * 2 ^ (-54)` of `k * dx` and at most `1`, and `y` is between
`exp (k * (dx - 2 ^ (-52)))` and `exp (k * (dx + 2 ^ (-52)))`, for the binary64
value `dx = 4722366482869645 * 2 ^ (-72)` of `1e-6`. -/
def main_inv (k : ℕ) (s : iter_state double) : Prop :=
  k ≤ 1000001 ∧
  (s.x = double.fin 0 (-1074) ∨ pos_normal s.x) ∧
  double.to_rat s.x ≤ 1 ∧
  |double.to_rat s.x - (k : ℚ) * (4722366482869645 / 2 ^ 72)| ≤ (k : ℚ) / 2 ^ 54 ∧
  pos_normal s.y ∧
  Real.exp ((k : ℝ) * (4722366482869645 / 2 ^ 72 - 2 / 2 ^ 53)) ≤ (double.to_rat s.y : ℝ) ∧
  (double.to_rat s.y : ℝ) ≤ Real.exp ((k : ℝ) * (4722366482869645 / 2 ^ 72 + 2 / 2 ^ 53))

/-! ## The arithmetic instances -/

@[simp] theorem exact_add (K : Type) [LinearOrderedField K] (a b : K) :
    (exact_ops K).add a b = a + b := rfl

@[simp] theorem exact_sub (K : Type) [LinearOrderedField K] (a b : K) :
    (exact_ops K).sub a b = a - b := rfl

@[simp] theorem exact_mul (K : Type) [LinearOrderedField K] (a b : K) :
    (exact_ops K).mul a b = a * b := rfl

@[simp] theorem exact_half (K : Type) [LinearOrderedField K] :
    (exact_ops K).half = 1 / 2 := rfl

@[simp] theorem exact_ne (K : Type) [LinearOrderedField K] (a b : K) :
    ((exact_ops K).ne a b = true) ↔ a ≠ b := by
  simp [exact_ops]

@[simp] theorem exact_lt (K : Type) [LinearOrderedField K] (a b : K) :
    ((exact_ops K).lt a b = true) ↔ a < b := by
  simp [exact_ops]

/-- In exact arithmetic the loop body computes the corrector map of the specification. -/
theorem exact_picard_update (K : Type) [LinearOrderedField K] (dx : K) (f : rhs_func K)
    (x ylast y : K) :
    picard_update (exact_ops K) dx f x ylast y
      = ylast + (1 / 2) * dx * (f x ylast + f (x + dx) y) := by
  simp only [picard_update, exact_add, exact_mul, exact_half]
  ring

theorem nan_ops_is_nan : is_nan nan_ops none where
  add_left := fun a => by cases a <;> rfl
  add_right := fun a => by cases a <;> rfl
  mul_left := fun a => by cases a <;> rfl
  mul_right := fun a => by cases a <;> rfl
  ne_left := fun a => by cases a <;> rfl
  ne_right := fun a => by cases a <;> rfl

/-! ## The corrector loop, for any arithmetic -/

theorem picard_loop_exit {R : Type} (A : real_ops R) (dx : R) (f : rhs_func R) (x ylast : R)
    (n : Nat) (pylast y : R) (h : A.ne pylast y = false) :
    picard_loop A dx f x ylast n pylast y = some y := by
  cases n <;> simp [picard_loop, h]

theorem picard_loop_enter {R : Type} (A : real_ops R) (dx : R) (f : rhs_func R) (x ylast : R)
    (n : Nat) (pylast y : R) (h : A.ne pylast y = true) :
    picard_loop A dx f x ylast (n + 1) pylast y
      = picard_loop A dx f x ylast n y (picard_update A dx f x ylast y) := by
  simp [picard_loop, h]

theorem picard_loop_stuck {R : Type} (A : real_ops R) (dx : R) (f : rhs_func R) (x ylast : R)
    (pylast y : R) (h : A.ne pylast y = true) :
    picard_loop A dx f x ylast 0 pylast y = none := by
  simp [picard_loop, h]

/-- More fuel does not change a result that was reached. -/
theorem picard_loop_mono {R : Type} (A : real_ops R) (dx : R) (f : rhs_func R) (x ylast : R)
    (n : Nat) : ∀ (pylast y r : R), picard_loop A dx f x ylast n pylast y = some r →
      ∀ n2, n ≤ n2 → picard_loop A dx f x ylast n2 pylast y = some r := by
  induction n with
  | zero =>
    intro pylast y r h n2 _
    cases hc : A.ne pylast y with
    | true => simp [picard_loop, hc] at h
    | false =>
      rw [picard_loop_exit A dx f x ylast 0 pylast y hc] at h
      rw [picard_loop_exit A dx f x ylast n2 pylast y hc]
      exact h
  | succ n ih =>
    intro pylast y r h n2 hn
    cases hc : A.ne pylast y with
    | false =>
      rw [picard_loop_exit A dx f x ylast (n + 1) pylast y hc] at h
      rw [picard_loop_exit A dx f x ylast n2 pylast y hc]
      exact h
    | true =>
      obtain ⟨k, rfl⟩ : ∃ k, n2 = k + 1 := ⟨n2 - 1, by omega⟩
      rw [picard_loop_enter A dx f x ylast n pylast y hc] at h
      rw [picard_loop_enter A dx f x ylast k pylast y hc]
      exact ih _ _ _ h k (by omega)

/-- The result of the corrector loop does not depend on the fuel. -/
theorem picard_loop_fuel_irrelevant {R : Type} (A : real_ops R) (dx : R) (f : rhs_func R)
    (x ylast : R) (n1 n2 : Nat) (pylast y r1 r2 : R)
    (h1 : picard_loop A dx f x ylast n1 pylast y = some r1)
    (h2 : picard_loop A dx f x ylast n2 pylast y = some r2) : r1 = r2 := by
  have e1 := picard_loop_mono A dx f x ylast n1 pylast y r1 h1 (max n1 n2) (le_max_left _ _)
  have e2 := picard_loop_mono A dx f x ylast n2 pylast y r2 h2 (max n1 n2) (le_max_right _ _)
  rw [e1] at e2
  exact Option.some.inj e2

/-- The corrector loop only reads `f` on the two abscissae `x` and `x + dx`. -/
theorem picard_loop_congr {R : Type} (A : real_ops R) (dx : R) (f g : rhs_func R) (x ylast : R)
    (h0 : ∀ y, g x y = f x y) (h1 : ∀ y, g (A.add x dx) y = f (A.add x dx) y) (n : Nat) :
    ∀ pylast y, picard_loop A dx g x ylast n pylast y = picard_loop A dx f x ylast n pylast y := by
  induction n with
  | zero => intro pylast y; simp [picard_loop]
  | succ n ih =>
    intro pylast y
    simp only [picard_loop, picard_update, h0, h1, ih]

/-- The step as a map over the result of its corrector loop. -/
theorem one_step_map {R : Type} (A : real_ops R) (fuel : Nat) (dx : R) (f : rhs_func R)
    (s : iter_state R) :
    one_step A fuel dx f s =
      (picard_loop A dx f s.x s.y fuel s.y (A.add s.y (A.mul dx (f s.x s.y)))).map
        (fun y1 => { x := A.add s.x dx, y := y1 }) := by
  simp only [one_step]
  split <;> simp [*]

/-- What `one_step` returns in terms of its corrector loop. -/
theorem one_step_eq_some {R : Type} (A : real_ops R) (fuel : Nat) (dx : R) (f : rhs_func R)
    (s r : iter_state R) :
    one_step A fuel dx f s = some r ↔
      picard_loop A dx f s.x s.y fuel s.y (A.add s.y (A.mul dx (f s.x s.y))) = some r.y
        ∧ r.x = A.add s.x dx := by
  rw [one_step_map]
  cases r with
  | mk rx ry =>
    cases picard_loop A dx f s.x s.y fuel s.y (A.add s.y (A.mul dx (f s.x s.y))) with
    | none => simp
    | some y1 =>
      simp only [Option.map_some', Option.some.injEq, iter_state.mk.injEq]
      constructor
      · rintro ⟨hx, hy⟩
        exact ⟨hy, hx.symm⟩
      · rintro ⟨hy, hx⟩
        exact ⟨hx.symm, hy⟩

theorem one_step_eq_none {R : Type} (A : real_ops R) (fuel : Nat) (dx : R) (f : rhs_func R)
    (s : iter_state R) :
    one_step A fuel dx f s = none ↔
      picard_loop A dx f s.x s.y fuel s.y (A.add s.y (A.mul dx (f s.x s.y))) = none := by
  rw [one_step_map]
  simp

/-! ## The step in exact arithmetic -/

/-- When the Euler increment vanishes the loop test fails at once. -/
theorem one_step_of_euler_zero (K : Type) [LinearOrderedField K] (dx : K) (f : rhs_func K)
    (s : iter_state K) (h : dx * f s.x s.y = 0) (n : Nat) :
    one_step (exact_ops K) n dx f s = some { x := s.x + dx, y := s.y } := by
  rw [one_step_eq_some]
  refine ⟨?_, rfl⟩
  have hy : (exact_ops K).add s.y ((exact_ops K).mul dx (f s.x s.y)) = s.y := by
    simp [h]
  rw [hy]
  exact picard_loop_exit _ _ _ _ _ _ _ _ (by simp [exact_ops])

/-- A returned value either is the untouched entry value of the loop (the test
failed at once) or was produced by the loop body from a value that compares equal to it. -/
theorem picard_loop_result {R : Type} (A : real_ops R) (dx : R) (f : rhs_func R) (x ylast : R)
    (n : Nat) : ∀ (pylast y r : R), picard_loop A dx f x ylast n pylast y = some r →
      (A.ne pylast y = false ∧ r = y) ∨
        ∃ q, A.ne q r = false ∧ r = picard_update A dx f x ylast q := by
  induction n with
  | zero =>
    intro pylast y r h
    cases hc : A.ne pylast y with
    | true => simp [picard_loop, hc] at h
    | false =>
      rw [picard_loop_exit A dx f x ylast 0 pylast y hc] at h
      exact Or.inl ⟨rfl, (Option.some.inj h).symm⟩
  | succ n ih =>
    intro pylast y r h
    cases hc : A.ne pylast y with
    | false =>
      rw [picard_loop_exit A dx f x ylast (n + 1) pylast y hc] at h
      exact Or.inl ⟨rfl, (Option.some.inj h).symm⟩
    | true =>
      rw [picard_loop_enter A dx f x ylast n pylast y hc] at h
      rcases ih _ _ _ h with ⟨h1, h2⟩ | h3
      · exact Or.inr ⟨y, by rw [h2]; exact h1, h2⟩
      · exact Or.inr h3

/-- The loop body maps `q_k` to `q_(k+1)`. -/
theorem picard_update_q_ref (K : Type) [LinearOrderedField K] (dx : K) (f : rhs_func K)
    (x y0 : K) (k : Nat) :
    picard_update (exact_ops K) dx f x y0 (q_ref f dx x y0 k) = q_ref f dx x y0 (k + 1) := by
  rw [exact_picard_update]
  rfl

/-- If no two successive reference iterates are equal the loop never exits. -/
theorem picard_loop_ref_never (K : Type) [LinearOrderedField K] (dx : K) (f : rhs_func K)
    (x y0 : K) (hall : ∀ j, q_ref f dx x y0 j ≠ q_prev f dx x y0 j) (n : Nat) :
    ∀ j, picard_loop (exact_ops K) dx f x y0 n (q_prev f dx x y0 j) (q_ref f dx x y0 j)
      = none := by
  induction n with
  | zero =>
    intro j
    exact picard_loop_stuck _ _ _ _ _ _ _ ((exact_ne K _ _).2 (Ne.symm (hall j)))
  | succ n ih =>
    intro j
    rw [picard_loop_enter _ _ _ _ _ _ _ _ ((exact_ne K _ _).2 (Ne.symm (hall j))),
      picard_update_q_ref]
    exact ih (j + 1)

/-- Without a repeated reference iterate the step never returns. -/
theorem one_step_ref_never (K : Type) [LinearOrderedField K] (dx : K) (f : rhs_func K)
    (s : iter_state K) (hall : ∀ j, q_ref f dx s.x s.y j ≠ q_prev f dx s.x s.y j) (m : Nat) :
    one_step (exact_ops K) m dx f s = none := by
  have h := picard_loop_ref_never K dx f s.x s.y hall m 0
  simp only [q_prev, q_ref] at h
  rw [one_step_eq_none]
  exact h

/-- For `f(x, y) = y` two successive reference iterates differ by `2 * y0 * (dx / 2) ^ (k + 1)`. -/
theorem q_ref_linear_diff (K : Type) [LinearOrderedField K] (dx x0 y0 : K) (k : Nat) :
    q_ref f dx x0 y0 k - q_prev f dx x0 y0 k = 2 * y0 * (dx / 2) ^ (k + 1) := by
  induction k with
  | zero =>
    simp only [q_ref, q_prev, f]
    ring
  | succ k ih =>
    cases k with
    | zero =>
      simp only [q_ref, q_prev, f]
      ring
    | succ j =>
      simp only [q_ref, q_prev, f] at ih ⊢
      rw [pow_succ]
      linear_combination (dx / 2) * ih

/-- For `f(x, y) = y` with `y0 * dx ≠ 0` the step never returns in exact arithmetic. -/
theorem one_step_linear_never (K : Type) [LinearOrderedField K] (dx x0 y0 : K)
    (h : dx * y0 ≠ 0) (m : Nat) :
    one_step (exact_ops K) m dx f { x := x0, y := y0 } = none := by
  apply one_step_ref_never
  intro j hj
  have hd := q_ref_linear_diff K dx x0 y0 j
  rw [hj, sub_self] at hd
  have hdx : dx ≠ 0 := left_ne_zero_of_mul h
  have hy : y0 ≠ 0 := right_ne_zero_of_mul h
  have : (2 : K) * y0 * (dx / 2) ^ (j + 1) ≠ 0 :=
    mul_ne_zero (mul_ne_zero two_ne_zero hy) (pow_ne_zero _ (div_ne_zero hdx two_ne_zero))
  exact this hd.symm

/-- The value held in `state->y` after `k` runs of the loop body, started on the
Euler predictor, is the reference iterate `q_k`. -/
theorem picard_update_iterate (K : Type) [LinearOrderedField K] (dx : K) (f : rhs_func K)
    (x y0 : K) (k : Nat) :
    (picard_update (exact_ops K) dx f x y0)^[k]
        ((exact_ops K).add y0 ((exact_ops K).mul dx (f x y0)))
      = q_ref f dx x y0 k := by
  induction k with
  | zero => rfl
  | succ k ih => rw [Function.iterate_succ_apply', ih, picard_update_q_ref]

/-- For `f(x, y) = y` the reference iterates satisfy
`q_k * (1 - dx / 2) = y0 * (1 + dx / 2) - 2 * y0 * (dx / 2) ^ (k + 2)`. -/
theorem q_ref_linear_error (K : Type) [LinearOrderedField K] (dx x0 y0 : K) (k : Nat) :
    q_ref f dx x0 y0 k * (1 - dx / 2) = y0 * (1 + dx / 2) - 2 * y0 * (dx / 2) ^ (k + 2) := by
  induction k with
  | zero =>
    simp only [q_ref, f]
    ring
  | succ k ih =>
    simp only [q_ref, f]
    have e : (y0 + 1 / 2 * dx * (y0 + q_ref f dx x0 y0 k)) * (1 - dx / 2)
        = y0 * (1 - dx / 2) * (1 + dx / 2) + dx / 2 * (q_ref f dx x0 y0 k * (1 - dx / 2)) := by
      ring
    rw [e, ih]
    ring

/-! ## The step, for any arithmetic -/

/-- When the Euler predictor compares equal to `ylast` the loop is not entered and
the predictor is returned. -/
theorem one_step_skip {R : Type} (A : real_ops R) (dx : R) (f : rhs_func R)
    (s : iter_state R) (h : A.ne s.y (A.add s.y (A.mul dx (f s.x s.y))) = false) (n : Nat) :
    one_step A n dx f s
      = some { x := A.add s.x dx, y := A.add s.y (A.mul dx (f s.x s.y)) } := by
  rw [one_step_eq_some]
  exact ⟨picard_loop_exit _ _ _ _ _ _ _ _ h, rfl⟩

/-- When the loop was entered, the returned value was produced by the loop body
from a value that compares equal to it. -/
theorem one_step_fixed {R : Type} (A : real_ops R) (m : Nat) (dx : R) (f : rhs_func R)
    (s r : iter_state R) (h : one_step A m dx f s = some r)
    (hne : A.ne s.y (A.add s.y (A.mul dx (f s.x s.y))) = true) :
    ∃ q, A.ne q r.y = false ∧ r.y = picard_update A dx f s.x s.y q := by
  obtain ⟨hy, _⟩ := (one_step_eq_some A m dx f s r).1 h
  rcases picard_loop_result A dx f s.x s.y m _ _ _ hy with ⟨h1, _⟩ | h2
  · rw [hne] at h1
    exact Bool.noConfusion h1
  · exact h2

theorem q_code_succ {R : Type} (A : real_ops R) (dx : R) (f : rhs_func R) (x ylast : R)
    (k : Nat) :
    q_code A dx f x ylast (k + 1) = picard_update A dx f x ylast (q_code A dx f x ylast k) := by
  simp only [q_code, Function.iterate_succ_apply']

/-- If the test never fails on the successive values of the loop, the loop never exits. -/
theorem picard_loop_code_never {R : Type} (A : real_ops R) (dx : R) (f : rhs_func R)
    (x ylast : R)
    (hall : ∀ j, A.ne (q_code_prev A dx f x ylast j) (q_code A dx f x ylast j) = true)
    (n : Nat) :
    ∀ j, picard_loop A dx f x ylast n (q_code_prev A dx f x ylast j) (q_code A dx f x ylast j)
      = none := by
  induction n with
  | zero => exact fun j => picard_loop_stuck _ _ _ _ _ _ _ (hall j)
  | succ n ih =>
    intro j
    rw [picard_loop_enter _ _ _ _ _ _ _ _ (hall j), ← q_code_succ]
    exact ih (j + 1)

/-- The loop exits at the first index at which the test fails, after exactly the
iterations that lead there. -/
theorem picard_loop_code_least {R : Type} (A : real_ops R) (dx : R) (f : rhs_func R)
    (x ylast : R) (k : Nat)
    (hk : A.ne (q_code_prev A dx f x ylast k) (q_code A dx f x ylast k) = false)
    (hmin : ∀ j, j < k →
      A.ne (q_code_prev A dx f x ylast j) (q_code A dx f x ylast j) = true) (n : Nat) :
    ∀ j, j ≤ k →
      picard_loop A dx f x ylast n (q_code_prev A dx f x ylast j) (q_code A dx f x ylast j)
        = if k ≤ j + n then some (q_code A dx f x ylast k) else none := by
  induction n with
  | zero =>
    intro j hj
    rcases Nat.lt_or_ge j k with hlt | hge
    · rw [picard_loop_stuck _ _ _ _ _ _ _ (hmin j hlt), if_neg (by omega)]
    · obtain rfl : j = k := by omega
      rw [picard_loop_exit _ _ _ _ _ _ _ _ hk, if_pos (by omega)]
  | succ n ih =>
    intro j hj
    rcases Nat.lt_or_ge j k with hlt | hge
    · rw [picard_loop_enter _ _ _ _ _ _ _ _ (hmin j hlt), ← q_code_succ]
      have := ih (j + 1) (by omega)
      simp only [q_code_prev] at this
      rw [this]
      have e : (k ≤ j + 1 + n) ↔ (k ≤ j + (n + 1)) := by omega
      simp only [e]
    · obtain rfl : j = k := by omega
      rw [picard_loop_exit _ _ _ _ _ _ _ _ hk, if_pos (by omega)]

theorem one_step_code_least {R : Type} (A : real_ops R) (dx : R) (f : rhs_func R)
    (s : iter_state R) (k : Nat)
    (hk : A.ne (q_code_prev A dx f s.x s.y k) (q_code A dx f s.x s.y k) = false)
    (hmin : ∀ j, j < k →
      A.ne (q_code_prev A dx f s.x s.y j) (q_code A dx f s.x s.y j) = true) (m : Nat) :
    one_step A m dx f s
      = if k ≤ m then some { x := A.add s.x dx, y := q_code A dx f s.x s.y k } else none := by
  have h := picard_loop_code_least A dx f s.x s.y k hk hmin m 0 (Nat.zero_le k)
  simp only [q_code_prev, Nat.zero_add] at h
  rw [one_step_map]
  have e : q_code A dx f s.x s.y 0 = A.add s.y (A.mul dx (f s.x s.y)) := rfl
  rw [← e, h]
  split <;> rfl

theorem one_step_code_never {R : Type} (A : real_ops R) (dx : R) (f : rhs_func R)
    (s : iter_state R)
    (hall : ∀ j, A.ne (q_code_prev A dx f s.x s.y j) (q_code A dx f s.x s.y j) = true)
    (m : Nat) : one_step A m dx f s = none := by
  have h := picard_loop_code_never A dx f s.x s.y hall m 0
  rw [one_step_eq_none]
  exact h

/-- For a right-hand side that does not depend on `y`, when the loop is entered
and the trapezoidal value compares equal to itself, the step returns that value
as soon as two corrector iterations are allowed. -/
theorem one_step_quadrature_any {R : Type} (A : real_ops R) (dx : R) (g : R → R)
    (s : iter_state R)
    (hne : A.ne s.y (A.add s.y (A.mul dx (g s.x))) = true)
    (ht : A.ne (A.add s.y (A.mul (A.mul A.half (A.add (g s.x) (g (A.add s.x dx)))) dx))
      (A.add s.y (A.mul (A.mul A.half (A.add (g s.x) (g (A.add s.x dx)))) dx)) = false)
    (n : Nat) :
    one_step A (n + 2) dx (fun x _ => g x) s
      = some { x := A.add s.x dx,
               y := A.add s.y (A.mul (A.mul A.half (A.add (g s.x) (g (A.add s.x dx)))) dx) } := by
  rw [one_step_eq_some]
  refine ⟨?_, rfl⟩
  rw [picard_loop_enter _ _ _ _ _ _ _ _ hne]
  simp only [picard_update]
  cases h1 : A.ne (A.add s.y (A.mul dx (g s.x)))
      (A.add s.y (A.mul (A.mul A.half (A.add (g s.x) (g (A.add s.x dx)))) dx)) with
  | false => exact picard_loop_exit _ _ _ _ _ _ _ _ h1
  | true =>
    rw [picard_loop_enter _ _ _ _ _ _ _ _ h1]
    simp only [picard_update]
    exact picard_loop_exit _ _ _ _ _ _ _ _ ht

/-! ## Not-a-number -/

/-- Once `f(x, ylast)` is NaN the loop body produces NaN. -/
theorem picard_update_nan {R : Type} (A : real_ops R) (v : R) (hv : is_nan A v) (dx : R)
    (f : rhs_func R) (x ylast y : R) (hf : f x ylast = v) :
    picard_update A dx f x ylast y = v := by
  simp only [picard_update, hf, hv.add_left, hv.mul_right, hv.mul_left, hv.add_right]

/-- With a NaN in `state->y` the loop test stays true for ever. -/
theorem picard_loop_nan {R : Type} (A : real_ops R) (v : R) (hv : is_nan A v) (dx : R)
    (f : rhs_func R) (x ylast : R) (hf : f x ylast = v) (n : Nat) :
    ∀ pylast, picard_loop A dx f x ylast n pylast v = none := by
  induction n with
  | zero => exact fun pylast => picard_loop_stuck _ _ _ _ _ _ _ (hv.ne_right pylast)
  | succ n ih =>
    intro pylast
    rw [picard_loop_enter _ _ _ _ _ _ _ _ (hv.ne_right pylast),
      picard_update_nan A v hv dx f x ylast v hf]
    exact ih v

theorem one_step_nan {R : Type} (A : real_ops R) (v : R) (hv : is_nan A v) (dx : R)
    (f : rhs_func R) (s : iter_state R) (hf : f s.x s.y = v) (fuel : Nat) :
    one_step A fuel dx f s = none := by
  rw [one_step_eq_none, hf, hv.mul_right, hv.add_right]
  exact picard_loop_nan A v hv dx f s.x s.y hf fuel s.y

theorem integrate_nan {R : Type} (A : real_ops R) (v : R) (hv : is_nan A v) (dx : R)
    (f : rhs_func R) (s : iter_state R) (hf : f s.x s.y = v) (m n : Nat) (xfinal : R) :
    integrate A m n dx f xfinal s = none := by
  have hd : drive_loop A m dx f xfinal n s = none ∨ drive_loop A m dx f xfinal n s = some s := by
    cases n with
    | zero =>
      simp only [drive_loop]
      split
      · exact Or.inl rfl
      · exact Or.inr rfl
    | succ n =>
      simp only [drive_loop, one_step_nan A v hv dx f s hf m]
      split
      · exact Or.inl rfl
      · exact Or.inr rfl
  simp only [integrate]
  rcases hd with hd | hd
  · rw [hd]
  · rw [hd]
    exact one_step_nan A v hv _ f s hf m

/-- With a NaN in `state->y` on entry the step never returns either. -/
theorem one_step_nan_state {R : Type} (A : real_ops R) (v : R) (hv : is_nan A v) (dx : R)
    (f : rhs_func R) (s : iter_state R) (hs : s.y = v) (fuel : Nat) :
    one_step A fuel dx f s = none := by
  rw [one_step_eq_none, hs, hv.add_left]
  have hu : ∀ y, picard_update A dx f s.x v y = v := fun y => by
    simp only [picard_update, hv.add_left]
  have key : ∀ n p, picard_loop A dx f s.x v n p v = none := by
    intro n
    induction n with
    | zero => exact fun p => picard_loop_stuck _ _ _ _ _ _ _ (hv.ne_right p)
    | succ n ih =>
      intro p
      rw [picard_loop_enter _ _ _ _ _ _ _ _ (hv.ne_right p), hu]
      exact ih v
  exact key fuel v

theorem double_ops_is_nan : is_nan double_ops double.nan where
  add_left := fun a => by cases a <;> rfl
  add_right := fun a => by cases a <;> rfl
  mul_left := fun a => by cases a <;> rfl
  mul_right := fun a => by cases a <;> rfl
  ne_left := fun a => by cases a <;> rfl
  ne_right := fun a => by cases a <;> rfl

/-- No call of `one_step` returns with `y` equal to a NaN: the loop exits only on a
pair of values that compare equal. -/
theorem one_step_result_not_nan {R : Type} (A : real_ops R) (v : R) (hv : is_nan A v)
    (fuel : Nat) (dx : R) (f : rhs_func R) (s r : iter_state R)
    (h : one_step A fuel dx f s = some r) : r.y ≠ v := by
  intro hr
  obtain ⟨hy, _⟩ := (one_step_eq_some A fuel dx f s r).1 h
  rcases picard_loop_result A dx f s.x s.y fuel _ _ _ hy with ⟨h1, h2⟩ | ⟨q, hq, _⟩
  · rw [← h2, hr, hv.ne_right] at h1
    exact Bool.noConfusion h1
  · rw [hr, hv.ne_right] at hq
    exact Bool.noConfusion hq

/-! ## The drive loop -/

/-- The state on which the drive loop exits is the last one of its trace. -/
theorem drive_loop_last {R : Type} (A : real_ops R) (m : Nat) (dx : R) (f : rhs_func R)
    (xfinal : R) (n : Nat) :
    ∀ s r, drive_loop A m dx f xfinal n s = some r →
      (s :: drive_trace A m dx f xfinal n s).getLast? = some r := by
  induction n with
  | zero =>
    intro s r h
    simp only [drive_loop] at h
    split at h
    · exact Option.noConfusion h
    · simpa [drive_trace] using h
  | succ n ih =>
    intro s r h
    simp only [drive_loop] at h
    simp only [drive_trace]
    split at h
    · rename_i hlt
      rw [if_pos hlt]
      split at h
      · exact Option.noConfusion h
      · rename_i s1 h1
        rw [List.getLast?_cons_cons]
        exact ih s1 r h
    · rename_i hlt
      rw [if_neg hlt]
      simpa using h

/-- When the test of line 89 fails the drive loop returns the state as it is. -/
theorem drive_loop_exit {R : Type} (A : real_ops R) (m : Nat) (dx : R) (f : rhs_func R)
    (xfinal : R) (n : Nat) (s : iter_state R) (h : A.lt s.x (A.sub xfinal dx) = false) :
    drive_loop A m dx f xfinal n s = some s := by
  cases n <;> simp [drive_loop, h]

theorem drive_trace_exit {R : Type} (A : real_ops R) (m : Nat) (dx : R) (f : rhs_func R)
    (xfinal : R) (n : Nat) (s : iter_state R) (h : A.lt s.x (A.sub xfinal dx) = false) :
    drive_trace A m dx f xfinal n s = [] := by
  cases n <;> simp [drive_trace, h]

theorem drive_loop_stuck {R : Type} (A : real_ops R) (m : Nat) (dx : R) (f : rhs_func R)
    (xfinal : R) (s : iter_state R) (h : A.lt s.x (A.sub xfinal dx) = true) :
    drive_loop A m dx f xfinal 0 s = none := by
  simp [drive_loop, h]

theorem drive_loop_enter {R : Type} (A : real_ops R) (m : Nat) (dx : R) (f : rhs_func R)
    (xfinal : R) (n : Nat) (s s1 : iter_state R) (h : A.lt s.x (A.sub xfinal dx) = true)
    (h1 : one_step A m dx f s = some s1) :
    drive_loop A m dx f xfinal (n + 1) s = drive_loop A m dx f xfinal n s1 := by
  simp [drive_loop, h, h1]

theorem drive_loop_diverge {R : Type} (A : real_ops R) (m : Nat) (dx : R) (f : rhs_func R)
    (xfinal : R) (n : Nat) (s : iter_state R) (h : A.lt s.x (A.sub xfinal dx) = true)
    (h1 : one_step A m dx f s = none) :
    drive_loop A m dx f xfinal n s = none := by
  cases n <;> simp [drive_loop, h, h1]

theorem drive_trace_enter {R : Type} (A : real_ops R) (m : Nat) (dx : R) (f : rhs_func R)
    (xfinal : R) (n : Nat) (s s1 : iter_state R) (h : A.lt s.x (A.sub xfinal dx) = true)
    (h1 : one_step A m dx f s = some s1) :
    drive_trace A m dx f xfinal (n + 1) s = s1 :: drive_trace A m dx f xfinal n s1 := by
  simp [drive_trace, h, h1]

/-- A state that passes the test of line 89 and that a full step leaves as it
is keeps the drive loop running for ever. -/
theorem drive_loop_fixed_state {R : Type} (A : real_ops R) (m : Nat) (dx : R)
    (f : rhs_func R) (xfinal : R) (s : iter_state R)
    (hlt : A.lt s.x (A.sub xfinal dx) = true) (h1 : one_step A m dx f s = some s) (n : Nat) :
    drive_loop A m dx f xfinal n s = none := by
  induction n with
  | zero => exact drive_loop_stuck A m dx f xfinal s hlt
  | succ n ih => rw [drive_loop_enter A m dx f xfinal n s s hlt h1, ih]

theorem exact_lt_false (K : Type) [LinearOrderedField K] (a b : K) :
    ((exact_ops K).lt a b = false) ↔ ¬ a < b := by
  simp [exact_ops]

/-- The number of full steps, `max(0, ceil((xfinal - x0) / dx) - 1)`, is the least
`n` with `x0 + n * dx ≥ xfinal - dx`. -/
theorem full_steps_least (K : Type) [LinearOrderedField K] [FloorRing K] (dx x0 xfinal : K)
    (hdx : 0 < dx) :
    (∀ j : Nat, j < (⌈(xfinal - x0) / dx⌉ - 1).toNat → x0 + j * dx < xfinal - dx) ∧
    ¬ (x0 + ((⌈(xfinal - x0) / dx⌉ - 1).toNat : K) * dx < xfinal - dx) := by
  constructor
  · intro j hj
    have h1 : (j : ℤ) < ⌈(xfinal - x0) / dx⌉ - 1 := Int.lt_toNat.1 hj
    have h2 : ((j : ℤ) + 1) < ⌈(xfinal - x0) / dx⌉ := by omega
    have h3 : (((j : ℤ) + 1 : ℤ) : K) < (xfinal - x0) / dx := Int.lt_ceil.1 h2
    rw [lt_div_iff₀ hdx] at h3
    push_cast at h3
    linarith
  · intro hc
    have h1 : ⌈(xfinal - x0) / dx⌉ - 1 ≤ ((⌈(xfinal - x0) / dx⌉ - 1).toNat : ℤ) :=
      Int.self_le_toNat _
    have h2 : ((⌈(xfinal - x0) / dx⌉ - 1 : ℤ) : K)
        ≤ (((⌈(xfinal - x0) / dx⌉ - 1).toNat : ℤ) : K) := Int.cast_le.2 h1
    have h3 : (xfinal - x0) / dx ≤ (⌈(xfinal - x0) / dx⌉ : K) := Int.le_ceil _
    rw [div_le_iff₀ hdx] at h3
    push_cast at h2
    have h4 : (⌈(xfinal - x0) / dx⌉ : K) * dx
        ≤ (((⌈(xfinal - x0) / dx⌉ - 1).toNat : K) + 1) * dx :=
      mul_le_mul_of_nonneg_right (by linarith) (le_of_lt hdx)
    linarith

/-! ## The drive loop when the arithmetic on `x` is exact -/

theorem x_exact_tail {R K : Type} [LinearOrderedField K] (A : real_ops R) (val : R → K)
    (m : Nat) (dx : R) (f : rhs_func R) (xfinal : R) (n : Nat) (s s1 : iter_state R)
    (hx : x_exact A val m dx f xfinal (n + 1) s)
    (hlt : A.lt s.x (A.sub xfinal dx) = true) (h1 : one_step A m dx f s = some s1) :
    x_exact A val m dx f xfinal n s1 := by
  intro t ht
  apply hx t
  rw [drive_trace_enter A m dx f xfinal n s s1 hlt h1]
  exact List.mem_cons_of_mem _ ht

/-- In exact arithmetic the arithmetic on `x` is exact along every drive. -/
theorem x_exact_exact_ops (K : Type) [LinearOrderedField K] (m : Nat) (dx : K)
    (f : rhs_func K) (xfinal : K) (n : Nat) (s : iter_state K) :
    x_exact (exact_ops K) id m dx f xfinal n s := by
  intro t _
  refine ⟨?_, rfl, rfl, rfl⟩
  rw [exact_lt, exact_sub]
  rfl

/-- The state on which the drive loop exits is the initial state or one of the
stored states. -/
theorem drive_loop_mem {R : Type} (A : real_ops R) (m : Nat) (dx : R) (f : rhs_func R)
    (xfinal : R) (n : Nat) (s r : iter_state R)
    (h : drive_loop A m dx f xfinal n s = some r) :
    r ∈ s :: drive_trace A m dx f xfinal n s :=
  List.mem_of_getLast?_eq_some (drive_loop_last A m dx f xfinal n s r h)

/-- Every state stored by a full step lies strictly before `xfinal`. -/
theorem drive_trace_val_lt {R K : Type} [LinearOrderedField K] (A : real_ops R)
    (val : R → K) (m : Nat) (dx : R) (f : rhs_func R) (xfinal : R) (n : Nat) :
    ∀ s, x_exact A val m dx f xfinal n s →
      ∀ t, t ∈ drive_trace A m dx f xfinal n s → val t.x < val xfinal := by
  induction n with
  | zero =>
    intro s _ t ht
    simp [drive_trace] at ht
  | succ n ih =>
    intro s hx t ht
    cases hc : A.lt s.x (A.sub xfinal dx) with
    | false =>
      rw [drive_trace_exit A m dx f xfinal (n + 1) s hc] at ht
      simp at ht
    | true =>
      cases h1 : one_step A m dx f s with
      | none =>
        simp [drive_trace, hc, h1] at ht
      | some s1 =>
        rw [drive_trace_enter A m dx f xfinal n s s1 hc h1] at ht
        have hs := hx s (List.mem_cons_self _ _)
        have hx1 : s1.x = A.add s.x dx := ((one_step_eq_some A m dx f s s1).1 h1).2
        rcases List.mem_cons.1 ht with rfl | hmem
        · rw [hx1, hs.2.1]
          have := hs.1.1 hc
          linarith
        · exact ih s1 (x_exact_tail A val m dx f xfinal n s s1 hx hc h1) t hmem

/-- The state on which the drive loop exits fails the test of line 89, lies a
whole number of steps after the initial state, and is the initial state or lies
strictly before `xfinal`. -/
theorem drive_loop_exit_val {R K : Type} [LinearOrderedField K] (A : real_ops R)
    (val : R → K) (m : Nat) (dx : R) (f : rhs_func R) (xfinal : R) (N : Nat) :
    ∀ s r : iter_state R, x_exact A val m dx f xfinal N s →
      drive_loop A m dx f xfinal N s = some r →
      ¬ (val r.x < val xfinal - val dx) ∧
        ∃ n : Nat, val r.x = val s.x + n * val dx ∧ (n = 0 ∨ val r.x < val xfinal) := by
  induction N with
  | zero =>
    intro s r hx h
    cases hc : A.lt s.x (A.sub xfinal dx) with
    | true =>
      rw [drive_loop_stuck A m dx f xfinal s hc] at h
      exact Option.noConfusion h
    | false =>
      rw [drive_loop_exit A m dx f xfinal 0 s hc] at h
      obtain rfl := Option.some.inj h
      have hs := hx s (List.mem_cons_self _ _)
      refine ⟨fun hlt => ?_, 0, by simp, Or.inl rfl⟩
      rw [hs.1.2 hlt] at hc
      exact Bool.noConfusion hc
  | succ N ih =>
    intro s r hx h
    have hs := hx s (List.mem_cons_self _ _)
    cases hc : A.lt s.x (A.sub xfinal dx) with
    | false =>
      rw [drive_loop_exit A m dx f xfinal (N + 1) s hc] at h
      obtain rfl := Option.some.inj h
      refine ⟨fun hlt => ?_, 0, by simp, Or.inl rfl⟩
      rw [hs.1.2 hlt] at hc
      exact Bool.noConfusion hc
    | true =>
      cases h1 : one_step A m dx f s with
      | none =>
        rw [drive_loop_diverge A m dx f xfinal (N + 1) s hc h1] at h
        exact Option.noConfusion h
      | some s1 =>
        rw [drive_loop_enter A m dx f xfinal N s s1 hc h1] at h
        have hx1 : val s1.x = val s.x + val dx := by
          rw [((one_step_eq_some A m dx f s s1).1 h1).2, hs.2.1]
        have hlt : val s.x < val xfinal - val dx := hs.1.1 hc
        obtain ⟨hex, n, hn, hor⟩ :=
          ih s1 r (x_exact_tail A val m dx f xfinal N s s1 hx hc h1) h
        refine ⟨hex, n + 1, by rw [hn, hx1]; push_cast; ring, Or.inr ?_⟩
        rcases hor with h0 | hlt2
        · subst h0
          rw [hn, hx1]
          simp only [Nat.cast_zero, zero_mul, add_zero]
          linarith
        · exact hlt2

/-- If the test of line 89 holds on `x0, x0 + dx, ...` exactly `n` times and every
call of `one_step` that the drive loop makes returns, the drive loop exits after
exactly `n` full steps, on a state with `x = x0 + n * dx`. -/
theorem drive_loop_count_val {R K : Type} [LinearOrderedField K] (A : real_ops R)
    (val : R → K) (m : Nat) (dx : R) (f : rhs_func R) (xfinal : R) (n : Nat) :
    ∀ s : iter_state R, (∀ j : Nat, j < n → val s.x + j * val dx < val xfinal - val dx) →
      ¬ (val s.x + n * val dx < val xfinal - val dx) →
      x_exact A val m dx f xfinal n s →
      (∀ t, t ∈ s :: drive_trace A m dx f xfinal n s → A.lt t.x (A.sub xfinal dx) = true →
        ∃ r, one_step A m dx f t = some r) →
      ∃ r : iter_state R, val r.x = val s.x + n * val dx ∧
        ∀ N, drive_loop A m dx f xfinal N s = (if n ≤ N then some r else none) ∧
          (n ≤ N → (drive_trace A m dx f xfinal N s).length = n) := by
  induction n with
  | zero =>
    intro s _ hn hx _
    have hs := hx s (List.mem_cons_self _ _)
    have hf : A.lt s.x (A.sub xfinal dx) = false := by
      cases hc : A.lt s.x (A.sub xfinal dx) with
      | false => rfl
      | true =>
        exfalso
        apply hn
        simpa using hs.1.1 hc
    refine ⟨s, by simp, fun N => ⟨?_, fun _ => ?_⟩⟩
    · rw [drive_loop_exit A m dx f xfinal N s hf, if_pos (Nat.zero_le N)]
    · rw [drive_trace_exit A m dx f xfinal N s hf]
      rfl
  | succ n ih =>
    intro s hlow hn hx hcalls
    have hs := hx s (List.mem_cons_self _ _)
    have hlt0 : val s.x < val xfinal - val dx := by simpa using hlow 0 (Nat.succ_pos n)
    have hlt : A.lt s.x (A.sub xfinal dx) = true := hs.1.2 hlt0
    obtain ⟨s1, h1⟩ := hcalls s (List.mem_cons_self _ _) hlt
    have hx1 : val s1.x = val s.x + val dx := by
      rw [((one_step_eq_some A m dx f s s1).1 h1).2, hs.2.1]
    obtain ⟨r, hr, hN⟩ := ih s1
      (by
        intro j hj
        have := hlow (j + 1) (by omega)
        rw [hx1]
        push_cast at this
        linarith)
      (by
        rw [hx1]
        intro hc
        apply hn
        push_cast
        linarith)
      (x_exact_tail A val m dx f xfinal n s s1 hx hlt h1)
      (by
        intro t ht hlt2
        apply hcalls t _ hlt2
        rw [drive_trace_enter A m dx f xfinal n s s1 hlt h1]
        exact List.mem_cons_of_mem _ ht)
    refine ⟨r, by rw [hr, hx1]; push_cast; ring, fun N => ?_⟩
    cases N with
    | zero =>
      refine ⟨?_, fun h => absurd h (by omega)⟩
      rw [drive_loop_stuck A m dx f xfinal s hlt, if_neg (by omega)]
    | succ N =>
      rw [drive_loop_enter A m dx f xfinal N s s1 hlt h1,
        drive_trace_enter A m dx f xfinal N s s1 hlt h1]
      obtain ⟨e1, e2⟩ := hN N
      refine ⟨?_, fun h => ?_⟩
      · rw [e1]
        have e : (n ≤ N) ↔ (n + 1 ≤ N + 1) := by omega
        simp only [e]
      · rw [List.length_cons, e2 (by omega)]

/-- With a step `dx ≤ 0` a state that passes the test of line 89 is followed only
by states that pass it: the drive loop never exits. -/
theorem drive_loop_backward_val {R K : Type} [LinearOrderedField K] (A : real_ops R)
    (val : R → K) (m : Nat) (dx : R) (f : rhs_func R) (xfinal : R) (hdx : val dx ≤ 0)
    (N : Nat) :
    ∀ s : iter_state R, (∀ n, x_exact A val m dx f xfinal n s) →
      val s.x < val xfinal - val dx → drive_loop A m dx f xfinal N s = none := by
  induction N with
  | zero =>
    intro s hx hs
    exact drive_loop_stuck A m dx f xfinal s ((hx 0 s (List.mem_cons_self _ _)).1.2 hs)
  | succ N ih =>
    intro s hx hs
    have hs0 := hx 0 s (List.mem_cons_self _ _)
    have hlt := hs0.1.2 hs
    cases h1 : one_step A m dx f s with
    | none => exact drive_loop_diverge A m dx f xfinal (N + 1) s hlt h1
    | some s1 =>
      rw [drive_loop_enter A m dx f xfinal N s s1 hlt h1]
      apply ih s1 (fun n => x_exact_tail A val m dx f xfinal n s s1 (hx (n + 1)) hlt h1)
      rw [((one_step_eq_some A m dx f s s1).1 h1).2, hs0.2.1]
      linarith

/-! ## The corrector for `f(x, y) = y` when it is computed without rounding -/

/-- Read through `val`, the values of the loop are the reference iterates. -/
theorem q_code_val {R K : Type} [LinearOrderedField K] (A : real_ops R) (val : R → K)
    (dx x0 y0 : R) (k : Nat) (hy : y_exact A val dx x0 y0 k) :
    ∀ j, j ≤ k → val (q_code A dx f x0 y0 j) = q_ref f (val dx) (val x0) (val y0) j := by
  intro j
  induction j with
  | zero =>
    intro _
    rw [hy.1]
    rfl
  | succ j ih =>
    intro hj
    rw [hy.2 j (by omega), ih (by omega)]
    simp only [q_ref, f]
    ring

/-- In exact arithmetic the corrector is computed without rounding. -/
theorem y_exact_exact_ops (K : Type) [LinearOrderedField K] (dx x0 y0 : K) (k : Nat) :
    y_exact (exact_ops K) id dx x0 y0 k := by
  refine ⟨rfl, fun j _ => ?_⟩
  rw [q_code_succ, exact_picard_update]
  simp only [id, f]
  ring

/-- The integration is the last step applied to the exit state of the drive loop. -/
theorem integrate_of_drive_some {R : Type} (A : real_ops R) (m n : Nat) (dx : R)
    (f : rhs_func R) (xfinal : R) (s r : iter_state R)
    (h : drive_loop A m dx f xfinal n s = some r) :
    integrate A m n dx f xfinal s = one_step A m (A.sub xfinal r.x) f r := by
  simp only [integrate, h]

theorem integrate_of_drive_none {R : Type} (A : real_ops R) (m n : Nat) (dx : R)
    (f : rhs_func R) (xfinal : R) (s : iter_state R)
    (h : drive_loop A m dx f xfinal n s = none) :
    integrate A m n dx f xfinal s = none := by
  simp only [integrate, h]

/-- In exact rational arithmetic the integration with the values of `main` returns
for no fuel: its first step, `f(x, y) = y` from `(0, 1)` with `dx = 1e-6`, never
converges. -/
theorem integrate_exact_never_returns (m n : Nat) :
    integrate (exact_ops ℚ) m n (1 / 1000000) f 1 { x := 0, y := 1 } = none := by
  apply integrate_of_drive_none
  apply drive_loop_diverge
  · rw [exact_lt, exact_sub]
    norm_num
  · exact one_step_linear_never ℚ (1 / 1000000) 0 1 (by norm_num) m

theorem integrate_x (K : Type) [LinearOrderedField K] (m n : Nat) (dx : K) (f : rhs_func K)
    (xfinal : K) (xy r : iter_state K)
    (h : integrate (exact_ops K) m n dx f xfinal xy = some r) : r.x = xfinal := by
  simp only [integrate] at h
  split at h
  · exact Option.noConfusion h
  · rename_i s1 _
    rw [((one_step_eq_some _ m _ f s1 r).1 h).2]
    simp

/-! ## The step -/

/-- C3. Commit of x: whenever `one_step` returns, the stored `x` is `x_old + dx`,
whatever `f`, `y` and the number of corrector iterations; and `x` is not touched
while the corrector runs, so the step only reads `f` on the abscissae `x_old` and
`x_old + dx`: a right-hand side `g` that agrees with `f` on these two abscissae
gives the very same outcome. Holds for every arithmetic of `real`. -/
theorem one_step_commits_x {R : Type} (A : real_ops R) (fuel : Nat) (dx : R) (f : rhs_func R)
    (s : iter_state R) :
    (∀ r, one_step A fuel dx f s = some r → r.x = A.add s.x dx) ∧
    (∀ g : rhs_func R, (∀ y, g s.x y = f s.x y) →
      (∀ y, g (A.add s.x dx) y = f (A.add s.x dx) y) →
      one_step A fuel dx g s = one_step A fuel dx f s) := by
  refine ⟨fun r h => ((one_step_eq_some A fuel dx f s r).1 h).2, ?_⟩
  intro g h0 h1
  rw [one_step_map, one_step_map, picard_loop_congr A dx f g s.x s.y h0 h1, h0]

theorem one_step_commits_x_witness :
    (∀ r, one_step (exact_ops ℚ) 2 (2 / 5) (fun x _ => x + 1) { x := 0, y := 0 } = some r →
      r.x = 2 / 5) ∧
    one_step (exact_ops ℚ) 2 (2 / 5) (fun x _ => if x = 0 ∨ x = 2 / 5 then x + 1 else 7)
        { x := 0, y := 0 }
      = one_step (exact_ops ℚ) 2 (2 / 5) (fun x _ => x + 1) { x := 0, y := 0 } := by
  have h := one_step_commits_x (exact_ops ℚ) 2 (2 / 5) (fun x _ => x + 1) { x := 0, y := 0 }
  refine ⟨fun r hr => ?_, h.2 _ (fun y => by simp) (fun y => by simp)⟩
  rw [h.1 r hr]
  norm_num

/-- C8. Determinism of the step: the outcome of `one_step` is a function of
`(f, x, y, dx)` alone. If one run returns `r1`, then every run that returns gives
the same state, and every run allowed at least as many corrector iterations does
return it. Holds for every arithmetic of `real`. -/
theorem one_step_deterministic {R : Type} (A : real_ops R) (dx : R) (f : rhs_func R)
    (s : iter_state R) (m1 : Nat) (r1 : iter_state R)
    (h1 : one_step A m1 dx f s = some r1) :
    (∀ m2 r2, one_step A m2 dx f s = some r2 → r2 = r1) ∧
    (∀ m2, m1 ≤ m2 → one_step A m2 dx f s = some r1) := by
  obtain ⟨hy1, hx1⟩ := (one_step_eq_some A m1 dx f s r1).1 h1
  constructor
  · intro m2 r2 h2
    obtain ⟨hy2, hx2⟩ := (one_step_eq_some A m2 dx f s r2).1 h2
    have hy := picard_loop_fuel_irrelevant A dx f s.x s.y m2 m1 _ _ _ _ hy2 hy1
    cases r1
    cases r2
    simp_all
  · intro m2 hm
    exact (one_step_eq_some A m2 dx f s r1).2
      ⟨picard_loop_mono A dx f s.x s.y m1 _ _ _ hy1 m2 hm, hx1⟩

theorem one_step_deterministic_witness :
    one_step (exact_ops ℚ) 2 (1 / 3) (fun x _ => x) { x := 1, y := 0 }
        = some { x := 4 / 3, y := 7 / 18 } ∧
    one_step (exact_ops ℚ) 9 (1 / 3) (fun x _ => x) { x := 1, y := 0 }
        = some { x := 4 / 3, y := 7 / 18 } :=
  have h : one_step (exact_ops ℚ) 2 (1 / 3) (fun x _ => x) { x := 1, y := 0 }
      = some { x := 4 / 3, y := 7 / 18 } := by
    norm_num [one_step, picard_loop, picard_update, exact_ops]
  ⟨h, (one_step_deterministic (exact_ops ℚ) (1 / 3) (fun x _ => x) { x := 1, y := 0 } 2
    { x := 4 / 3, y := 7 / 18 } h).2 9 (by decide)⟩

/-- C10 (as amended). Skipped correction, for every arithmetic of `real`: when the
Euler predictor `y_old + dx * f(x_old, y_old)` compares equal to `y_old` (the test
of line 58 fails at once), `one_step` runs no corrector iteration (it returns with
no fuel at all, hence with any fuel) and returns that predictor with
`x = x_old + dx`. -/
theorem one_step_skips_correction {R : Type} (A : real_ops R) (dx : R) (f : rhs_func R)
    (s : iter_state R) (h : A.ne s.y (A.add s.y (A.mul dx (f s.x s.y))) = false)
    (fuel : Nat) :
    one_step A 0 dx f s
      = some { x := A.add s.x dx, y := A.add s.y (A.mul dx (f s.x s.y)) } ∧
    one_step A fuel dx f s
      = some { x := A.add s.x dx, y := A.add s.y (A.mul dx (f s.x s.y)) } :=
  ⟨one_step_skip A dx f s h 0, one_step_skip A dx f s h fuel⟩

/-- Witness of C10 on binary64, `f(x, y) = x`, state `(0, 0)`, `dx = 1`: the step
returns `y = 0` with no iteration although the loop body would give `1 / 2`. -/
theorem one_step_skips_correction_witness :
    one_step double_ops 0 (double.of_ratio 1 1) (fun x _ => x)
        { x := double.of_ratio 0 1, y := double.of_ratio 0 1 }
      = some { x := double_ops.add (double.of_ratio 0 1) (double.of_ratio 1 1),
               y := double_ops.add (double.of_ratio 0 1)
                 (double_ops.mul (double.of_ratio 1 1) (double.of_ratio 0 1)) } ∧
    double_ops.add (double.of_ratio 0 1)
        (double_ops.mul (double.of_ratio 1 1) (double.of_ratio 0 1)) = double.of_ratio 0 1 ∧
    picard_update double_ops (double.of_ratio 1 1) (fun x _ => x) (double.of_ratio 0 1)
        (double.of_ratio 0 1) (double.of_ratio 0 1) = double.of_ratio 1 2 :=
  ⟨(one_step_skips_correction double_ops (double.of_ratio 1 1) (fun x _ => x)
      { x := double.of_ratio 0 1, y := double.of_ratio 0 1 } (by decide!) 0).1,
    by decide!, by decide!⟩

/-- Counterexample to C10 as stated, on binary64: for `f(x, y) = x`, `dx = 1` and
the state `(0, NaN)` the product `dx * f(x_old, y_old)` is `0`, yet `one_step`
returns for no fuel (it does not return `y_old` after zero iterations). -/
theorem one_step_skip_fails_on_nan :
    double_ops.mul (double.of_ratio 1 1) ((fun x _ => x) (double.of_ratio 0 1) double.nan)
        = double.of_ratio 0 1 ∧
    ¬ ∃ fuel r, one_step double_ops fuel (double.of_ratio 1 1) (fun x _ => x)
        { x := double.of_ratio 0 1, y := double.nan } = some r := by
  refine ⟨by decide!, ?_⟩
  rintro ⟨fuel, r, h⟩
  rw [one_step_nan_state double_ops double.nan double_ops_is_nan (double.of_ratio 1 1)
    (fun x _ => x) { x := double.of_ratio 0 1, y := double.nan } rfl fuel] at h
  exact Option.noConfusion h

/-- C9 (as amended). Reference iteration, for every arithmetic of `real`, with the
association and the comparison of the code: `q_(-1) = y_old`,
`q_0 = y_old + dx * f(x_old, y_old)` and
`q_(k+1) = y_old + (0.5 * (f(x_old, y_old) + f(x_old + dx, q_k))) * dx`.
`one_step` returns iff for some `k` the test `q_(k-1) != q_k` fails; for the least
such `k` it returns `y = q_k` and `x = x_old + dx` as soon as `k` corrector
iterations are allowed and not with fewer; `q_1` is the Heun value computed from
the Euler predictor; and in exact arithmetic `q_k` is the reference iterate of the
specification. -/
theorem one_step_refines_iterates {R : Type} (A : real_ops R) (dx : R) (f : rhs_func R)
    (s : iter_state R) :
    ((∃ m r, one_step A m dx f s = some r) ↔
      ∃ k, A.ne (q_code_prev A dx f s.x s.y k) (q_code A dx f s.x s.y k) = false) ∧
    (∀ k, A.ne (q_code_prev A dx f s.x s.y k) (q_code A dx f s.x s.y k) = false →
      (∀ j, j < k → A.ne (q_code_prev A dx f s.x s.y j) (q_code A dx f s.x s.y j) = true) →
      ∀ m, one_step A m dx f s
        = if k ≤ m then some { x := A.add s.x dx, y := q_code A dx f s.x s.y k } else none) ∧
    q_code A dx f s.x s.y 0 = A.add s.y (A.mul dx (f s.x s.y)) ∧
    (∀ k, q_code A dx f s.x s.y (k + 1)
      = A.add s.y (A.mul (A.mul A.half
          (A.add (f s.x s.y) (f (A.add s.x dx) (q_code A dx f s.x s.y k)))) dx)) ∧
    (∀ (K : Type) [LinearOrderedField K] (d : K) (g : rhs_func K) (a b : K) (k : Nat),
      q_code (exact_ops K) d g a b k = q_ref g d a b k) := by
  refine ⟨⟨?_, ?_⟩, fun k hk hmin m => one_step_code_least A dx f s k hk hmin m, rfl,
    fun k => q_code_succ A dx f s.x s.y k,
    fun K _ d g a b k => picard_update_iterate K d g a b k⟩
  · rintro ⟨m, r, h⟩
    by_contra hno
    have hall : ∀ j, A.ne (q_code_prev A dx f s.x s.y j) (q_code A dx f s.x s.y j) = true := by
      intro j
      cases hj : A.ne (q_code_prev A dx f s.x s.y j) (q_code A dx f s.x s.y j) with
      | true => rfl
      | false => exact absurd ⟨j, hj⟩ hno
    rw [one_step_code_never A dx f s hall m] at h
    exact Option.noConfusion h
  · intro hex
    refine ⟨Nat.find hex, { x := A.add s.x dx, y := q_code A dx f s.x s.y (Nat.find hex) }, ?_⟩
    rw [one_step_code_least A dx f s (Nat.find hex) (Nat.find_spec hex)
      (fun j hj => by
        cases hc : A.ne (q_code_prev A dx f s.x s.y j) (q_code A dx f s.x s.y j) with
        | true => rfl
        | false => exact absurd hc (Nat.find_min hex hj))
      (Nat.find hex), if_pos (le_refl _)]

/-- Witness of C9 on binary64 with the right-hand side of the program, state
`(0, 1)` and `dx = 2 ^ (-20)`: the test first fails for `k = 2`, and the step
returns with fuel 2 and not with fuel 1. -/
theorem one_step_refines_iterates_witness :
    one_step double_ops 2 (double.pow2 (-20)) f
        { x := double.of_ratio 0 1, y := double.of_ratio 1 1 }
      = some { x := double_ops.add (double.of_ratio 0 1) (double.pow2 (-20)),
               y := q_code double_ops (double.pow2 (-20)) f (double.of_ratio 0 1)
                 (double.of_ratio 1 1) 2 } ∧
    one_step double_ops 1 (double.pow2 (-20)) f
        { x := double.of_ratio 0 1, y := double.of_ratio 1 1 } = none := by
  have h := (one_step_refines_iterates double_ops (double.pow2 (-20)) f
    { x := double.of_ratio 0 1, y := double.of_ratio 1 1 }).2.1 2 (by decide!)
    (by
      intro j hj
      interval_cases j <;> decide!)
  exact ⟨by rw [h 2, if_pos (le_refl 2)], by rw [h 1, if_neg (by decide)]⟩

/-- Counterexample to C9 as stated, on binary64: with the constant right-hand side
`2`, state `(0, 0)` and `dx = 2 ^ (-1074)`, the reference iteration of the
specification has `q_0 = 2 ^ (-1073)` and `q_1 = 0` (its product `0.5 * dx`
underflows to `0`), so neither `q_0 = q_(-1)` nor `q_1 = q_0`; yet `one_step`
returns after one corrector iteration, with `y = 2 ^ (-1073)`. -/
theorem one_step_reference_association_fails :
    one_step double_ops 1 (double.pow2 (-1074)) (fun _ _ => double.of_ratio 2 1)
        { x := double.of_ratio 0 1, y := double.of_ratio 0 1 }
      = some { x := double.pow2 (-1074), y := double.pow2 (-1073) } ∧
    q_spec double_ops (fun _ _ => double.of_ratio 2 1) (double.pow2 (-1074))
        (double.of_ratio 0 1) (double.of_ratio 0 1) 0 = double.pow2 (-1073) ∧
    q_spec double_ops (fun _ _ => double.of_ratio 2 1) (double.pow2 (-1074))
        (double.of_ratio 0 1) (double.of_ratio 0 1) 1 = double.of_ratio 0 1 ∧
    double_ops.ne (double.of_ratio 0 1) (double.pow2 (-1073)) = true := by
  decide!

/-- C2 (defect of the code). On binary64, for `f(x, y) = x`, state `(0, 0)` and
`dx = 1`: `one_step` returns `y = 0` with no corrector iteration at all, because
the Euler predictor equals `y_old`; the loop body, which the header comment says
is run to update the estimate, maps `0` to `1 / 2`, so the returned `y` is not a
fixed point of the corrector map. -/
theorem one_step_skips_picard_update :
    one_step double_ops 0 (double.of_ratio 1 1) (fun x _ => x)
        { x := double.of_ratio 0 1, y := double.of_ratio 0 1 }
      = some { x := double.of_ratio 1 1, y := double.of_ratio 0 1 } ∧
    picard_update double_ops (double.of_ratio 1 1) (fun x _ => x) (double.of_ratio 0 1)
        (double.of_ratio 0 1) (double.of_ratio 0 1) = double.of_ratio 1 2 ∧
    double_ops.ne (double.of_ratio 0 1) (double.of_ratio 1 2) = true := by
  decide!

/-- C1. Boundary landing: in exact arithmetic, whenever the integration (full steps
of size `dx` while `x < xfinal - dx`, then one step of size `xfinal - x`) returns,
the final `x` is exactly `xfinal`, whether or not `dx` divides `xfinal - x0`. -/
theorem integrate_lands_on_xfinal (K : Type) [LinearOrderedField K] (m n : Nat) (dx : K)
    (f : rhs_func K) (xfinal : K) (xy r : iter_state K)
    (h : integrate (exact_ops K) m n dx f xfinal xy = some r) : r.x = xfinal :=
  integrate_x K m n dx f xfinal xy r h

/-- Witness of C1 with `dx = 2 / 5` from `x0 = 0` to `xfinal = 1` (two full steps
and a last step of size `1 / 5`), right-hand side `x + 1`. -/
theorem integrate_lands_on_xfinal_witness :
    integrate (exact_ops ℚ) 2 5 (2 / 5) (fun x _ => x + 1) 1 { x := 0, y := 0 }
        = some { x := 1, y := 3 / 2 } ∧
    ({ x := 1, y := 3 / 2 } : iter_state ℚ).x = 1 :=
  have h : integrate (exact_ops ℚ) 2 5 (2 / 5) (fun x _ => x + 1) 1 { x := 0, y := 0 }
      = some { x := 1, y := 3 / 2 } := by
    norm_num [integrate, drive_loop, one_step, picard_loop, picard_update, exact_ops]
  ⟨h, integrate_lands_on_xfinal ℚ 2 5 (2 / 5) (fun x _ => x + 1) 1 { x := 0, y := 0 }
    { x := 1, y := 3 / 2 } h⟩

/-- C6 (as amended). NaN at the evaluated point: for every arithmetic with a NaN
(absorbing for `+` and `*`, unequal to everything, itself included), when
`f(x_old, y_old)` is NaN the corrector loop of `one_step` never exits, whatever the
fuel, so the step does not return; an integration started on such a state does not
return either; and no call of `one_step`, on any state and right-hand side, returns
with `y` equal to NaN. -/
theorem one_step_nan_never_returns {R : Type} (A : real_ops R) (v : R) (hv : is_nan A v)
    (dx : R) (f : rhs_func R) (s : iter_state R) (hf : f s.x s.y = v) :
    (∀ fuel, one_step A fuel dx f s = none) ∧
    (∀ m n xfinal, integrate A m n dx f xfinal s = none) ∧
    (∀ fuel dx2 (g : rhs_func R) (s2 r : iter_state R),
      one_step A fuel dx2 g s2 = some r → r.y ≠ v) :=
  ⟨fun fuel => one_step_nan A v hv dx f s hf fuel,
    fun m n xfinal => integrate_nan A v hv dx f s hf m n xfinal,
    fun fuel dx2 g s2 r h => one_step_result_not_nan A v hv fuel dx2 g s2 r h⟩

/-- Witness of C6 on the rationals with NaN, right-hand side NaN everywhere,
state `(0, 1)`, `dx = 1 / 4`. -/
theorem one_step_nan_never_returns_witness :
    (∀ fuel, one_step nan_ops fuel (some (1 / 4)) (fun _ _ => none)
      { x := some 0, y := some 1 } = none) ∧
    (∀ m n xfinal, integrate nan_ops m n (some (1 / 4)) (fun _ _ => none) xfinal
      { x := some 0, y := some 1 } = none) ∧
    (∀ fuel dx2 (g : rhs_func (Option ℚ)) (s2 r : iter_state (Option ℚ)),
      one_step nan_ops fuel dx2 g s2 = some r → r.y ≠ none) :=
  one_step_nan_never_returns nan_ops none nan_ops_is_nan (some (1 / 4)) (fun _ _ => none)
    { x := some 0, y := some 1 } rfl

/-- Counterexample to C6 as stated: with a right-hand side that is NaN at `x = 0`
(and `y` elsewhere), from the state `(0, 1)` with `dx = 1` no amount of fuel lets
`one_step` complete, so it does not complete with `y` equal to NaN. -/
theorem one_step_nan_does_not_complete :
    ¬ ∃ fuel r, one_step nan_ops fuel (some 1)
      (fun x y => if x = some 0 then none else y) { x := some 0, y := some 1 } = some r := by
  rintro ⟨fuel, r, h⟩
  rw [one_step_nan nan_ops none nan_ops_is_nan (some 1)
    (fun x y => if x = some 0 then none else y) { x := some 0, y := some 1 } (by simp) fuel] at h
  exact Option.noConfusion h

/-! ## Particular right-hand sides -/

/-- C11 (as amended). Pure quadrature, for every arithmetic of `real`: for a
right-hand side `f(x, y) = g(x)`, when the Euler predictor
`y_old + dx * g(x_old)` compares unequal to `y_old` and the trapezoidal value
`t = y_old + (0.5 * (g(x_old) + g(x_old + dx))) * dx` compares equal to itself
(it is not NaN), `one_step` returns as soon as two corrector iterations are
allowed, with `y = t` and `x = x_old + dx`. -/
theorem one_step_pure_quadrature {R : Type} (A : real_ops R) (dx : R) (g : R → R)
    (s : iter_state R)
    (hne : A.ne s.y (A.add s.y (A.mul dx (g s.x))) = true)
    (ht : A.ne (A.add s.y (A.mul (A.mul A.half (A.add (g s.x) (g (A.add s.x dx)))) dx))
      (A.add s.y (A.mul (A.mul A.half (A.add (g s.x) (g (A.add s.x dx)))) dx)) = false)
    (fuel : Nat) (hfuel : 2 ≤ fuel) :
    one_step A fuel dx (fun x _ => g x) s
      = some { x := A.add s.x dx,
               y := A.add s.y (A.mul (A.mul A.half (A.add (g s.x) (g (A.add s.x dx)))) dx) } := by
  obtain ⟨n, rfl⟩ : ∃ n, fuel = n + 2 := ⟨fuel - 2, by omega⟩
  exact one_step_quadrature_any A dx g s hne ht n

/-- Witness of C11 on binary64 with `g(x) = x`, state `(1, 0)`, `dx = 1`: the step
returns `x = 2` and `y = 0 + (0.5 * (1 + 2)) * 1 = 3 / 2`. -/
theorem one_step_pure_quadrature_witness :
    one_step double_ops 2 (double.of_ratio 1 1) (fun x _ => (fun t => t) x)
        { x := double.of_ratio 1 1, y := double.of_ratio 0 1 }
      = some { x := double_ops.add (double.of_ratio 1 1) (double.of_ratio 1 1),
               y := double_ops.add (double.of_ratio 0 1)
                 (double_ops.mul (double_ops.mul double_ops.half
                   (double_ops.add (double.of_ratio 1 1)
                     (double_ops.add (double.of_ratio 1 1) (double.of_ratio 1 1))))
                   (double.of_ratio 1 1)) } ∧
    double_ops.add (double.of_ratio 0 1)
        (double_ops.mul (double_ops.mul double_ops.half
          (double_ops.add (double.of_ratio 1 1)
            (double_ops.add (double.of_ratio 1 1) (double.of_ratio 1 1))))
          (double.of_ratio 1 1)) = double.of_ratio 3 2 :=
  ⟨one_step_pure_quadrature double_ops (double.of_ratio 1 1) (fun t => t)
      { x := double.of_ratio 1 1, y := double.of_ratio 0 1 } (by decide!) (by decide!) 2
      (le_refl 2),
    by decide!⟩

/-- Counterexample to C11 as stated, on binary64. With `g(0) = 2 ^ (-60)`,
`g(x) = 1` elsewhere, state `(0, 1)` and `dx = 1`: `dx * g(x_old)` is not zero,
but the Euler predictor rounds to `y_old`, and the step returns `y = 1` while the
trapezoidal value is `3 / 2`. With `g(0) = 1`, `g(x) = NaN` elsewhere, state
`(0, 0)` and `dx = 1`: `dx * g(x_old)` is not zero and the step has not returned
after two corrector iterations. -/
theorem one_step_pure_quadrature_fails :
    double_ops.ne (double_ops.mul (double.of_ratio 1 1) (double.pow2 (-60)))
        (double.of_ratio 0 1) = true ∧
    one_step double_ops 2 (double.of_ratio 1 1)
        (fun x _ => if x = double.of_ratio 0 1 then double.pow2 (-60) else double.of_ratio 1 1)
        { x := double.of_ratio 0 1, y := double.of_ratio 1 1 }
      = some { x := double.of_ratio 1 1, y := double.of_ratio 1 1 } ∧
    double_ops.add (double.of_ratio 1 1)
        (double_ops.mul (double_ops.mul double_ops.half
          (double_ops.add (double.pow2 (-60)) (double.of_ratio 1 1))) (double.of_ratio 1 1))
      = double.of_ratio 3 2 ∧
    double_ops.ne (double_ops.mul (double.of_ratio 1 1) (double.of_ratio 1 1))
        (double.of_ratio 0 1) = true ∧
    one_step double_ops 2 (double.of_ratio 1 1)
        (fun x _ => if x = double.of_ratio 0 1 then double.of_ratio 1 1 else double.nan)
        { x := double.of_ratio 0 1, y := double.of_ratio 0 1 } = none := by
  decide!

/-- C14. Non-termination in exact arithmetic: for `f(x, y) = y`, `y0 ≠ 0` and
`dx ≠ 0`, the value held after `k` corrector iterations and the one before it
differ by `2 * y0 * (dx / 2) ^ (k + 1)`, which is not zero, for every `k`; so the
loop test never fails and `one_step` returns for no amount of fuel. -/
theorem one_step_linear_never_terminates (K : Type) [LinearOrderedField K] (dx x0 y0 : K)
    (hy : y0 ≠ 0) (hdx : dx ≠ 0) :
    (∀ k, q_ref f dx x0 y0 k - q_prev f dx x0 y0 k = 2 * y0 * (dx / 2) ^ (k + 1) ∧
      2 * y0 * (dx / 2) ^ (k + 1) ≠ 0) ∧
    (∀ k, (picard_update (exact_ops K) dx f x0 y0)^[k]
        ((exact_ops K).add y0 ((exact_ops K).mul dx (f x0 y0))) = q_ref f dx x0 y0 k) ∧
    (∀ fuel, one_step (exact_ops K) fuel dx f { x := x0, y := y0 } = none) :=
  ⟨fun k => ⟨q_ref_linear_diff K dx x0 y0 k,
      mul_ne_zero (mul_ne_zero two_ne_zero hy) (pow_ne_zero _ (div_ne_zero hdx two_ne_zero))⟩,
    fun k => picard_update_iterate K dx f x0 y0 k,
    fun fuel => one_step_linear_never K dx x0 y0 (mul_ne_zero hdx hy) fuel⟩

/-- Witness of C14 on the values of `main`: state `(0, 1)` and `dx = 1e-6`. -/
theorem one_step_linear_never_terminates_witness :
    ¬ ∃ fuel r, one_step (exact_ops ℚ) fuel (1 / 1000000) f { x := 0, y := 1 } = some r := by
  rintro ⟨fuel, r, h⟩
  rw [(one_step_linear_never_terminates ℚ (1 / 1000000) 0 1 (by norm_num) (by norm_num)).2.2
    fuel] at h
  exact Option.noConfusion h

/-- C15 (as amended). Exact corrector error for `f(x, y) = y`, for every
arithmetic of `real`, when the Euler predictor and the first `k` corrector values
are computed without rounding (as is always the case in exact arithmetic): the
value `q_k` held in `state->y` after `k` corrector iterations started on the Euler
predictor `q_0 = y0 * (1 + dx)` satisfies
`q_k * (1 - dx / 2) = y0 * (1 + dx / 2) - 2 * y0 * (dx / 2) ^ (k + 2)`; hence for
`dx ≠ 2` its distance to `y0 * (1 + dx / 2) / (1 - dx / 2)` is multiplied by
`dx / 2` at each of these iterations. -/
theorem picard_update_linear_error {R K : Type} [LinearOrderedField K] (A : real_ops R)
    (val : R → K) (dx x0 y0 : R) (k : Nat) (hy : y_exact A val dx x0 y0 k) :
    val (q_code A dx f x0 y0 0) = val y0 * (1 + val dx) ∧
    val (q_code A dx f x0 y0 k) * (1 - val dx / 2)
      = val y0 * (1 + val dx / 2) - 2 * val y0 * (val dx / 2) ^ (k + 2) ∧
    (val dx ≠ 2 → ∀ j, j < k →
      val (q_code A dx f x0 y0 (j + 1)) - val y0 * (1 + val dx / 2) / (1 - val dx / 2)
        = val dx / 2 *
          (val (q_code A dx f x0 y0 j) - val y0 * (1 + val dx / 2) / (1 - val dx / 2))) ∧
    (∀ (L : Type) [LinearOrderedField L] (d a b : L) (i : Nat),
      y_exact (exact_ops L) id d a b i) := by
  have hq := q_code_val A val dx x0 y0 k hy
  refine ⟨?_, ?_, ?_, fun L _ d a b i => y_exact_exact_ops L d a b i⟩
  · rw [hy.1]
    ring
  · rw [hq k (le_refl k)]
    exact q_ref_linear_error K (val dx) (val x0) (val y0) k
  · intro hdx j hj
    have hden : (1 : K) - val dx / 2 ≠ 0 := by
      intro hc
      apply hdx
      linear_combination (-2 : K) * hc
    rw [hq (j + 1) (by omega), hq j (by omega)]
    have e0 := q_ref_linear_error K (val dx) (val x0) (val y0) j
    have e1 := q_ref_linear_error K (val dx) (val x0) (val y0) (j + 1)
    have d0 : q_ref f (val dx) (val x0) (val y0) j
          - val y0 * (1 + val dx / 2) / (1 - val dx / 2)
        = -(2 * val y0 * (val dx / 2) ^ (j + 2)) / (1 - val dx / 2) := by
      rw [eq_div_iff hden, sub_mul, div_mul_cancel₀ _ hden, e0]
      ring
    have d1 : q_ref f (val dx) (val x0) (val y0) (j + 1)
          - val y0 * (1 + val dx / 2) / (1 - val dx / 2)
        = -(2 * val y0 * (val dx / 2) ^ (j + 1 + 2)) / (1 - val dx / 2) := by
      rw [eq_div_iff hden, sub_mul, div_mul_cancel₀ _ hden, e1]
      ring
    rw [d0, d1, pow_succ (val dx / 2) (j + 2)]
    ring

/-- Witness of C15 on binary64 with `y0 = 1`, `dx = 1` and `k = 10`, where the
corrector values `3 - 2 ^ (-j)` are computed without rounding: `q_10 = 3071 / 1024`
satisfies the identity, and the distance to the closed form `3` is halved from
`q_3` to `q_4`. -/
theorem picard_update_linear_error_witness :
    q_code double_ops (double.of_ratio 1 1) f (double.of_ratio 0 1) (double.of_ratio 1 1) 10
      = double.of_ratio 3071 1024 ∧
    double.to_rat (q_code double_ops (double.of_ratio 1 1) f (double.of_ratio 0 1)
        (double.of_ratio 1 1) 10) * (1 - double.to_rat (double.of_ratio 1 1) / 2)
      = double.to_rat (double.of_ratio 1 1) * (1 + double.to_rat (double.of_ratio 1 1) / 2)
        - 2 * double.to_rat (double.of_ratio 1 1)
          * (double.to_rat (double.of_ratio 1 1) / 2) ^ (10 + 2) ∧
    double.to_rat (q_code double_ops (double.of_ratio 1 1) f (double.of_ratio 0 1)
        (double.of_ratio 1 1) (3 + 1))
      - double.to_rat (double.of_ratio 1 1) * (1 + double.to_rat (double.of_ratio 1 1) / 2)
        / (1 - double.to_rat (double.of_ratio 1 1) / 2)
      = double.to_rat (double.of_ratio 1 1) / 2 *
        (double.to_rat (q_code double_ops (double.of_ratio 1 1) f (double.of_ratio 0 1)
          (double.of_ratio 1 1) 3)
        - double.to_rat (double.of_ratio 1 1) * (1 + double.to_rat (double.of_ratio 1 1) / 2)
          / (1 - double.to_rat (double.of_ratio 1 1) / 2)) :=
  have h := picard_update_linear_error double_ops double.to_rat (double.of_ratio 1 1)
    (double.of_ratio 0 1) (double.of_ratio 1 1) 10 (by decide!)
  ⟨by decide!, h.2.1, h.2.2.1 (by decide!) 3 (by decide)⟩

/-- Counterexample to C15 as stated, on binary64: for `y0 = 1` and `dx = 1` the
value held after 52 corrector iterations is `3`, and
`3 * (1 - 1 / 2) ≠ 1 * (1 + 1 / 2) - 2 * 1 * (1 / 2) ^ (52 + 2)`. -/
theorem picard_update_linear_error_fails :
    q_code double_ops (double.of_ratio 1 1) f (double.of_ratio 0 1) (double.of_ratio 1 1) 52
      = double.fin 6755399441055744 (-51) ∧
    double.of_ratio 1 1 = double.fin 4503599627370496 (-52) ∧
    double.to_rat (double.fin 6755399441055744 (-51)) = 3 ∧
    double.to_rat (double.fin 4503599627370496 (-52)) = 1 ∧
    double.to_rat (double.fin 6755399441055744 (-51))
        * (1 - double.to_rat (double.fin 4503599627370496 (-52)) / 2)
      ≠ double.to_rat (double.fin 4503599627370496 (-52))
          * (1 + double.to_rat (double.fin 4503599627370496 (-52)) / 2)
        - 2 * double.to_rat (double.fin 4503599627370496 (-52))
          * (double.to_rat (double.fin 4503599627370496 (-52)) / 2) ^ (52 + 2) := by
  have h3 : double.to_rat (double.fin 6755399441055744 (-51)) = 3 := by
    simp only [double.to_rat]
    norm_num
  have h1 : double.to_rat (double.fin 4503599627370496 (-52)) = 1 := by
    simp only [double.to_rat]
    norm_num
  refine ⟨by decide!, by decide!, h3, h1, ?_⟩
  rw [h3, h1]
  norm_num

/-! ## Step count and last step of the integration -/

/-- C16 (as amended). Degenerate drive, for every arithmetic of `real`: when the
test `x0 < xfinal - dx` of line 89 fails on the initial state, the body of the
drive loop never runs (the loop returns the initial state with any fuel and stores
nothing) and the integration is the single call of `one_step` with step
`xfinal - x0` on the initial state. When moreover the Euler predictor of that call
compares equal to `y0`, the call returns with no corrector iteration; and when
adding the step to `x0` and the Euler increment to `y0` leaves them unchanged (as
for `x0 = xfinal` with finite `f(x0, y0)` and `y0`), the state is returned
unchanged. In exact arithmetic the test fails iff `x0 ≥ xfinal - dx`, for
`x0 = xfinal` the state is returned unchanged, and for `x0 > xfinal` the step
`xfinal - x0` is negative. -/
theorem integrate_degenerate {R : Type} (A : real_ops R) (m N : Nat) (dx : R)
    (f : rhs_func R) (xfinal : R) (s : iter_state R)
    (h : A.lt s.x (A.sub xfinal dx) = false) :
    drive_loop A m dx f xfinal N s = some s ∧
    drive_trace A m dx f xfinal N s = [] ∧
    integrate A m N dx f xfinal s = one_step A m (A.sub xfinal s.x) f s ∧
    (A.ne s.y (A.add s.y (A.mul (A.sub xfinal s.x) (f s.x s.y))) = false →
      integrate A m N dx f xfinal s
        = some { x := A.add s.x (A.sub xfinal s.x),
                 y := A.add s.y (A.mul (A.sub xfinal s.x) (f s.x s.y)) }) ∧
    (A.add s.x (A.sub xfinal s.x) = s.x →
      A.add s.y (A.mul (A.sub xfinal s.x) (f s.x s.y)) = s.y →
      A.ne s.y s.y = false →
      integrate A m N dx f xfinal s = some s) ∧
    (∀ (K : Type) [LinearOrderedField K] (d : K) (g : rhs_func K) (xf : K) (t : iter_state K),
      ((exact_ops K).lt t.x ((exact_ops K).sub xf d) = false ↔ t.x ≥ xf - d) ∧
      (t.x ≥ xf - d → t.x = xf → integrate (exact_ops K) m N d g xf t = some t) ∧
      (t.x > xf → (exact_ops K).sub xf t.x < 0)) := by
  have hd := drive_loop_exit A m dx f xfinal N s h
  have hi : integrate A m N dx f xfinal s = one_step A m (A.sub xfinal s.x) f s :=
    integrate_of_drive_some A m N dx f xfinal s s hd
  refine ⟨hd, drive_trace_exit A m dx f xfinal N s h, hi, ?_, ?_, ?_⟩
  · intro hskip
    rw [hi]
    exact one_step_skip A (A.sub xfinal s.x) f s hskip m
  · intro hx hy hself
    rw [hi, one_step_skip A (A.sub xfinal s.x) f s (by rw [hy]; exact hself) m, hx, hy]
  · intro K _ d g xf t
    refine ⟨?_, ?_, ?_⟩
    · rw [exact_lt_false, exact_sub, not_lt]
    · intro ht hx
      have hf : (exact_ops K).lt t.x ((exact_ops K).sub xf d) = false := by
        rw [exact_lt_false, exact_sub]
        exact not_lt.2 ht
      rw [integrate_of_drive_some _ m N d g xf t t (drive_loop_exit _ m d g xf N t hf),
        exact_sub,
        one_step_of_euler_zero K (xf - t.x) g t (by rw [hx, sub_self, zero_mul]) m,
        hx, sub_self, add_zero, ← hx]
    · intro hgt
      rw [exact_sub]
      linarith

/-- Witness of C16 on binary64, right-hand side `f(x, y) = x`. With `x0 = 10`,
`xfinal = 1`, `dx = 0.1` the integration is the single backward step of size
`1 - 10 = -9`, far larger than `dx`; with `x0 = xfinal = 1`, `y0 = 2`, `dx = 1`
the state is returned unchanged. -/
theorem integrate_degenerate_witness :
    integrate double_ops 2 7 (double.of_ratio 1 10) (fun x _ => x) (double.of_ratio 1 1)
        { x := double.of_ratio 10 1, y := double.of_ratio 1 1 }
      = one_step double_ops 2 (double_ops.sub (double.of_ratio 1 1) (double.of_ratio 10 1))
          (fun x _ => x) { x := double.of_ratio 10 1, y := double.of_ratio 1 1 } ∧
    double_ops.sub (double.of_ratio 1 1) (double.of_ratio 10 1) = double.of_ratio (-9) 1 ∧
    integrate double_ops 0 3 (double.of_ratio 1 1) (fun x _ => x) (double.of_ratio 1 1)
        { x := double.of_ratio 1 1, y := double.of_ratio 2 1 }
      = some { x := double.of_ratio 1 1, y := double.of_ratio 2 1 } :=
  ⟨(integrate_degenerate double_ops 2 7 (double.of_ratio 1 10) (fun x _ => x)
      (double.of_ratio 1 1) { x := double.of_ratio 10 1, y := double.of_ratio 1 1 }
      (by decide!)).2.2.1,
    by decide!,
    (integrate_degenerate double_ops 0 3 (double.of_ratio 1 1) (fun x _ => x)
      (double.of_ratio 1 1) { x := double.of_ratio 1 1, y := double.of_ratio 2 1 }
      (by decide!)).2.2.2.2.1 (by decide!) (by decide!) (by decide!)⟩

/-- Counterexample to C16 as stated, on binary64: with `x0 = xfinal = 1`, `dx = 1`
(so that the loop test fails) and a right-hand side that is NaN, the step `0`
times `f(x0, y0)` is NaN and the integration returns for no fuel: the state is not
returned unchanged. -/
theorem integrate_degenerate_fails_on_nan :
    double_ops.lt (double.of_ratio 1 1)
        (double_ops.sub (double.of_ratio 1 1) (double.of_ratio 1 1)) = false ∧
    ¬ ∃ m N r, integrate double_ops m N (double.of_ratio 1 1) (fun _ _ => double.nan)
        (double.of_ratio 1 1) { x := double.of_ratio 1 1, y := double.of_ratio 0 1 }
      = some r := by
  refine ⟨by decide!, ?_⟩
  rintro ⟨m, N, r, h⟩
  rw [integrate_nan double_ops double.nan double_ops_is_nan (double.of_ratio 1 1)
    (fun _ _ => double.nan) { x := double.of_ratio 1 1, y := double.of_ratio 0 1 } rfl
    m N (double.of_ratio 1 1)] at h
  exact Option.noConfusion h

/-! ## Rounding to binary64

`round_ratio` rounds to nearest, ties to even.  In the normal range and below
the overflow threshold this is the relation `rounds_to`: the result is a positive
normal number, within a relative error of `2 ^ (-53)` of the value; rounding is
monotone and leaves a representable value as it is. -/

theorem bit_length_aux_spec : ∀ (fuel n : ℕ), n ≤ fuel → 0 < n →
    0 < bit_length_aux fuel n ∧ 2 ^ (bit_length_aux fuel n - 1) ≤ n ∧
      n < 2 ^ bit_length_aux fuel n := by
  intro fuel
  induction fuel with
  | zero => intro n h1 h2; omega
  | succ fuel ih =>
    intro n h1 h2
    have hn : n ≠ 0 := by omega
    simp only [bit_length_aux, hn, if_false]
    by_cases h : n / 2 = 0
    · have : n = 1 := by omega
      subst this
      have : bit_length_aux fuel (1 / 2) = 0 := by
        cases fuel <;> simp [bit_length_aux]
      rw [this]
      simp
    · have hpos : 0 < n / 2 := Nat.pos_of_ne_zero h
      obtain ⟨a1, a2, a3⟩ := ih (n / 2) (by omega) hpos
      refine ⟨by omega, ?_, ?_⟩
      · have e : bit_length_aux fuel (n / 2) + 1 - 1 = (bit_length_aux fuel (n / 2) - 1) + 1 := by
          omega
        rw [e, pow_succ]
        omega
      · rw [pow_succ]
        omega

theorem bit_length_spec (n : ℕ) (hn : 0 < n) :
    0 < bit_length n ∧ 2 ^ (bit_length n - 1) ≤ n ∧ n < 2 ^ bit_length n :=
  bit_length_aux_spec n n (le_refl n) hn

theorem bit_length_one : bit_length 1 = 1 := by decide

/-- The rounded quotient is within half a unit of the quotient, and is even on a tie. -/
theorem rne_div_spec (num den : ℕ) (hden : 0 < den) :
    (2 * (rne_div num den * den) ≤ 2 * num + den) ∧
    (2 * num ≤ 2 * (rne_div num den * den) + den) ∧
    ((2 * (rne_div num den * den) = 2 * num + den ∨ 2 * num = 2 * (rne_div num den * den) + den) →
      rne_div num den % 2 = 0) := by
  have hdm := Nat.div_add_mod num den
  have hlt := Nat.mod_lt num hden
  set q := num / den with hq
  set r := num % den with hr
  have hnum : num = den * q + r := hdm.symm
  unfold rne_div
  rw [← hq, ← hr]
  split
  · rename_i h
    have e : (q + 1) * den = den * q + den := by ring
    rw [e]
    refine ⟨by omega, by omega, ?_⟩
    intro h2
    rcases h with h | ⟨h3, h4⟩
    · omega
    · omega
  · rename_i h
    have e : q * den = den * q := by ring
    rw [e]
    push_neg at h
    refine ⟨by omega, by omega, ?_⟩
    intro h2
    have h5 : 2 * r = den := by omega
    have := h.2 h5
    omega

theorem rne_div_mono (a b den : ℕ) (hden : 0 < den) (hab : a ≤ b) :
    rne_div a den ≤ rne_div b den := by
  obtain ⟨a1, a2, a3⟩ := rne_div_spec a den hden
  obtain ⟨b1, b2, b3⟩ := rne_div_spec b den hden
  by_contra hc
  push_neg at hc
  have h1 : rne_div b den + 1 ≤ rne_div a den := hc
  have h2 : (rne_div b den + 1) * den ≤ rne_div a den * den := Nat.mul_le_mul_right den h1
  have h3 : (rne_div b den + 1) * den = rne_div b den * den + den := by ring
  have h4 : rne_div a den = rne_div b den + 1 := by
    by_contra hne
    have h5 : rne_div b den + 2 ≤ rne_div a den := by omega
    have h6 : (rne_div b den + 2) * den ≤ rne_div a den * den := Nat.mul_le_mul_right den h5
    have h7 : (rne_div b den + 2) * den = rne_div b den * den + 2 * den := by ring
    omega
  have h8 := a3 (Or.inl (by omega))
  have h9 := b3 (Or.inr (by omega))
  omega

theorem rne_div_mul (k den : ℕ) (hden : 0 < den) : rne_div (k * den) den = k := by
  unfold rne_div
  have h1 : k * den % den = 0 := Nat.mul_mod_left k den
  have h2 : k * den / den = k := Nat.mul_div_cancel k hden
  rw [h1, h2]
  have h3 : ¬ (den < 2 * 0 ∨ (2 * 0 = den ∧ k % 2 = 1)) := by omega
  rw [if_neg h3]

/-- The rounded quotient, in the rationals. -/
theorem rne_div_rat (num den : ℕ) (hden : 0 < den) :
    |(rne_div num den : ℚ) - (num : ℚ) / den| ≤ 1 / 2 ∧
    (|(rne_div num den : ℚ) - (num : ℚ) / den| = 1 / 2 → rne_div num den % 2 = 0) := by
  obtain ⟨h1, h2, h3⟩ := rne_div_spec num den hden
  have hd : (0 : ℚ) < den := by exact_mod_cast hden
  have q1 : (2 : ℚ) * (rne_div num den * den) ≤ 2 * num + den := by exact_mod_cast h1
  have q2 : (2 : ℚ) * num ≤ 2 * (rne_div num den * den) + den := by exact_mod_cast h2
  have key : (rne_div num den : ℚ) - (num : ℚ) / den
      = ((rne_div num den : ℚ) * den - num) / den := by
    field_simp
  constructor
  · rw [key, abs_div, abs_of_pos hd, div_le_iff₀ hd, abs_le]
    constructor <;> nlinarith
  · intro h
    apply h3
    rw [key, abs_div, abs_of_pos hd, div_eq_iff (ne_of_gt hd)] at h
    rcases abs_eq (by positivity : (0 : ℚ) ≤ 1 / 2 * den) |>.1 h with h4 | h4
    · left
      have : (2 : ℚ) * (rne_div num den * den) = 2 * num + den := by linarith
      exact_mod_cast this
    · right
      have : (2 : ℚ) * num = 2 * (rne_div num den * den) + den := by linarith
      exact_mod_cast this

theorem lead_exp_one (p : ℕ) (hp : 0 < p) : lead_exp p 1 = (bit_length p : ℤ) - 1 := by
  obtain ⟨hL0, hL1, _⟩ := bit_length_spec p hp
  unfold lead_exp
  rw [bit_length_one]
  have h0 : (0 : ℤ) ≤ (bit_length p : ℤ) - ((1 : ℕ) : ℤ) := by omega
  have h1 : ((bit_length p : ℤ) - ((1 : ℕ) : ℤ)).toNat = bit_length p - 1 := by omega
  rw [if_pos h0, h1]
  have h2 : 1 * 2 ^ (bit_length p - 1) ≤ p := by simpa using hL1
  simp only [h2, decide_True, if_true]
  norm_num

theorem round_ratio_nat (p : ℕ) (hp : 0 < p) (e : ℤ)
    (h1 : -1074 ≤ (bit_length p : ℤ) + e - 53) :
    round_ratio (p : ℤ) 1 e =
      double.pack false
        (rne_div
          (if 0 ≤ e - ((bit_length p : ℤ) + e - 53)
            then p * 2 ^ (e - ((bit_length p : ℤ) + e - 53)).toNat else p)
          (if 0 ≤ e - ((bit_length p : ℤ) + e - 53)
            then 1 else 1 * 2 ^ (-(e - ((bit_length p : ℤ) + e - 53))).toNat))
        ((bit_length p : ℤ) + e - 53) := by
  have hp0 : p ≠ 0 := by omega
  have hneg : ¬ ((p : ℤ) < 0) := by omega
  have hmax : max ((bit_length p : ℤ) - 1 + e - 52) (-1074) = (bit_length p : ℤ) + e - 53 := by
    rw [max_eq_left (by omega)]
    ring
  unfold round_ratio
  simp only [Int.natAbs_ofNat, hp0, one_ne_zero, or_self, if_false, lead_exp_one p hp, hmax,
    hneg, decide_False]

theorem round_ratio_rounds (p : ℕ) (hp : 0 < p) (e : ℤ)
    (h1 : -1074 ≤ (bit_length p : ℤ) + e - 53) (h2 : (bit_length p : ℤ) + e - 53 ≤ 969) :
    rounds_to ((p : ℚ) * 2 ^ e) (round_ratio (p : ℤ) 1 e) := by
  obtain ⟨hL0, hL1, hL2⟩ := bit_length_spec p hp
  rw [round_ratio_nat p hp e h1]
  set L := bit_length p with hL
  have two_ne : (2 : ℚ) ≠ 0 := two_ne_zero
  -- the scaled value
  have hq1 : ((2 : ℚ) ^ (L - 1) : ℚ) ≤ p := by exact_mod_cast hL1
  have hq2 : (p : ℚ) < 2 ^ L := by exact_mod_cast hL2
  have hscale : (p : ℚ) * 2 ^ e / 2 ^ ((L : ℤ) + e - 53) = (p : ℚ) * 2 ^ ((53 : ℤ) - L) := by
    rw [mul_div_assoc, ← zpow_sub₀ two_ne]
    congr 2
    ring
  have hlow : (2 : ℚ) ^ 52 ≤ (p : ℚ) * 2 ^ ((53 : ℤ) - L) := by
    have : (2 : ℚ) ^ 52 = 2 ^ ((L : ℤ) - 1) * 2 ^ ((53 : ℤ) - L) := by
      rw [← zpow_add₀ two_ne]
      norm_num
    rw [this]
    apply mul_le_mul_of_nonneg_right _ (by positivity)
    have : (2 : ℚ) ^ ((L : ℤ) - 1) = 2 ^ (L - 1) := by
      have e1 : ((L : ℤ) - 1) = ((L - 1 : ℕ) : ℤ) := by omega
      rw [e1, zpow_natCast]
    rw [this]
    exact hq1
  have hupp : (p : ℚ) * 2 ^ ((53 : ℤ) - L) < 2 ^ 53 := by
    have : (2 : ℚ) ^ 53 = 2 ^ (L : ℤ) * 2 ^ ((53 : ℤ) - L) := by
      rw [← zpow_add₀ two_ne]
      norm_num
    rw [this]
    apply mul_lt_mul_of_pos_right _ (by positivity)
    rw [zpow_natCast]
    exact hq2
  -- numerator and denominator handed to `rne_div`
  have hratio : ∀ num den : ℕ, 0 < den → (num : ℚ) / den = (p : ℚ) * 2 ^ ((53 : ℤ) - L) →
      rounds_to ((p : ℚ) * 2 ^ e) (double.pack false (rne_div num den) ((L : ℤ) + e - 53)) := by
    intro num den hden hnd
    obtain ⟨r1, r2⟩ := rne_div_rat num den hden
    rw [hnd] at r1 r2
    refine ⟨rne_div num den, (L : ℤ) + e - 53, rfl, h1, h2, ?_, ?_, ?_, ?_, ?_, ?_⟩
    · have h := (abs_le.1 r1).1
      have : ((2 : ℚ) ^ 52 - 1 / 2) ≤ (rne_div num den : ℚ) := by linarith
      have h3 : ((2 ^ 52 - 1 : ℕ) : ℚ) < (rne_div num den : ℚ) := by
        push_cast
        linarith
      have := Nat.cast_lt.1 h3
      omega
    · have h := (abs_le.1 r1).2
      have h3 : (rne_div num den : ℚ) < ((2 ^ 53 + 1 : ℕ) : ℚ) := by
        push_cast
        linarith
      have := Nat.cast_lt.1 h3
      omega
    · rw [hscale]
      exact hlow
    · rw [hscale]
      exact hupp
    · rw [hscale]
      exact r1
    · rw [hscale]
      exact r2
  by_cases hs : (0 : ℤ) ≤ e - ((L : ℤ) + e - 53)
  · rw [if_pos hs, if_pos hs]
    apply hratio _ 1 Nat.one_pos
    have e1 : (e - ((L : ℤ) + e - 53)).toNat = 53 - L := by omega
    have e2 : ((53 : ℤ) - L) = ((53 - L : ℕ) : ℤ) := by omega
    rw [e1, e2, zpow_natCast]
    push_cast
    ring
  · rw [if_neg hs, if_neg hs]
    apply hratio _ _ (by positivity)
    have e1 : (-(e - ((L : ℤ) + e - 53))).toNat = L - 53 := by omega
    have e2 : ((53 : ℤ) - L) = -((L - 53 : ℕ) : ℤ) := by omega
    rw [e1, e2, zpow_neg, zpow_natCast]
    push_cast
    field_simp

theorem two_zpow_pos (E : ℤ) : (0 : ℚ) < 2 ^ E := zpow_pos (by norm_num) E

theorem two_zpow_mono {a b : ℤ} (h : a ≤ b) : (2 : ℚ) ^ a ≤ 2 ^ b :=
  zpow_le_zpow_right₀ (by norm_num) h

theorem two_zpow_succ (E : ℤ) : (2 : ℚ) ^ (E + 1) = 2 * 2 ^ E := by
  rw [zpow_add_one₀ (by norm_num : (2 : ℚ) ≠ 0), mul_comm]

theorem pack_val (M : ℕ) (E : ℤ) (h1 : M ≤ 2 ^ 53) (h2 : 2 ^ 52 ≤ M) (hE0 : -1074 ≤ E)
    (hE : E ≤ 969) :
    pos_normal (double.pack false M E) ∧ double.to_rat (double.pack false M E) = M * 2 ^ E := by
  unfold double.pack
  by_cases hM : M = 2 ^ 53
  · have h3 : ¬ (971 < E + 1) := by omega
    simp only [hM, if_true, h3, if_false, Bool.false_eq_true, double.to_rat]
    refine ⟨⟨2 ^ 52, E + 1, rfl, le_refl _, by norm_num, by omega, by omega⟩, ?_⟩
    rw [two_zpow_succ]
    push_cast
    ring
  · have h3 : ¬ (971 < E) := by omega
    simp only [hM, if_false, h3, Bool.false_eq_true, double.to_rat]
    refine ⟨⟨M, E, rfl, h2, by omega, hE0, by omega⟩, ?_⟩
    push_cast
    ring

/-- What `rounds_to` says about the value of the result. -/
theorem rounds_to_val {x : ℚ} {a : double} (h : rounds_to x a) :
    pos_normal a ∧ ∃ (M : ℕ) (E : ℤ), double.to_rat a = M * 2 ^ E ∧ -1074 ≤ E ∧ E ≤ 969 ∧
      2 ^ 52 ≤ M ∧ M ≤ 2 ^ 53 ∧ (2 : ℚ) ^ 52 * 2 ^ E ≤ x ∧ x < 2 ^ 53 * 2 ^ E ∧
      |(M : ℚ) * 2 ^ E - x| ≤ 2 ^ E / 2 ∧ (|(M : ℚ) - x / 2 ^ E| = 1 / 2 → M % 2 = 0) ∧
      |(M : ℚ) - x / 2 ^ E| ≤ 1 / 2 := by
  obtain ⟨M, E, rfl, hE0, hE1, hM0, hM1, hx0, hx1, herr, htie⟩ := h
  obtain ⟨hp, hv⟩ := pack_val M E hM1 hM0 hE0 hE1
  have hpos := two_zpow_pos E
  refine ⟨hp, M, E, hv, hE0, hE1, hM0, hM1, ?_, ?_, ?_, htie, herr⟩
  · exact (le_div_iff₀ hpos).1 hx0
  · exact (div_lt_iff₀ hpos).1 hx1
  · have e : (M : ℚ) * 2 ^ E - x = ((M : ℚ) - x / 2 ^ E) * 2 ^ E := by
      field_simp
    rw [e, abs_mul, abs_of_pos hpos]
    have := mul_le_mul_of_nonneg_right herr (le_of_lt hpos)
    linarith

theorem rounds_to_pos_normal {x : ℚ} {a : double} (h : rounds_to x a) : pos_normal a :=
  (rounds_to_val h).1

theorem rounds_to_pos {x : ℚ} {a : double} (h : rounds_to x a) : 0 < x := by
  obtain ⟨_, M, E, _, _, _, _, _, hx0, _⟩ := rounds_to_val h
  have := two_zpow_pos E
  have : (0 : ℚ) < 2 ^ 52 * 2 ^ E := by positivity
  linarith

theorem pos_normal_val_pos {a : double} (h : pos_normal a) : 0 < double.to_rat a := by
  obtain ⟨M, E, rfl, h1, h2, _, _⟩ := h
  simp only [double.to_rat]
  have := two_zpow_pos E
  have : (0 : ℚ) < M := by
    have : 0 < M := by
      have : 0 < 2 ^ 52 := by norm_num
      omega
    exact_mod_cast this
  push_cast
  positivity

/-- Relative error of a rounding: at most `2 ^ (-53)`. -/
theorem rounds_to_rel {x : ℚ} {a : double} (h : rounds_to x a) :
    |double.to_rat a - x| ≤ x / 2 ^ 53 := by
  obtain ⟨_, M, E, hv, _, _, _, _, hx0, _, herr, _⟩ := rounds_to_val h
  rw [hv]
  have : (2 : ℚ) ^ E / 2 ≤ x / 2 ^ 53 := by
    rw [div_le_div_iff₀ (by norm_num) (by norm_num)]
    have := two_zpow_pos E
    nlinarith
  linarith

/-- Rounding is monotone. -/
theorem rounds_to_mono {x y : ℚ} {a b : double} (ha : rounds_to x a) (hb : rounds_to y b)
    (hxy : x ≤ y) : double.to_rat a ≤ double.to_rat b := by
  obtain ⟨_, M, E, hv, _, _, hM0, hM1, hx0, hx1, _, htie, herr⟩ := rounds_to_val ha
  obtain ⟨_, N, F, hw, _, _, hN0, hN1, hy0, hy1, _, htie2, herr2⟩ := rounds_to_val hb
  rw [hv, hw]
  have hE := two_zpow_pos E
  have hF := two_zpow_pos F
  have hMq : (M : ℚ) ≤ 2 ^ 53 := by exact_mod_cast hM1
  have hNq : (2 : ℚ) ^ 52 ≤ N := by exact_mod_cast hN0
  rcases lt_trichotomy E F with hlt | heq | hgt
  · have h1 : (2 : ℚ) ^ (E + 1) ≤ 2 ^ F := two_zpow_mono (by omega)
    rw [two_zpow_succ] at h1
    calc (M : ℚ) * 2 ^ E ≤ 2 ^ 53 * 2 ^ E := mul_le_mul_of_nonneg_right hMq (le_of_lt hE)
      _ = 2 ^ 52 * (2 * 2 ^ E) := by ring
      _ ≤ 2 ^ 52 * 2 ^ F := mul_le_mul_of_nonneg_left h1 (by norm_num)
      _ ≤ (N : ℚ) * 2 ^ F := mul_le_mul_of_nonneg_right hNq (le_of_lt hF)
  · subst heq
    apply mul_le_mul_of_nonneg_right _ (le_of_lt hE)
    by_contra hc
    push_neg at hc
    have hc1 : N + 1 ≤ M := by exact_mod_cast hc
    have hc2 : (N : ℚ) + 1 ≤ M := by exact_mod_cast hc1
    have hdiv : x / 2 ^ E ≤ y / 2 ^ E := div_le_div_of_nonneg_right hxy (le_of_lt hE)
    have a1 := (abs_le.1 herr).2
    have b1 := (abs_le.1 herr2).1
    have e1 : (M : ℚ) - x / 2 ^ E = 1 / 2 := by linarith
    have e2 : (N : ℚ) - y / 2 ^ E = -(1 / 2) := by linarith
    have t1 := htie (by rw [e1]; norm_num)
    have t2 := htie2 (by rw [e2]; norm_num)
    have e3 : (M : ℚ) = N + 1 := by linarith
    have e4 : M = N + 1 := by exact_mod_cast e3
    omega
  · exfalso
    have h1 : (2 : ℚ) ^ (F + 1) ≤ 2 ^ E := two_zpow_mono (by omega)
    rw [two_zpow_succ] at h1
    have : (2 : ℚ) ^ 53 * 2 ^ F ≤ 2 ^ 52 * 2 ^ E := by nlinarith
    linarith

/-- Two positive normal numbers of the same value are the same `double`. -/
theorem pos_normal_inj {a b : double} (ha : pos_normal a) (hb : pos_normal b)
    (h : double.to_rat a = double.to_rat b) : a = b := by
  obtain ⟨M, E, rfl, hM0, hM1, _, _⟩ := ha
  obtain ⟨N, F, rfl, hN0, hN1, _, _⟩ := hb
  simp only [double.to_rat] at h
  have hE := two_zpow_pos E
  have hF := two_zpow_pos F
  have hM0q : (2 : ℚ) ^ 52 ≤ M := by exact_mod_cast hM0
  have hM1q : (M : ℚ) < 2 ^ 53 := by exact_mod_cast hM1
  have hN0q : (2 : ℚ) ^ 52 ≤ N := by exact_mod_cast hN0
  have hN1q : (N : ℚ) < 2 ^ 53 := by exact_mod_cast hN1
  push_cast at h
  have key : E = F := by
    rcases lt_trichotomy E F with hlt | heq | hgt
    · exfalso
      have h1 : (2 : ℚ) ^ (E + 1) ≤ 2 ^ F := two_zpow_mono (by omega)
      rw [two_zpow_succ] at h1
      nlinarith
    · exact heq
    · exfalso
      have h1 : (2 : ℚ) ^ (F + 1) ≤ 2 ^ E := two_zpow_mono (by omega)
      rw [two_zpow_succ] at h1
      nlinarith
  subst key
  have : (M : ℚ) = N := mul_right_cancel₀ (ne_of_gt hE) h
  have : M = N := by exact_mod_cast this
  subst this
  rfl

/-- A positive normal number below `2 ^ 1022` is its own rounding. -/
theorem rounds_to_self {b : double} (hb : pos_normal b) (hlt : double.to_rat b < 2 ^ 1022) :
    rounds_to (double.to_rat b) b := by
  obtain ⟨M, E, rfl, hM0, hM1, hE0, hE1⟩ := hb
  simp only [double.to_rat] at hlt ⊢
  push_cast at hlt ⊢
  have hE := two_zpow_pos E
  have hM0q : (2 : ℚ) ^ 52 ≤ M := by exact_mod_cast hM0
  have hM1q : (M : ℚ) < 2 ^ 53 := by exact_mod_cast hM1
  have hE2 : E ≤ 969 := by
    by_contra hc
    push_neg at hc
    have h1 : (2 : ℚ) ^ (970 : ℤ) ≤ 2 ^ E := two_zpow_mono (by omega)
    have h2 : (2 : ℚ) ^ (970 : ℤ) = 2 ^ 970 := zpow_natCast 2 970
    rw [h2] at h1
    have h3 : (2 : ℚ) ^ 1022 = 2 ^ 52 * 2 ^ 970 := by rw [← pow_add]
    have h4 : (2 : ℚ) ^ 52 * 2 ^ 970 ≤ (M : ℚ) * 2 ^ E :=
      mul_le_mul hM0q h1 (by positivity) (by positivity)
    rw [← h3] at h4
    exact absurd hlt (not_lt.2 h4)
  have hdiv : (M : ℚ) * 2 ^ E / 2 ^ E = M := by field_simp
  refine ⟨M, E, ?_, hE0, hE2, hM0, by omega, ?_, ?_, ?_, ?_⟩
  · unfold double.pack
    have hM : M ≠ 2 ^ 53 := by omega
    have h3 : ¬ (971 < E) := by omega
    simp only [hM, if_false, h3, Bool.false_eq_true]
  · rw [hdiv]; exact hM0q
  · rw [hdiv]; exact hM1q
  · rw [hdiv]; simp
  · rw [hdiv]; simp

/-- The rounding of a value is unique. -/
theorem rounds_to_unique {x : ℚ} {a b : double} (ha : rounds_to x a) (hb : rounds_to x b) :
    a = b :=
  pos_normal_inj (rounds_to_pos_normal ha) (rounds_to_pos_normal hb)
    (le_antisymm (rounds_to_mono ha hb (le_refl x)) (rounds_to_mono hb ha (le_refl x)))

theorem rounds_to_lt {x : ℚ} {a : double} (h : rounds_to x a) : x < 2 ^ 1022 := by
  obtain ⟨_, M, E, _, _, hE1, _, _, _, hx1, _⟩ := rounds_to_val h
  have h1 : (2 : ℚ) ^ E ≤ 2 ^ (969 : ℤ) := two_zpow_mono hE1
  have h2 : (2 : ℚ) ^ (969 : ℤ) = 2 ^ 969 := zpow_natCast 2 969
  rw [h2] at h1
  have h3 : (2 : ℚ) ^ 1022 = 2 ^ 53 * 2 ^ 969 := by rw [← pow_add]
  have h4 : (2 : ℚ) ^ 53 * 2 ^ E ≤ 2 ^ 53 * 2 ^ 969 :=
    mul_le_mul_of_nonneg_left h1 (by positivity)
  rw [← h3] at h4
  exact lt_of_lt_of_le hx1 h4

/-- A value that is a positive normal number rounds to that number. -/
theorem rounds_to_exact {x : ℚ} {a b : double} (ha : rounds_to x a) (hb : pos_normal b)
    (hv : double.to_rat b = x) : a = b := by
  subst hv
  exact rounds_to_unique ha (rounds_to_self hb (rounds_to_lt ha))

/-! ## The operations of binary64 on finite values

Sum, difference and product of finite values are the roundings of the exact
results; `<` and `!=` compare the values. -/

theorem two_zpow_lt {a b : ℤ} (h : (2 : ℚ) ^ a < 2 ^ b) : a < b :=
  (zpow_lt_zpow_iff_right₀ (by norm_num)).1 h

/-- Rounding of a positive value `p * 2 ^ e` in the normal range. -/
theorem round_ratio_pos (p e : ℤ) (lo : (2 : ℚ) ^ (-1021 : ℤ) ≤ p * 2 ^ e)
    (hi : (p : ℚ) * 2 ^ e < 2 ^ (1022 : ℤ)) : rounds_to ((p : ℚ) * 2 ^ e) (round_ratio p 1 e) := by
  have he := two_zpow_pos e
  have hpq : (0 : ℚ) < p := by
    have h1 : (0 : ℚ) < p * 2 ^ e := lt_of_lt_of_le (two_zpow_pos _) lo
    exact (mul_pos_iff_of_pos_right he).1 h1
  have hp : 0 < p := by exact_mod_cast hpq
  obtain ⟨n, rfl⟩ : ∃ n : ℕ, p = n := ⟨p.toNat, by omega⟩
  have hn : 0 < n := by omega
  obtain ⟨hL0, hL1, hL2⟩ := bit_length_spec n hn
  have q1 : ((2 : ℚ) ^ (bit_length n - 1) : ℚ) ≤ n := by exact_mod_cast hL1
  have q2 : (n : ℚ) < 2 ^ bit_length n := by exact_mod_cast hL2
  have c1 : ((n : ℤ) : ℚ) = (n : ℚ) := by norm_cast
  rw [c1] at lo hi ⊢
  have u1 : (2 : ℚ) ^ (-1021 : ℤ) < 2 ^ ((bit_length n : ℤ) + e) := by
    rw [zpow_add₀ (by norm_num : (2 : ℚ) ≠ 0), zpow_natCast]
    calc (2 : ℚ) ^ (-1021 : ℤ) ≤ n * 2 ^ e := lo
      _ < 2 ^ bit_length n * 2 ^ e := mul_lt_mul_of_pos_right q2 he
  have u2 : (2 : ℚ) ^ (((bit_length n - 1 : ℕ) : ℤ) + e) < 2 ^ (1022 : ℤ) := by
    rw [zpow_add₀ (by norm_num : (2 : ℚ) ≠ 0), zpow_natCast]
    calc (2 : ℚ) ^ (bit_length n - 1) * 2 ^ e ≤ n * 2 ^ e :=
          mul_le_mul_of_nonneg_right q1 (le_of_lt he)
      _ < 2 ^ (1022 : ℤ) := hi
  have v1 := two_zpow_lt u1
  have v2 := two_zpow_lt u2
  exact round_ratio_rounds n hn e (by omega) (by omega)

theorem round_ratio_zero (d : ℕ) (e : ℤ) : round_ratio 0 d e = double.fin 0 (-1074) := by
  simp [round_ratio]

/-- Value of a mantissa brought to the smaller of two exponents. -/
theorem scale_val (m e1 e2 : ℤ) (h : e2 ≤ e1) :
    ((m * 2 ^ (e1 - e2).toNat : ℤ) : ℚ) * 2 ^ e2 = m * 2 ^ e1 := by
  obtain ⟨k, rfl⟩ : ∃ k : ℕ, e1 = e2 + k := ⟨(e1 - e2).toNat, by omega⟩
  have : (e2 + (k : ℤ) - e2).toNat = k := by omega
  rw [this, zpow_add₀ (by norm_num : (2 : ℚ) ≠ 0), zpow_natCast]
  push_cast
  ring

theorem add_fin_val (m1 e1 m2 e2 : ℤ) :
    ((m1 * 2 ^ (e1 - min e1 e2).toNat + m2 * 2 ^ (e2 - min e1 e2).toNat : ℤ) : ℚ)
        * 2 ^ (min e1 e2)
      = double.to_rat (double.fin m1 e1) + double.to_rat (double.fin m2 e2) := by
  have h1 := scale_val m1 e1 (min e1 e2) (min_le_left _ _)
  have h2 := scale_val m2 e2 (min e1 e2) (min_le_right _ _)
  simp only [double.to_rat]
  rw [← h1, ← h2]
  push_cast
  ring

/-- The sum of two finite values, when positive and in the normal range, is rounded. -/
theorem add_fin_rounds (m1 e1 m2 e2 : ℤ)
    (lo : (2 : ℚ) ^ (-1021 : ℤ)
      ≤ double.to_rat (double.fin m1 e1) + double.to_rat (double.fin m2 e2))
    (hi : double.to_rat (double.fin m1 e1) + double.to_rat (double.fin m2 e2)
      < 2 ^ (1022 : ℤ)) :
    rounds_to (double.to_rat (double.fin m1 e1) + double.to_rat (double.fin m2 e2))
      (double.add (double.fin m1 e1) (double.fin m2 e2)) := by
  rw [← add_fin_val] at lo hi ⊢
  exact round_ratio_pos _ _ lo hi

theorem add_fin_zero (m1 e1 m2 e2 : ℤ)
    (h : double.to_rat (double.fin m1 e1) + double.to_rat (double.fin m2 e2) = 0) :
    double.add (double.fin m1 e1) (double.fin m2 e2) = double.fin 0 (-1074) := by
  rw [← add_fin_val] at h
  have he := two_zpow_pos (min e1 e2)
  have h0 : ((m1 * 2 ^ (e1 - min e1 e2).toNat + m2 * 2 ^ (e2 - min e1 e2).toNat : ℤ) : ℚ) = 0 := by
    rcases mul_eq_zero.1 h with h | h
    · exact h
    · exact absurd h (ne_of_gt he)
  have h1 : (m1 * 2 ^ (e1 - min e1 e2).toNat + m2 * 2 ^ (e2 - min e1 e2).toNat : ℤ) = 0 := by
    exact_mod_cast h0
  show round_ratio _ 1 _ = _
  rw [h1, round_ratio_zero]

theorem neg_fin_val (m e : ℤ) :
    double.to_rat (double.neg (double.fin m e)) = -double.to_rat (double.fin m e) := by
  simp [double.neg, double.to_rat]

/-- The difference of two finite values, when positive and in the normal range, is rounded. -/
theorem sub_fin_rounds (m1 e1 m2 e2 : ℤ)
    (lo : (2 : ℚ) ^ (-1021 : ℤ)
      ≤ double.to_rat (double.fin m1 e1) - double.to_rat (double.fin m2 e2))
    (hi : double.to_rat (double.fin m1 e1) - double.to_rat (double.fin m2 e2)
      < 2 ^ (1022 : ℤ)) :
    rounds_to (double.to_rat (double.fin m1 e1) - double.to_rat (double.fin m2 e2))
      (double.sub (double.fin m1 e1) (double.fin m2 e2)) := by
  have e : double.to_rat (double.fin m1 e1) - double.to_rat (double.fin m2 e2)
      = double.to_rat (double.fin m1 e1) + double.to_rat (double.fin (-m2) e2) := by
    simp only [double.to_rat]
    push_cast
    ring
  rw [e] at lo hi ⊢
  exact add_fin_rounds m1 e1 (-m2) e2 lo hi

theorem sub_fin_zero (m1 e1 m2 e2 : ℤ)
    (h : double.to_rat (double.fin m1 e1) = double.to_rat (double.fin m2 e2)) :
    double.sub (double.fin m1 e1) (double.fin m2 e2) = double.fin 0 (-1074) := by
  apply add_fin_zero m1 e1 (-m2) e2
  simp only [double.to_rat] at h ⊢
  push_cast
  linarith

/-- The product of two finite values, when positive and in the normal range, is rounded. -/
theorem mul_fin_rounds (m1 e1 m2 e2 : ℤ)
    (lo : (2 : ℚ) ^ (-1021 : ℤ)
      ≤ double.to_rat (double.fin m1 e1) * double.to_rat (double.fin m2 e2))
    (hi : double.to_rat (double.fin m1 e1) * double.to_rat (double.fin m2 e2)
      < 2 ^ (1022 : ℤ)) :
    rounds_to (double.to_rat (double.fin m1 e1) * double.to_rat (double.fin m2 e2))
      (double.mul (double.fin m1 e1) (double.fin m2 e2)) := by
  have e : double.to_rat (double.fin m1 e1) * double.to_rat (double.fin m2 e2)
      = ((m1 * m2 : ℤ) : ℚ) * 2 ^ (e1 + e2) := by
    simp only [double.to_rat]
    rw [zpow_add₀ (by norm_num : (2 : ℚ) ≠ 0)]
    push_cast
    ring
  rw [e] at lo hi ⊢
  exact round_ratio_pos _ _ lo hi

theorem mul_fin_zero (m e m2 e2 : ℤ) (h : m = 0) :
    double.mul (double.fin m e) (double.fin m2 e2) = double.fin 0 (-1074) := by
  subst h
  show round_ratio _ 1 _ = _
  rw [zero_mul, round_ratio_zero]

/-- The test `<` on finite values compares the values. -/
theorem lt_fin_iff (m1 e1 m2 e2 : ℤ) :
    double.lt (double.fin m1 e1) (double.fin m2 e2) = true ↔
      double.to_rat (double.fin m1 e1) < double.to_rat (double.fin m2 e2) := by
  have h1 := scale_val m1 e1 (min e1 e2) (min_le_left _ _)
  have h2 := scale_val m2 e2 (min e1 e2) (min_le_right _ _)
  have he := two_zpow_pos (min e1 e2)
  simp only [double.lt, decide_eq_true_eq, double.to_rat]
  rw [← h1, ← h2]
  constructor
  · intro h
    apply mul_lt_mul_of_pos_right _ he
    exact_mod_cast h
  · intro h
    have := lt_of_mul_lt_mul_right h (le_of_lt he)
    exact_mod_cast this

/-- The test `!=` on positive normal numbers compares the values. -/
theorem ne_pos_normal {a b : double} (ha : pos_normal a) (hb : pos_normal b) :
    double.ne a b = false ↔ double.to_rat a = double.to_rat b := by
  constructor
  · intro h
    obtain ⟨M, E, rfl, _⟩ := ha
    obtain ⟨N, F, rfl, _⟩ := hb
    simp only [double.ne, decide_eq_false_iff_not, not_not] at h
    rw [h]
  · intro h
    have := pos_normal_inj ha hb h
    subst this
    obtain ⟨M, E, rfl, _⟩ := ha
    simp [double.ne]

theorem normal_range (t : ℚ) (h1 : 1 / 2 ^ 200 ≤ t) (h2 : t ≤ 2 ^ 200) :
    (2 : ℚ) ^ (-1021 : ℤ) ≤ t ∧ t < 2 ^ (1022 : ℤ) := by
  have a1 : (2 : ℚ) ^ (-1021 : ℤ) ≤ 2 ^ (-200 : ℤ) := two_zpow_mono (by norm_num)
  have a2 : (2 : ℚ) ^ (-200 : ℤ) = 1 / 2 ^ 200 := by
    rw [zpow_neg, one_div]
    exact congrArg _ (zpow_natCast 2 200)
  have a3 : (2 : ℚ) ^ (201 : ℤ) ≤ 2 ^ (1022 : ℤ) := two_zpow_mono (by norm_num)
  have a4 : (2 : ℚ) ^ (201 : ℤ) = 2 ^ 201 := zpow_natCast 2 201
  rw [a2] at a1
  rw [a4] at a3
  constructor
  · exact le_trans a1 h1
  · have : (2 : ℚ) ^ 200 < 2 ^ 201 := by norm_num
    exact lt_of_le_of_lt h2 (lt_of_lt_of_le this a3)

/-- The exponent of a positive normal number of moderate size. -/
theorem pos_normal_exp {a : double} (ha : pos_normal a) (h1 : 1 / 2 ^ 200 ≤ double.to_rat a)
    (h2 : double.to_rat a ≤ 2 ^ 200) :
    ∃ (M : ℕ) (E : ℤ), a = double.fin (M : ℤ) E ∧ 2 ^ 52 ≤ M ∧ M < 2 ^ 53 ∧ -253 ≤ E ∧ E ≤ 148 := by
  obtain ⟨M, E, rfl, hM0, hM1, hE0, hE1⟩ := ha
  refine ⟨M, E, rfl, hM0, hM1, ?_, ?_⟩
  · by_contra hc
    push_neg at hc
    have b1 : (2 : ℚ) ^ E ≤ 2 ^ (-254 : ℤ) := two_zpow_mono (by omega)
    have b2 : (2 : ℚ) ^ (-254 : ℤ) = 1 / 2 ^ 254 := by
      rw [zpow_neg, one_div]
      exact congrArg _ (zpow_natCast 2 254)
    rw [b2] at b1
    have hM1q : (M : ℚ) < 2 ^ 53 := by exact_mod_cast hM1
    have hM0q : (0 : ℚ) ≤ M := by positivity
    have hE := two_zpow_pos E
    simp only [double.to_rat] at h1
    push_cast at h1
    have b3 : (M : ℚ) * 2 ^ E ≤ 2 ^ 53 * (1 / 2 ^ 254) :=
      mul_le_mul (le_of_lt hM1q) b1 (le_of_lt hE) (by positivity)
    have b4 : (2 : ℚ) ^ 53 * (1 / 2 ^ 254) < 1 / 2 ^ 200 := by norm_num
    linarith
  · by_contra hc
    push_neg at hc
    have b1 : (2 : ℚ) ^ (149 : ℤ) ≤ 2 ^ E := two_zpow_mono (by omega)
    have b2 : (2 : ℚ) ^ (149 : ℤ) = 2 ^ 149 := zpow_natCast 2 149
    rw [b2] at b1
    have hM0q : (2 : ℚ) ^ 52 ≤ M := by exact_mod_cast hM0
    simp only [double.to_rat] at h2
    push_cast at h2
    have b3 : (2 : ℚ) ^ 52 * 2 ^ 149 ≤ (M : ℚ) * 2 ^ E :=
      mul_le_mul hM0q b1 (by positivity) (by positivity)
    have b4 : (2 : ℚ) ^ 200 < 2 ^ 52 * 2 ^ 149 := by norm_num
    linarith

theorem add_rounds {a b : double} (ha : pos_normal a) (hb : pos_normal b)
    (h1 : 1 / 2 ^ 200 ≤ double.to_rat a + double.to_rat b)
    (h2 : double.to_rat a + double.to_rat b ≤ 2 ^ 200) :
    rounds_to (double.to_rat a + double.to_rat b) (double.add a b) := by
  obtain ⟨M, E, rfl, _⟩ := ha
  obtain ⟨N, F, rfl, _⟩ := hb
  obtain ⟨lo, hi⟩ := normal_range _ h1 h2
  exact add_fin_rounds _ _ _ _ lo hi

theorem mul_rounds {a b : double} (ha : pos_normal a) (hb : pos_normal b)
    (h1 : 1 / 2 ^ 200 ≤ double.to_rat a * double.to_rat b)
    (h2 : double.to_rat a * double.to_rat b ≤ 2 ^ 200) :
    rounds_to (double.to_rat a * double.to_rat b) (double.mul a b) := by
  obtain ⟨M, E, rfl, _⟩ := ha
  obtain ⟨N, F, rfl, _⟩ := hb
  obtain ⟨lo, hi⟩ := normal_range _ h1 h2
  exact mul_fin_rounds _ _ _ _ lo hi

theorem mul_comm_pos_normal {a b : double} (ha : pos_normal a) (hb : pos_normal b) :
    double.mul a b = double.mul b a := by
  obtain ⟨M, E, rfl, _⟩ := ha
  obtain ⟨N, F, rfl, _⟩ := hb
  simp only [double.mul, mul_comm, add_comm]

/-- Bounds on a rounded value: relative error at most `2 ^ (-53)`. -/
theorem rounds_to_bounds {x : ℚ} {a : double} (h : rounds_to x a) :
    x * (1 - 1 / 2 ^ 53) ≤ double.to_rat a ∧ double.to_rat a ≤ x * (1 + 1 / 2 ^ 53) := by
  have h1 := abs_le.1 (rounds_to_rel h)
  constructor
  · have : x * (1 - 1 / 2 ^ 53) = x - x / 2 ^ 53 := by ring
    linarith [h1.1]
  · have : x * (1 + 1 / 2 ^ 53) = x + x / 2 ^ 53 := by ring
    linarith [h1.2]

/-- Crude bounds on a rounded value. -/
theorem rounds_to_crude {x : ℚ} {a : double} (h : rounds_to x a) :
    x / 2 ≤ double.to_rat a ∧ double.to_rat a ≤ 2 * x := by
  obtain ⟨b1, b2⟩ := rounds_to_bounds h
  have hx := rounds_to_pos h
  constructor
  · have : x / 2 ≤ x * (1 - 1 / 2 ^ 53) := by
      have : (1 : ℚ) / 2 ≤ 1 - 1 / 2 ^ 53 := by norm_num
      nlinarith
    linarith
  · have : x * (1 + 1 / 2 ^ 53) ≤ 2 * x := by
      have : (1 : ℚ) + 1 / 2 ^ 53 ≤ 2 := by norm_num
      nlinarith
    linarith

theorem half_val : double.to_rat (double.fin (2 ^ 52) (-53)) = 1 / 2 := by
  simp only [double.to_rat]
  rw [zpow_neg]
  have : (2 : ℚ) ^ (53 : ℤ) = 2 ^ 53 := zpow_natCast 2 53
  rw [this]
  norm_num

theorem half_pos_normal : pos_normal (double.fin (2 ^ 52) (-53)) :=
  ⟨2 ^ 52, -53, by norm_num, le_refl _, by norm_num, by norm_num, by norm_num⟩

/-- Multiplication by `0.5` is exact on positive normal numbers of moderate size. -/
theorem half_mul {a : double} (ha : pos_normal a) (h1 : 1 / 2 ^ 100 ≤ double.to_rat a)
    (h2 : double.to_rat a ≤ 2 ^ 100) :
    pos_normal (double.mul double_ops.half a) ∧
      double.to_rat (double.mul double_ops.half a) = double.to_rat a / 2 := by
  show pos_normal (double.mul (double.fin (2 ^ 52) (-53)) a) ∧
      double.to_rat (double.mul (double.fin (2 ^ 52) (-53)) a) = double.to_rat a / 2
  have hr : rounds_to (double.to_rat (double.fin (2 ^ 52) (-53)) * double.to_rat a)
      (double.mul (double.fin (2 ^ 52) (-53)) a) := by
    apply mul_rounds half_pos_normal ha
    · rw [half_val]
      have : (1 : ℚ) / 2 ^ 200 ≤ 1 / 2 * (1 / 2 ^ 100) := by norm_num
      nlinarith
    · rw [half_val]
      have : (1 : ℚ) / 2 * 2 ^ 100 ≤ 2 ^ 200 := by norm_num
      nlinarith
  obtain ⟨M, E, rfl, hM0, hM1, hE0, hE1⟩ :=
    pos_normal_exp ha (le_trans (by norm_num) h1) (le_trans h2 (by norm_num))
  have hb : pos_normal (double.fin (M : ℤ) (E - 1)) :=
    ⟨M, E - 1, rfl, hM0, hM1, by omega, by omega⟩
  have hv : double.to_rat (double.fin (M : ℤ) (E - 1))
      = double.to_rat (double.fin (2 ^ 52) (-53)) * double.to_rat (double.fin (M : ℤ) E) := by
    rw [half_val]
    simp only [double.to_rat]
    rw [zpow_sub_one₀ (by norm_num : (2 : ℚ) ≠ 0)]
    ring
  have := rounds_to_exact hr hb hv
  rw [this]
  refine ⟨hb, ?_⟩
  rw [hv, half_val]
  ring

/-- Doubling is exact on positive normal numbers of moderate size. -/
theorem add_self {a : double} (ha : pos_normal a) (h1 : 1 / 2 ^ 100 ≤ double.to_rat a)
    (h2 : double.to_rat a ≤ 2 ^ 100) :
    pos_normal (double.add a a) ∧ double.to_rat (double.add a a) = 2 * double.to_rat a := by
  have hr : rounds_to (double.to_rat a + double.to_rat a) (double.add a a) := by
    apply add_rounds ha ha
    · have : (1 : ℚ) / 2 ^ 200 ≤ 1 / 2 ^ 100 := by norm_num
      have := pos_normal_val_pos ha
      linarith
    · have : (2 : ℚ) * 2 ^ 100 ≤ 2 ^ 200 := by norm_num
      linarith
  obtain ⟨M, E, rfl, hM0, hM1, hE0, hE1⟩ :=
    pos_normal_exp ha (le_trans (by norm_num) h1) (le_trans h2 (by norm_num))
  have hb : pos_normal (double.fin (M : ℤ) (E + 1)) :=
    ⟨M, E + 1, rfl, hM0, hM1, by omega, by omega⟩
  have hv : double.to_rat (double.fin (M : ℤ) (E + 1))
      = double.to_rat (double.fin (M : ℤ) E) + double.to_rat (double.fin (M : ℤ) E) := by
    simp only [double.to_rat]
    rw [two_zpow_succ]
    ring
  have := rounds_to_exact hr hb hv
  rw [this]
  refine ⟨hb, ?_⟩
  rw [hv]
  ring

/-- A positive normal number that is at least one is a multiple of `2 ^ (-52)`. -/
theorem pos_normal_grid {a : double} (ha : pos_normal a) (h1 : 1 ≤ double.to_rat a) :
    ∃ n : ℕ, double.to_rat a * 2 ^ 52 = n := by
  obtain ⟨M, E, rfl, hM0, hM1, hE0, hE1⟩ := ha
  simp only [double.to_rat] at h1 ⊢
  push_cast at h1 ⊢
  have hE : -52 ≤ E := by
    by_contra hc
    push_neg at hc
    have b1 : (2 : ℚ) ^ E ≤ 2 ^ (-53 : ℤ) := two_zpow_mono (by omega)
    have b2 : (2 : ℚ) ^ (-53 : ℤ) = 1 / 2 ^ 53 := by
      rw [zpow_neg, one_div]
      exact congrArg _ (zpow_natCast 2 53)
    rw [b2] at b1
    have hM1q : (M : ℚ) < 2 ^ 53 := by exact_mod_cast hM1
    have hp := two_zpow_pos E
    have b3 : (M : ℚ) * 2 ^ E < 2 ^ 53 * (1 / 2 ^ 53) := by
      calc (M : ℚ) * 2 ^ E < 2 ^ 53 * 2 ^ E := mul_lt_mul_of_pos_right hM1q hp
        _ ≤ 2 ^ 53 * (1 / 2 ^ 53) := mul_le_mul_of_nonneg_left b1 (by positivity)
    have b4 : (2 : ℚ) ^ 53 * (1 / 2 ^ 53) = 1 := by norm_num
    linarith
  obtain ⟨k, rfl⟩ : ∃ k : ℕ, E = -52 + k := ⟨(E + 52).toNat, by omega⟩
  refine ⟨M * 2 ^ k, ?_⟩
  rw [zpow_add₀ (by norm_num : (2 : ℚ) ≠ 0), zpow_natCast, zpow_neg]
  have : (2 : ℚ) ^ (52 : ℤ) = 2 ^ 52 := zpow_natCast 2 52
  rw [this]
  push_cast
  field_simp

/-- A nondecreasing bounded sequence of natural numbers repeats a value; the
first index at which it does is at most the bound. -/
theorem mono_nat_stabilises (a : ℕ → ℕ) (B : ℕ) (hmono : ∀ j, a j ≤ a (j + 1))
    (hB : ∀ j, a j ≤ B) :
    ∃ k, k ≤ B ∧ a (k + 1) = a k ∧ ∀ j, j < k → a (j + 1) ≠ a j := by
  have hex : ∃ k, a (k + 1) = a k := by
    by_contra hc
    push_neg at hc
    have hgrow : ∀ j, j ≤ a j := by
      intro j
      induction j with
      | zero => exact Nat.zero_le _
      | succ j ih =>
        have h1 := hmono j
        have h2 := hc j
        omega
    have := hgrow (B + 1)
    have := hB (B + 1)
    omega
  refine ⟨Nat.find hex, ?_, Nat.find_spec hex, fun j hj => Nat.find_min hex hj⟩
  by_contra hc
  push_neg at hc
  have hgrow : ∀ j, j ≤ Nat.find hex → j ≤ a j := by
    intro j
    induction j with
    | zero => intro _; exact Nat.zero_le _
    | succ j ih =>
      intro hj
      have h1 := hmono j
      have h2 : a (j + 1) ≠ a j := Nat.find_min hex (by omega)
      have := ih (by omega)
      omega
  have := hgrow (B + 1) (by omega)
  have := hB (B + 1)
  omega

/-! ## The step on binary64 for `f(x, y) = y`

For `1 ≤ y ≤ 2 ^ 10` and `2 ^ (-60) ≤ h ≤ 2 ^ (-19)` the loop body is a monotone
map of the doubles between `y` and `2 y` to themselves, and the Euler predictor
is the loop body applied to `y`.  The values of the corrector loop are therefore
nondecreasing multiples of `2 ^ (-52)` below `2 ^ 11`: the loop exits, on a fixed
point `y1` of the loop body.  Such a fixed point satisfies
`y * exp (h - 2 ^ (-52)) ≤ y1 ≤ y * exp (h + 2 ^ (-52))`. -/

/-- The loop body on binary64 with the right-hand side `f`. -/
theorem picard_update_double (h x y q : double) :
    picard_update double_ops h f x y q
      = double.add y (double.mul (double.mul double_ops.half (double.add y q)) h) :=
  rfl

/-- The three roundings of the loop body, for `1 ≤ y ≤ 2 ^ 10`, `y ≤ q ≤ 2 y` and
`2 ^ (-60) ≤ h ≤ 2 ^ (-19)`. -/
theorem update_chain {h y q : double} (x : double) (hy : pos_normal y)
    (hy1 : 1 ≤ double.to_rat y) (hy2 : double.to_rat y ≤ 2 ^ 10)
    (hh : pos_normal h) (hh1 : 1 / 2 ^ 60 ≤ double.to_rat h) (hh2 : double.to_rat h ≤ 1 / 2 ^ 19)
    (hq : pos_normal q) (hq1 : double.to_rat y ≤ double.to_rat q)
    (hq2 : double.to_rat q ≤ 2 * double.to_rat y) :
    rounds_to (double.to_rat y + double.to_rat q) (double.add y q) ∧
    rounds_to (double.to_rat (double.add y q) / 2 * double.to_rat h)
      (double.mul (double.mul double_ops.half (double.add y q)) h) ∧
    rounds_to (double.to_rat y
        + double.to_rat (double.mul (double.mul double_ops.half (double.add y q)) h))
      (picard_update double_ops h f x y q) ∧
    double.to_rat (double.mul (double.mul double_ops.half (double.add y q)) h)
      ≤ 6 * double.to_rat y * double.to_rat h := by
  have r1 : rounds_to (double.to_rat y + double.to_rat q) (double.add y q) := by
    apply add_rounds hy hq
    · have : (1 : ℚ) / 2 ^ 200 ≤ 1 := by norm_num
      linarith
    · have : (3 : ℚ) * 2 ^ 10 ≤ 2 ^ 200 := by norm_num
      linarith
  obtain ⟨s1, s2⟩ := rounds_to_crude r1
  have ps := rounds_to_pos_normal r1
  obtain ⟨pv, vv⟩ := half_mul ps
    (by
      have : (1 : ℚ) / 2 ^ 100 ≤ 1 := by norm_num
      linarith)
    (by
      have : (6 : ℚ) * 2 ^ 10 ≤ 2 ^ 100 := by norm_num
      linarith)
  have hpos : (0 : ℚ) < double.to_rat h := pos_normal_val_pos hh
  have v1 : 1 / 2 ≤ double.to_rat (double.add y q) / 2 := by linarith
  have v2 : double.to_rat (double.add y q) / 2 ≤ 3 * 2 ^ 10 := by linarith
  have v3 : double.to_rat (double.add y q) / 2 ≤ 3 * double.to_rat y := by linarith
  have r2 : rounds_to (double.to_rat (double.add y q) / 2 * double.to_rat h)
      (double.mul (double.mul double_ops.half (double.add y q)) h) := by
    rw [← vv]
    apply mul_rounds pv hh
    · rw [vv]
      have : (1 : ℚ) / 2 ^ 200 ≤ 1 / 2 * (1 / 2 ^ 60) := by norm_num
      have := mul_le_mul v1 hh1 (by norm_num) (by linarith)
      linarith
    · rw [vv]
      have : (3 : ℚ) * 2 ^ 10 * (1 / 2 ^ 19) ≤ 2 ^ 200 := by norm_num
      have := mul_le_mul v2 hh2 (le_of_lt hpos) (by norm_num)
      linarith
  obtain ⟨w1, w2⟩ := rounds_to_crude r2
  have pw := rounds_to_pos_normal r2
  have wpos := pos_normal_val_pos pw
  have w3 : double.to_rat (double.mul (double.mul double_ops.half (double.add y q)) h)
      ≤ 6 * double.to_rat y * double.to_rat h := by
    have := mul_le_mul_of_nonneg_right v3 (le_of_lt hpos)
    linarith
  have w4 : double.to_rat (double.mul (double.mul double_ops.half (double.add y q)) h)
      ≤ 1 := by
    have a1 : 6 * double.to_rat y * double.to_rat h ≤ 6 * 2 ^ 10 * (1 / 2 ^ 19) :=
      mul_le_mul (by linarith) hh2 (le_of_lt hpos) (by norm_num)
    have a2 : (6 : ℚ) * 2 ^ 10 * (1 / 2 ^ 19) ≤ 1 := by norm_num
    linarith
  have r3 : rounds_to (double.to_rat y
        + double.to_rat (double.mul (double.mul double_ops.half (double.add y q)) h))
      (picard_update double_ops h f x y q) := by
    rw [picard_update_double]
    apply add_rounds hy pw
    · have : (1 : ℚ) / 2 ^ 200 ≤ 1 := by norm_num
      linarith
    · have : (2 : ℚ) ^ 10 + 1 ≤ 2 ^ 200 := by norm_num
      linarith
  exact ⟨r1, r2, r3, w3⟩

/-- The loop body maps the values between `y` and `2 y` to themselves. -/
theorem update_dom {h y q : double} (x : double) (hy : pos_normal y)
    (hy1 : 1 ≤ double.to_rat y) (hy2 : double.to_rat y ≤ 2 ^ 10)
    (hh : pos_normal h) (hh1 : 1 / 2 ^ 60 ≤ double.to_rat h) (hh2 : double.to_rat h ≤ 1 / 2 ^ 19)
    (hq : pos_normal q) (hq1 : double.to_rat y ≤ double.to_rat q)
    (hq2 : double.to_rat q ≤ 2 * double.to_rat y) :
    pos_normal (picard_update double_ops h f x y q) ∧
    double.to_rat y ≤ double.to_rat (picard_update double_ops h f x y q) ∧
    double.to_rat (picard_update double_ops h f x y q) ≤ 2 * double.to_rat y := by
  obtain ⟨r1, r2, r3, w3⟩ := update_chain x hy hy1 hy2 hh hh1 hh2 hq hq1 hq2
  have hpos : (0 : ℚ) < double.to_rat h := pos_normal_val_pos hh
  have wpos := pos_normal_val_pos (rounds_to_pos_normal r2)
  refine ⟨rounds_to_pos_normal r3, ?_, ?_⟩
  · have hs : rounds_to (double.to_rat y) y :=
      rounds_to_self hy (by
        have : (2 : ℚ) ^ 10 < 2 ^ 1022 := by
          apply pow_lt_pow_right₀ (by norm_num) (by norm_num)
        linarith)
    exact rounds_to_mono hs r3 (by linarith)
  · obtain ⟨_, b2⟩ := rounds_to_bounds r3
    have a1 : 6 * double.to_rat y * double.to_rat h ≤ 6 * double.to_rat y * (1 / 2 ^ 19) :=
      mul_le_mul_of_nonneg_left hh2 (by linarith)
    set W := double.to_rat
      (double.mul (double.mul double_ops.half (double.add y q)) h) with hW
    have a2 : W ≤ double.to_rat y * (6 / 2 ^ 19) := by linarith
    have a3 : (double.to_rat y + W) * (1 + 1 / 2 ^ 53)
        ≤ (double.to_rat y + double.to_rat y * (6 / 2 ^ 19)) * (1 + 1 / 2 ^ 53) :=
      mul_le_mul_of_nonneg_right (by linarith) (by norm_num)
    have a4 : (double.to_rat y + double.to_rat y * (6 / 2 ^ 19)) * (1 + 1 / 2 ^ 53)
        = double.to_rat y * ((1 + 6 / 2 ^ 19) * (1 + 1 / 2 ^ 53)) := by ring
    have a5 : ((1 : ℚ) + 6 / 2 ^ 19) * (1 + 1 / 2 ^ 53) ≤ 2 := by norm_num
    have a6 := mul_le_mul_of_nonneg_left a5 (by linarith : (0 : ℚ) ≤ double.to_rat y)
    linarith

/-- The loop body is monotone. -/
theorem update_mono {h y q1 q2 : double} (x : double) (hy : pos_normal y)
    (hy1 : 1 ≤ double.to_rat y) (hy2 : double.to_rat y ≤ 2 ^ 10)
    (hh : pos_normal h) (hh1 : 1 / 2 ^ 60 ≤ double.to_rat h) (hh2 : double.to_rat h ≤ 1 / 2 ^ 19)
    (hq : pos_normal q1) (hq1 : double.to_rat y ≤ double.to_rat q1)
    (hq2 : double.to_rat q1 ≤ 2 * double.to_rat y)
    (hp : pos_normal q2) (hp1 : double.to_rat y ≤ double.to_rat q2)
    (hp2 : double.to_rat q2 ≤ 2 * double.to_rat y)
    (hle : double.to_rat q1 ≤ double.to_rat q2) :
    double.to_rat (picard_update double_ops h f x y q1)
      ≤ double.to_rat (picard_update double_ops h f x y q2) := by
  obtain ⟨r1, r2, r3, _⟩ := update_chain x hy hy1 hy2 hh hh1 hh2 hq hq1 hq2
  obtain ⟨t1, t2, t3, _⟩ := update_chain x hy hy1 hy2 hh hh1 hh2 hp hp1 hp2
  have hpos : (0 : ℚ) < double.to_rat h := pos_normal_val_pos hh
  have m1 := rounds_to_mono r1 t1 (by linarith)
  have m2 := rounds_to_mono r2 t2
    (mul_le_mul_of_nonneg_right (by linarith) (le_of_lt hpos))
  exact rounds_to_mono r3 t3 (by linarith)

/-- The Euler predictor is the loop body applied to `y` itself. -/
theorem update_self {h y : double} (x : double) (hy : pos_normal y)
    (hy1 : 1 ≤ double.to_rat y) (hy2 : double.to_rat y ≤ 2 ^ 10) (hh : pos_normal h) :
    double_ops.add y (double_ops.mul h (f x y)) = picard_update double_ops h f x y y := by
  rw [picard_update_double]
  obtain ⟨p2, v2⟩ := add_self hy
    (by
      have : (1 : ℚ) / 2 ^ 100 ≤ 1 := by norm_num
      linarith)
    (by
      have : (2 : ℚ) ^ 10 ≤ 2 ^ 100 := by norm_num
      linarith)
  obtain ⟨p3, v3⟩ := half_mul p2
    (by
      have : (1 : ℚ) / 2 ^ 100 ≤ 1 := by norm_num
      linarith)
    (by
      have : (2 : ℚ) * 2 ^ 10 ≤ 2 ^ 100 := by norm_num
      linarith)
  have e : double.mul double_ops.half (double.add y y) = y :=
    pos_normal_inj p3 hy (by rw [v3, v2]; ring)
  rw [e, mul_comm_pos_normal hy hh]
  rfl

/-- Each value of the corrector loop is the loop body applied to the one before. -/
theorem q_code_update_prev {h y : double} (x : double) (hy : pos_normal y)
    (hy1 : 1 ≤ double.to_rat y) (hy2 : double.to_rat y ≤ 2 ^ 10) (hh : pos_normal h) (j : ℕ) :
    q_code double_ops h f x y j
      = picard_update double_ops h f x y (q_code_prev double_ops h f x y j) := by
  cases j with
  | zero => exact update_self x hy hy1 hy2 hh
  | succ j => exact q_code_succ double_ops h f x y j

/-- The values of the corrector loop stay between `y` and `2 y`. -/
theorem q_code_prev_dom {h y : double} (x : double) (hy : pos_normal y)
    (hy1 : 1 ≤ double.to_rat y) (hy2 : double.to_rat y ≤ 2 ^ 10)
    (hh : pos_normal h) (hh1 : 1 / 2 ^ 60 ≤ double.to_rat h) (hh2 : double.to_rat h ≤ 1 / 2 ^ 19)
    (j : ℕ) :
    pos_normal (q_code_prev double_ops h f x y j) ∧
    double.to_rat y ≤ double.to_rat (q_code_prev double_ops h f x y j) ∧
    double.to_rat (q_code_prev double_ops h f x y j) ≤ 2 * double.to_rat y := by
  induction j with
  | zero => exact ⟨hy, le_refl _, by simp only [q_code_prev]; linarith⟩
  | succ j ih =>
    obtain ⟨i1, i2, i3⟩ := ih
    have e : q_code_prev double_ops h f x y (j + 1)
        = picard_update double_ops h f x y (q_code_prev double_ops h f x y j) :=
      q_code_update_prev x hy hy1 hy2 hh j
    rw [e]
    exact update_dom x hy hy1 hy2 hh hh1 hh2 i1 i2 i3

/-- The values of the corrector loop do not decrease. -/
theorem q_code_prev_mono {h y : double} (x : double) (hy : pos_normal y)
    (hy1 : 1 ≤ double.to_rat y) (hy2 : double.to_rat y ≤ 2 ^ 10)
    (hh : pos_normal h) (hh1 : 1 / 2 ^ 60 ≤ double.to_rat h) (hh2 : double.to_rat h ≤ 1 / 2 ^ 19)
    (j : ℕ) :
    double.to_rat (q_code_prev double_ops h f x y j)
      ≤ double.to_rat (q_code_prev double_ops h f x y (j + 1)) := by
  induction j with
  | zero => exact (q_code_prev_dom x hy hy1 hy2 hh hh1 hh2 1).2.1
  | succ j ih =>
    obtain ⟨i1, i2, i3⟩ := q_code_prev_dom x hy hy1 hy2 hh hh1 hh2 j
    obtain ⟨k1, k2, k3⟩ := q_code_prev_dom x hy hy1 hy2 hh hh1 hh2 (j + 1)
    have e1 : q_code_prev double_ops h f x y (j + 1)
        = picard_update double_ops h f x y (q_code_prev double_ops h f x y j) :=
      q_code_update_prev x hy hy1 hy2 hh j
    have e2 : q_code_prev double_ops h f x y (j + 1 + 1)
        = picard_update double_ops h f x y (q_code_prev double_ops h f x y (j + 1)) :=
      q_code_update_prev x hy hy1 hy2 hh (j + 1)
    rw [e2]
    nth_rewrite 1 [e1]
    exact update_mono x hy hy1 hy2 hh hh1 hh2 i1 i2 i3 k1 k2 k3 ih

/-- On binary64 with the right-hand side `f`, for `1 ≤ y ≤ 2 ^ 10` and
`2 ^ (-60) ≤ h ≤ 2 ^ (-19)`, the step returns as soon as `2 ^ 63` corrector
iterations are allowed, and the value it returns is a fixed point of the loop body. -/
theorem one_step_double {h y : double} (x : double) (hy : pos_normal y)
    (hy1 : 1 ≤ double.to_rat y) (hy2 : double.to_rat y ≤ 2 ^ 10)
    (hh : pos_normal h) (hh1 : 1 / 2 ^ 60 ≤ double.to_rat h) (hh2 : double.to_rat h ≤ 1 / 2 ^ 19)
    (m : ℕ) (hm : 2 ^ 63 ≤ m) :
    ∃ y1, one_step double_ops m h f { x := x, y := y } = some { x := double.add x h, y := y1 } ∧
      pos_normal y1 ∧ double.to_rat y ≤ double.to_rat y1 ∧
      double.to_rat y1 ≤ 2 * double.to_rat y ∧
      y1 = picard_update double_ops h f x y y1 := by
  have hdom := q_code_prev_dom x hy hy1 hy2 hh hh1 hh2
  have hmono := q_code_prev_mono x hy hy1 hy2 hh hh1 hh2
  have hgrid : ∀ j, ∃ n : ℕ, double.to_rat (q_code_prev double_ops h f x y j) * 2 ^ 52 = n :=
    fun j => pos_normal_grid (hdom j).1 (le_trans hy1 (hdom j).2.1)
  have hfloor : ∀ j, (⌊double.to_rat (q_code_prev double_ops h f x y j) * 2 ^ 52⌋₊ : ℚ)
      = double.to_rat (q_code_prev double_ops h f x y j) * 2 ^ 52 := by
    intro j
    obtain ⟨n, hn⟩ := hgrid j
    rw [hn, Nat.floor_natCast]
  obtain ⟨k, hk, hstab, hmin⟩ := mono_nat_stabilises
    (fun j => ⌊double.to_rat (q_code_prev double_ops h f x y j) * 2 ^ 52⌋₊) (2 ^ 63)
    (fun j => Nat.floor_mono (mul_le_mul_of_nonneg_right (hmono j) (by norm_num)))
    (fun j => by
      have h1 := (hdom j).2.2
      have h2 : double.to_rat (q_code_prev double_ops h f x y j) * 2 ^ 52
          ≤ ((2 ^ 63 : ℕ) : ℚ) := by
        push_cast
        have : (2 : ℚ) * 2 ^ 10 * 2 ^ 52 = 2 ^ 63 := by norm_num
        nlinarith
      exact Nat.floor_le_of_le h2)
  have hval : ∀ j, double.to_rat (q_code_prev double_ops h f x y (j + 1))
        = double.to_rat (q_code_prev double_ops h f x y j) ↔
      ⌊double.to_rat (q_code_prev double_ops h f x y (j + 1)) * 2 ^ 52⌋₊
        = ⌊double.to_rat (q_code_prev double_ops h f x y j) * 2 ^ 52⌋₊ := by
    intro j
    constructor
    · intro e
      rw [e]
    · intro e
      have e2 : (⌊double.to_rat (q_code_prev double_ops h f x y (j + 1)) * 2 ^ 52⌋₊ : ℚ)
          = (⌊double.to_rat (q_code_prev double_ops h f x y j) * 2 ^ 52⌋₊ : ℚ) := by
        rw [e]
      rw [hfloor, hfloor] at e2
      exact mul_right_cancel₀ (by norm_num) e2
  have hne : ∀ j, double_ops.ne (q_code_prev double_ops h f x y j) (q_code double_ops h f x y j)
        = false ↔
      double.to_rat (q_code_prev double_ops h f x y (j + 1))
        = double.to_rat (q_code_prev double_ops h f x y j) := by
    intro j
    have := ne_pos_normal (hdom j).1 (hdom (j + 1)).1
    simp only [q_code_prev] at this ⊢
    rw [eq_comm (a := double.to_rat (q_code double_ops h f x y j))]
    exact this
  have hk1 : double_ops.ne (q_code_prev double_ops h f x y k) (q_code double_ops h f x y k)
      = false := (hne k).2 ((hval k).2 hstab)
  have hk2 : ∀ j, j < k →
      double_ops.ne (q_code_prev double_ops h f x y j) (q_code double_ops h f x y j) = true := by
    intro j hj
    cases hc : double_ops.ne (q_code_prev double_ops h f x y j) (q_code double_ops h f x y j) with
    | true => rfl
    | false => exact absurd ((hval j).1 ((hne j).1 hc)) (hmin j hj)
  have hstep := one_step_code_least double_ops h f { x := x, y := y } k hk1 hk2 m
  rw [if_pos (by omega)] at hstep
  have heq : q_code_prev double_ops h f x y k = q_code double_ops h f x y k :=
    pos_normal_inj (hdom k).1 (hdom (k + 1)).1 ((hne k).1 hk1).symm
  refine ⟨q_code double_ops h f x y k, hstep, (hdom (k + 1)).1, (hdom (k + 1)).2.1,
    (hdom (k + 1)).2.2, ?_⟩
  have := q_code_update_prev x hy hy1 hy2 hh k
  rw [heq] at this
  exact this

/-- The fixed-point equation of the rounded loop body, from above. -/
theorem fp_upper (Y Y1 S W H c : ℚ) (hc : 0 ≤ c) (hH : 0 ≤ H) (h1 : S ≤ (Y + Y1) * c)
    (h2 : W ≤ S / 2 * H * c) (h3 : Y1 ≤ (Y + W) * c) :
    Y1 * (1 - c ^ 3 * H / 2) ≤ Y * (c + c ^ 3 * H / 2) := by
  have a1 := mul_le_mul_of_nonneg_right h1 (mul_nonneg (mul_nonneg hH hc) hc)
  have a2 := mul_le_mul_of_nonneg_right h2 hc
  linarith

/-- The fixed-point equation of the rounded loop body, from below. -/
theorem fp_lower (Y Y1 S W H c : ℚ) (hc : 0 ≤ c) (hH : 0 ≤ H) (h1 : (Y + Y1) * c ≤ S)
    (h2 : S / 2 * H * c ≤ W) (h3 : (Y + W) * c ≤ Y1) :
    Y * (c + c ^ 3 * H / 2) ≤ Y1 * (1 - c ^ 3 * H / 2) := by
  have a1 := mul_le_mul_of_nonneg_right h1 (mul_nonneg (mul_nonneg hH hc) hc)
  have a2 := mul_le_mul_of_nonneg_right h2 hc
  linarith

theorem exp_lower_cubic (H : ℝ) (hH : 0 ≤ H) :
    1 + H + H ^ 2 / 2 + H ^ 3 / 6 ≤ Real.exp H := by
  have := Real.sum_le_exp_of_nonneg hH 4
  simp only [Finset.sum_range_succ, Finset.sum_range_zero, Nat.factorial] at this
  norm_num at this
  linarith

theorem exp_upper_quartic (H : ℝ) (hH : 0 ≤ H) (hH1 : H ≤ 1) :
    Real.exp H ≤ 1 + H + H ^ 2 / 2 + H ^ 3 / 6 + H ^ 4 * 5 / 96 := by
  have := Real.exp_bound' hH hH1 (n := 4) (by norm_num)
  simp only [Finset.sum_range_succ, Finset.sum_range_zero, Nat.factorial] at this
  norm_num at this
  linarith

/-- One step multiplies `y` by at most `exp (h + 2 ^ (-52))`. -/
theorem step_upper_real (Y Y1 H : ℝ) (hY : 0 < Y) (hH0 : 0 ≤ H) (hH1 : H ≤ 1 / 2 ^ 19)
    (h : Y1 * (1 - (1 + 1 / 2 ^ 53) ^ 3 * H / 2)
      ≤ Y * ((1 + 1 / 2 ^ 53) + (1 + 1 / 2 ^ 53) ^ 3 * H / 2)) :
    Y1 ≤ Y * Real.exp (H + 2 / 2 ^ 53) := by
  have e1 := exp_lower_cubic H hH0
  have e2 : 1 + 2 / 2 ^ 53 ≤ Real.exp (2 / 2 ^ 53) := by
    have := Real.add_one_le_exp ((2 : ℝ) / 2 ^ 53)
    linarith
  have e3 : (1 + H + H ^ 2 / 2 + H ^ 3 / 6) * (1 + 2 / 2 ^ 53) ≤ Real.exp (H + 2 / 2 ^ 53) := by
    rw [Real.exp_add]
    exact mul_le_mul e1 e2 (by norm_num) (le_of_lt (Real.exp_pos _))
  have hD : 0 < 1 - (1 + 1 / 2 ^ 53) ^ 3 * H / 2 := by
    have : ((1 : ℝ) + 1 / 2 ^ 53) ^ 3 ≤ 2 := by norm_num
    nlinarith
  have b2 : H ^ 2 ≤ 1 / 2 ^ 19 * H := by nlinarith
  have b3 : H ^ 3 ≤ 1 / 2 ^ 38 * H := by nlinarith
  have b4 : H ^ 4 ≤ 1 / 2 ^ 57 * H := by nlinarith
  have c2 : 0 ≤ H ^ 2 := by positivity
  have c3 : 0 ≤ H ^ 3 := by positivity
  have c4 : 0 ≤ H ^ 4 := by positivity
  have key : (1 + 1 / 2 ^ 53) + (1 + 1 / 2 ^ 53) ^ 3 * H / 2
      ≤ (1 + H + H ^ 2 / 2 + H ^ 3 / 6) * (1 + 2 / 2 ^ 53)
        * (1 - (1 + 1 / 2 ^ 53) ^ 3 * H / 2) := by
    linarith
  have c1 : Y * ((1 + 1 / 2 ^ 53) + (1 + 1 / 2 ^ 53) ^ 3 * H / 2)
      ≤ Y * (Real.exp (H + 2 / 2 ^ 53) * (1 - (1 + 1 / 2 ^ 53) ^ 3 * H / 2)) := by
    apply mul_le_mul_of_nonneg_left _ (le_of_lt hY)
    exact le_trans key (mul_le_mul_of_nonneg_right e3 (le_of_lt hD))
  have c2 : Y1 * (1 - (1 + 1 / 2 ^ 53) ^ 3 * H / 2)
      ≤ (Y * Real.exp (H + 2 / 2 ^ 53)) * (1 - (1 + 1 / 2 ^ 53) ^ 3 * H / 2) := by
    rw [mul_assoc]
    exact le_trans h c1
  exact le_of_mul_le_mul_right c2 hD

/-- One step multiplies `y` by at least `exp (h - 2 ^ (-52))`. -/
theorem step_lower_real (Y Y1 H : ℝ) (hY : 0 < Y) (hH0 : 0 ≤ H) (hH1 : H ≤ 1 / 2 ^ 19)
    (h : Y * ((1 - 1 / 2 ^ 53) + (1 - 1 / 2 ^ 53) ^ 3 * H / 2)
      ≤ Y1 * (1 - (1 - 1 / 2 ^ 53) ^ 3 * H / 2)) :
    Y * Real.exp (H - 2 / 2 ^ 53) ≤ Y1 := by
  have e1 := exp_upper_quartic H hH0 (le_trans hH1 (by norm_num))
  have e2 : 1 + 2 / 2 ^ 53 ≤ Real.exp (2 / 2 ^ 53) := by
    have := Real.add_one_le_exp ((2 : ℝ) / 2 ^ 53)
    linarith
  have hD : 0 < 1 - (1 - 1 / 2 ^ 53) ^ 3 * H / 2 := by
    have : ((1 : ℝ) - 1 / 2 ^ 53) ^ 3 ≤ 2 := by norm_num
    have : (0 : ℝ) ≤ (1 - 1 / 2 ^ 53) ^ 3 := by norm_num
    nlinarith
  have b2 : H ^ 2 ≤ 1 / 2 ^ 19 * H := by nlinarith
  have b3 : H ^ 3 ≤ 1 / 2 ^ 38 * H := by nlinarith
  have b4 : H ^ 4 ≤ 1 / 2 ^ 57 * H := by nlinarith
  have b5 : H ^ 5 ≤ 1 / 2 ^ 76 * H := by nlinarith
  have c2 : 0 ≤ H ^ 2 := by positivity
  have c3 : 0 ≤ H ^ 3 := by positivity
  have c4 : 0 ≤ H ^ 4 := by positivity
  have c5 : 0 ≤ H ^ 5 := by positivity
  have key : (1 + H + H ^ 2 / 2 + H ^ 3 / 6 + H ^ 4 * 5 / 96)
        * (1 - (1 - 1 / 2 ^ 53) ^ 3 * H / 2)
      ≤ ((1 - 1 / 2 ^ 53) + (1 - 1 / 2 ^ 53) ^ 3 * H / 2) * (1 + 2 / 2 ^ 53) := by
    linarith
  -- exp (H - 2u) * (1 + 2u) ≤ exp H
  have e3 : Real.exp (H - 2 / 2 ^ 53) * (1 + 2 / 2 ^ 53) ≤ Real.exp H := by
    have : Real.exp H = Real.exp (H - 2 / 2 ^ 53) * Real.exp (2 / 2 ^ 53) := by
      rw [← Real.exp_add]
      congr 1
      ring
    rw [this]
    exact mul_le_mul_of_nonneg_left e2 (le_of_lt (Real.exp_pos _))
  have hu : (0 : ℝ) < 1 + 2 / 2 ^ 53 := by norm_num
  have c1 : Real.exp (H - 2 / 2 ^ 53) * (1 - (1 - 1 / 2 ^ 53) ^ 3 * H / 2) * (1 + 2 / 2 ^ 53)
      ≤ ((1 - 1 / 2 ^ 53) + (1 - 1 / 2 ^ 53) ^ 3 * H / 2) * (1 + 2 / 2 ^ 53) := by
    have : Real.exp (H - 2 / 2 ^ 53) * (1 - (1 - 1 / 2 ^ 53) ^ 3 * H / 2) * (1 + 2 / 2 ^ 53)
        = (Real.exp (H - 2 / 2 ^ 53) * (1 + 2 / 2 ^ 53))
          * (1 - (1 - 1 / 2 ^ 53) ^ 3 * H / 2) := by ring
    rw [this]
    exact le_trans (mul_le_mul_of_nonneg_right (le_trans e3 e1) (le_of_lt hD)) key
  have c2 := le_of_mul_le_mul_right c1 hu
  have c3 : Y * Real.exp (H - 2 / 2 ^ 53) * (1 - (1 - 1 / 2 ^ 53) ^ 3 * H / 2)
      ≤ Y1 * (1 - (1 - 1 / 2 ^ 53) ^ 3 * H / 2) := by
    rw [mul_assoc]
    exact le_trans (mul_le_mul_of_nonneg_left c2 (le_of_lt hY)) h
  exact le_of_mul_le_mul_right c3 hD

/-- Growth of `y` over one step on binary64: a fixed point `y1` of the loop body
lies between `y * exp (h - 2 ^ (-52))` and `y * exp (h + 2 ^ (-52))`. -/
theorem one_step_growth {h y y1 : double} (x : double) (hy : pos_normal y)
    (hy1 : 1 ≤ double.to_rat y) (hy2 : double.to_rat y ≤ 2 ^ 10)
    (hh : pos_normal h) (hh1 : 1 / 2 ^ 60 ≤ double.to_rat h) (hh2 : double.to_rat h ≤ 1 / 2 ^ 19)
    (hq : pos_normal y1) (hq1 : double.to_rat y ≤ double.to_rat y1)
    (hq2 : double.to_rat y1 ≤ 2 * double.to_rat y)
    (hfix : y1 = picard_update double_ops h f x y y1) :
    (double.to_rat y : ℝ) * Real.exp ((double.to_rat h : ℝ) - 2 / 2 ^ 53) ≤ (double.to_rat y1 : ℝ) ∧
    (double.to_rat y1 : ℝ) ≤ (double.to_rat y : ℝ) * Real.exp ((double.to_rat h : ℝ) + 2 / 2 ^ 53) := by
  obtain ⟨r1, r2, r3, _⟩ := update_chain x hy hy1 hy2 hh hh1 hh2 hq hq1 hq2
  rw [← hfix] at r3
  obtain ⟨s1, s2⟩ := rounds_to_bounds r1
  obtain ⟨w1, w2⟩ := rounds_to_bounds r2
  obtain ⟨z1, z2⟩ := rounds_to_bounds r3
  have hpos : (0 : ℚ) < double.to_rat h := pos_normal_val_pos hh
  have hYpos : (0 : ℝ) < (double.to_rat y : ℝ) := by
    have : (0 : ℚ) < double.to_rat y := by linarith
    exact_mod_cast this
  have hH0 : (0 : ℝ) ≤ (double.to_rat h : ℝ) := by exact_mod_cast le_of_lt hpos
  have hH1 : (double.to_rat h : ℝ) ≤ 1 / 2 ^ 19 := by
    have := (Rat.cast_le (K := ℝ)).2 hh2
    push_cast at this
    exact this
  have up := fp_upper (double.to_rat y) (double.to_rat y1) _ _ (double.to_rat h) (1 + 1 / 2 ^ 53)
    (by norm_num) (le_of_lt hpos) s2 w2 z2
  have lo := fp_lower (double.to_rat y) (double.to_rat y1) _ _ (double.to_rat h) (1 - 1 / 2 ^ 53)
    (by norm_num) (le_of_lt hpos) s1 w1 z1
  have upr := (Rat.cast_le (K := ℝ)).2 up
  have lor := (Rat.cast_le (K := ℝ)).2 lo
  push_cast at upr lor
  exact ⟨step_lower_real _ _ _ hYpos hH0 hH1 lor, step_upper_real _ _ _ hYpos hH0 hH1 upr⟩

/-- A rounding of a value that is at most `1 + 2 ^ (-54)` is at most `1` and is
off by at most `2 ^ (-54)`. -/
theorem rounds_to_unit {t : ℚ} {a : double} (h : rounds_to t a) (ht : t ≤ 1 + 1 / 2 ^ 54) :
    |double.to_rat a - t| ≤ 1 / 2 ^ 54 ∧ double.to_rat a ≤ 1 := by
  obtain ⟨_, M, E, hv, _, _, hM0, hM1, hx0, _, herr, _, habs⟩ := rounds_to_val h
  rw [hv]
  have hE := two_zpow_pos E
  have hM1q : (M : ℚ) ≤ 2 ^ 53 := by exact_mod_cast hM1
  have hM0q : (2 : ℚ) ^ 52 ≤ M := by exact_mod_cast hM0
  rcases le_or_lt E (-53) with hle | hgt
  · have b1 : (2 : ℚ) ^ E ≤ 2 ^ (-53 : ℤ) := two_zpow_mono hle
    have b2 : (2 : ℚ) ^ (-53 : ℤ) = 1 / 2 ^ 53 := by
      rw [zpow_neg, one_div]
      exact congrArg _ (zpow_natCast 2 53)
    rw [b2] at b1
    constructor
    · have : (2 : ℚ) ^ E / 2 ≤ 1 / 2 ^ 54 := by
        have : (1 : ℚ) / 2 ^ 53 / 2 = 1 / 2 ^ 54 := by norm_num
        linarith
      linarith
    · have b3 : (M : ℚ) * 2 ^ E ≤ 2 ^ 53 * (1 / 2 ^ 53) :=
        mul_le_mul hM1q b1 (le_of_lt hE) (by norm_num)
      have b4 : (2 : ℚ) ^ 53 * (1 / 2 ^ 53) = 1 := by norm_num
      linarith
  · have hE52 : E = -52 := by
      by_contra hne
      have b1 : (2 : ℚ) ^ (-51 : ℤ) ≤ 2 ^ E := two_zpow_mono (by omega)
      have b2 : (2 : ℚ) ^ (-51 : ℤ) = 1 / 2 ^ 51 := by
        rw [zpow_neg, one_div]
        exact congrArg _ (zpow_natCast 2 51)
      rw [b2] at b1
      have b3 : (2 : ℚ) ^ 52 * (1 / 2 ^ 51) ≤ 2 ^ 52 * 2 ^ E :=
        mul_le_mul_of_nonneg_left b1 (by norm_num)
      have b4 : (2 : ℚ) ^ 52 * (1 / 2 ^ 51) = 2 := by norm_num
      have b5 : (1 : ℚ) + 1 / 2 ^ 54 < 2 := by norm_num
      linarith
    subst hE52
    have b2 : (2 : ℚ) ^ (-52 : ℤ) = 1 / 2 ^ 52 := by
      rw [zpow_neg, one_div]
      exact congrArg _ (zpow_natCast 2 52)
    rw [b2] at hx0 habs ⊢
    have c1 : t / (1 / 2 ^ 52) = t * 2 ^ 52 := by field_simp
    rw [c1] at habs
    have c2 := (abs_le.1 habs).2
    have c3 : (M : ℚ) < ((2 ^ 52 + 1 : ℕ) : ℚ) := by
      push_cast
      have : (1 + 1 / 2 ^ 54) * (2 : ℚ) ^ 52 = 2 ^ 52 + 1 / 4 := by norm_num
      nlinarith
    have c4 : M < 2 ^ 52 + 1 := by exact_mod_cast c3
    have c5 : M = 2 ^ 52 := by omega
    rw [c5]
    have c6 : ((2 ^ 52 : ℕ) : ℚ) * (1 / 2 ^ 52) = 1 := by
      push_cast
      norm_num
    rw [c6]
    have c7 : (2 : ℚ) ^ 52 * (1 / 2 ^ 52) = 1 := by norm_num
    rw [c7] at hx0
    constructor
    · rw [abs_le]
      constructor <;> linarith
    · exact le_refl _

/-- A positive normal number that is at least one half is a multiple of `2 ^ (-53)`. -/
theorem pos_normal_grid_half {a : double} (ha : pos_normal a) (h1 : 1 / 2 ≤ double.to_rat a) :
    ∃ n : ℕ, double.to_rat a * 2 ^ 53 = n := by
  obtain ⟨M, E, rfl, hM0, hM1, hE0, hE1⟩ := ha
  simp only [double.to_rat] at h1 ⊢
  push_cast at h1 ⊢
  have hE : -53 ≤ E := by
    by_contra hc
    push_neg at hc
    have b1 : (2 : ℚ) ^ E ≤ 2 ^ (-54 : ℤ) := two_zpow_mono (by omega)
    have b2 : (2 : ℚ) ^ (-54 : ℤ) = 1 / 2 ^ 54 := by
      rw [zpow_neg, one_div]
      exact congrArg _ (zpow_natCast 2 54)
    rw [b2] at b1
    have hM1q : (M : ℚ) < 2 ^ 53 := by exact_mod_cast hM1
    have hp := two_zpow_pos E
    have b3 : (M : ℚ) * 2 ^ E < 2 ^ 53 * (1 / 2 ^ 54) := by
      calc (M : ℚ) * 2 ^ E < 2 ^ 53 * 2 ^ E := mul_lt_mul_of_pos_right hM1q hp
        _ ≤ 2 ^ 53 * (1 / 2 ^ 54) := mul_le_mul_of_nonneg_left b1 (by positivity)
    have b4 : (2 : ℚ) ^ 53 * (1 / 2 ^ 54) = 1 / 2 := by norm_num
    linarith
  obtain ⟨k, rfl⟩ : ∃ k : ℕ, E = -53 + k := ⟨(E + 53).toNat, by omega⟩
  refine ⟨M * 2 ^ k, ?_⟩
  rw [zpow_add₀ (by norm_num : (2 : ℚ) ≠ 0), zpow_natCast, zpow_neg]
  have : (2 : ℚ) ^ (53 : ℤ) = 2 ^ 53 := zpow_natCast 2 53
  rw [this]
  push_cast
  field_simp

/-- The drive loop under an invariant: when each full step taken from a state
that satisfies `P k` and passes the test of line 89 returns a state that satisfies
`P (k + 1)`, and the test fails on every state that satisfies `P N`, the loop with
fuel `N` returns a state that satisfies some `P k` and fails the test. -/
theorem drive_loop_invariant {R : Type} (A : real_ops R) (m : Nat) (dx : R) (f : rhs_func R)
    (xfinal : R) (P : ℕ → iter_state R → Prop) (N : ℕ)
    (hstep : ∀ k s, P k s → A.lt s.x (A.sub xfinal dx) = true →
      ∃ s1, one_step A m dx f s = some s1 ∧ P (k + 1) s1)
    (hstop : ∀ s, P N s → A.lt s.x (A.sub xfinal dx) = false) :
    ∀ (d j : ℕ) (s : iter_state R), j + d = N → P j s →
      ∃ k r, drive_loop A m dx f xfinal d s = some r ∧ P k r ∧
        A.lt r.x (A.sub xfinal dx) = false := by
  intro d
  induction d with
  | zero =>
    intro j s hj hP
    have : j = N := by omega
    subst this
    exact ⟨j, s, drive_loop_exit A m dx f xfinal 0 s (hstop s hP), hP, hstop s hP⟩
  | succ d ih =>
    intro j s hj hP
    cases hlt : A.lt s.x (A.sub xfinal dx) with
    | false => exact ⟨j, s, drive_loop_exit A m dx f xfinal (d + 1) s hlt, hP, hlt⟩
    | true =>
      obtain ⟨s1, h1, hP1⟩ := hstep j s hP hlt
      obtain ⟨k, r, hr, hPr, hlr⟩ := ih (j + 1) s1 (by omega) hP1
      exact ⟨k, r, by rw [drive_loop_enter A m dx f xfinal d s s1 hlt h1]; exact hr, hPr, hlr⟩

/-! ## The run of `main` on binary64

The drive loop keeps the invariant `main_inv`: after `k` full steps `x` is within
`k * 2 ^ (-54)` of `k * dx` and `y` within a factor `exp (k * 2 ^ (-52))` of
`exp (k * dx)`.  The test of line 89 fails after at most `1000001` steps; the last
step, of size `1 - x`, lands on `1`, and the step sizes add up to `1` within
`(k + 1) * 2 ^ (-54)`. -/

theorem dx_val : double.of_ratio 1 1000000 = double.fin 4722366482869645 (-72) := by decide!

theorem one_val : double.of_ratio 1 1 = double.fin 4503599627370496 (-52) := by decide!

theorem zero_val : double.of_ratio 0 1 = double.fin 0 (-1074) := by decide!

theorem bound_val : double_ops.sub (double.of_ratio 1 1) (double.of_ratio 1 1000000)
    = double.fin 9007190247541737 (-53) := by decide!

theorem dx_pos_normal : pos_normal (double.fin 4722366482869645 (-72)) :=
  ⟨4722366482869645, -72, rfl, by norm_num, by norm_num, by norm_num, by norm_num⟩

theorem one_pos_normal : pos_normal (double.fin 4503599627370496 (-52)) :=
  ⟨4503599627370496, -52, rfl, by norm_num, by norm_num, by norm_num, by norm_num⟩

theorem dx_rat : double.to_rat (double.fin 4722366482869645 (-72)) = 4722366482869645 / 2 ^ 72 := by
  simp only [double.to_rat]
  rw [zpow_neg]
  have : (2 : ℚ) ^ (72 : ℤ) = 2 ^ 72 := zpow_natCast 2 72
  rw [this]
  push_cast
  ring

theorem one_rat : double.to_rat (double.fin 4503599627370496 (-52)) = 1 := by
  simp only [double.to_rat]
  rw [zpow_neg]
  have : (2 : ℚ) ^ (52 : ℤ) = 2 ^ 52 := zpow_natCast 2 52
  rw [this]
  norm_num

theorem bound_rat :
    double.to_rat (double.fin 9007190247541737 (-53)) = 9007190247541737 / 2 ^ 53 := by
  simp only [double.to_rat]
  rw [zpow_neg]
  have : (2 : ℚ) ^ (53 : ℤ) = 2 ^ 53 := zpow_natCast 2 53
  rw [this]
  push_cast
  ring

theorem zero_rat : double.to_rat (double.fin 0 (-1074)) = 0 := by
  simp [double.to_rat]

theorem main_inv_fin {k : ℕ} {s : iter_state double} (h : main_inv k s) :
    ∃ mx ex, s.x = double.fin mx ex := by
  rcases h.2.1 with h0 | ⟨M, E, hM, _⟩
  · exact ⟨_, _, h0⟩
  · exact ⟨_, _, hM⟩

theorem main_inv_x_lower {k : ℕ} {s : iter_state double} (h : main_inv k s) :
    (k : ℚ) * (4722366482607501 / 2 ^ 72) ≤ double.to_rat s.x := by
  have h1 := (abs_le.1 h.2.2.2.1).1
  have : (k : ℚ) * (4722366482607501 / 2 ^ 72)
      = k * (4722366482869645 / 2 ^ 72) - k / 2 ^ 54 := by
    ring
  linarith

theorem exp_two_le : Real.exp 2 ≤ 8 := by
  have h1 := Real.exp_one_lt_d9
  have h2 : Real.exp 2 = Real.exp 1 * Real.exp 1 := by
    rw [← Real.exp_add]
    norm_num
  rw [h2]
  have h3 : (0 : ℝ) < Real.exp 1 := Real.exp_pos 1
  nlinarith

theorem main_inv_y {k : ℕ} {s : iter_state double} (h : main_inv k s) :
    1 ≤ double.to_rat s.y ∧ double.to_rat s.y ≤ 2 ^ 10 := by
  obtain ⟨hk, _, _, _, _, hlo, hup⟩ := h
  have hkq : (k : ℝ) ≤ 1000001 := by exact_mod_cast hk
  have hk0 : (0 : ℝ) ≤ k := by positivity
  constructor
  · have h1 : (0 : ℝ) ≤ k * (4722366482869645 / 2 ^ 72 - 2 / 2 ^ 53) :=
      mul_nonneg hk0 (by norm_num)
    have h2 := Real.one_le_exp h1
    have h3 : (1 : ℝ) ≤ (double.to_rat s.y : ℝ) := le_trans h2 hlo
    exact_mod_cast h3
  · have h1 : (k : ℝ) * (4722366482869645 / 2 ^ 72 + 2 / 2 ^ 53) ≤ 2 := by
      have : (1000001 : ℝ) * (4722366482869645 / 2 ^ 72 + 2 / 2 ^ 53) ≤ 2 := by norm_num
      have := mul_le_mul_of_nonneg_right hkq
        (by norm_num : (0 : ℝ) ≤ 4722366482869645 / 2 ^ 72 + 2 / 2 ^ 53)
      linarith
    have h2 := Real.exp_le_exp.2 h1
    have h3 : (double.to_rat s.y : ℝ) ≤ 2 ^ 10 := by
      have := exp_two_le
      have : (8 : ℝ) ≤ 2 ^ 10 := by norm_num
      linarith
    exact_mod_cast h3

/-- A full step of `main` keeps the invariant. -/
theorem main_inv_step (m : ℕ) (hm : 2 ^ 63 ≤ m) (k : ℕ) (s : iter_state double)
    (h : main_inv k s)
    (hlt : double_ops.lt s.x (double.fin 9007190247541737 (-53)) = true) :
    ∃ s1, one_step double_ops m (double.fin 4722366482869645 (-72)) f s = some s1 ∧
      main_inv (k + 1) s1 := by
  obtain ⟨hy1, hy2⟩ := main_inv_y h
  have hxl := main_inv_x_lower h
  obtain ⟨mx, ex, hx⟩ := main_inv_fin h
  obtain ⟨hk, _, hx1, hxe, hy, hlo, hup⟩ := h
  obtain ⟨sx, sy⟩ := s
  simp only at hx hy1 hy2 hxl hx1 hxe hy hlo hup hlt
  subst hx
  have hlt2 : double.to_rat (double.fin mx ex) < 9007190247541737 / 2 ^ 53 := by
    rw [← bound_rat]
    exact (lt_fin_iff _ _ _ _).1 hlt
  have hk0 : (0 : ℚ) ≤ k := by positivity
  have hx0 : 0 ≤ double.to_rat (double.fin mx ex) :=
    le_trans (mul_nonneg hk0 (by norm_num)) hxl
  -- number of steps
  have hk1 : k + 1 ≤ 1000001 := by
    by_contra hc
    have hc1 : 1000001 ≤ k := by omega
    have hc2 : (1000001 : ℚ) ≤ k := by exact_mod_cast hc1
    have := mul_le_mul_of_nonneg_right hc2
      (by norm_num : (0 : ℚ) ≤ 4722366482607501 / 2 ^ 72)
    have : (9007190247541737 : ℚ) / 2 ^ 53 < 1000001 * (4722366482607501 / 2 ^ 72) := by
      norm_num
    linarith
  -- the step
  obtain ⟨y1, hstep, q1, q2, q3, hfix⟩ := one_step_double (double.fin mx ex) hy hy1 hy2
    dx_pos_normal (by rw [dx_rat]; norm_num) (by rw [dx_rat]; norm_num) m hm
  obtain ⟨g1, g2⟩ := one_step_growth (double.fin mx ex) hy hy1 hy2
    dx_pos_normal (by rw [dx_rat]; norm_num) (by rw [dx_rat]; norm_num) q1 q2 q3 hfix
  rw [dx_rat] at g1 g2
  push_cast at g1 g2
  -- the abscissa
  have hr : rounds_to (double.to_rat (double.fin mx ex)
        + double.to_rat (double.fin 4722366482869645 (-72)))
      (double.add (double.fin mx ex) (double.fin 4722366482869645 (-72))) := by
    obtain ⟨lo, hi⟩ := normal_range (double.to_rat (double.fin mx ex)
        + double.to_rat (double.fin 4722366482869645 (-72)))
      (by rw [dx_rat]
          have : (1 : ℚ) / 2 ^ 200 ≤ 4722366482869645 / 2 ^ 72 := by norm_num
          linarith)
      (by rw [dx_rat]
          have : (1 : ℚ) + 4722366482869645 / 2 ^ 72 ≤ 2 ^ 200 := by norm_num
          linarith)
    exact add_fin_rounds _ _ _ _ lo hi
  rw [dx_rat] at hr
  obtain ⟨u1, u2⟩ := rounds_to_unit hr (by
    have : (9007190247541737 : ℚ) / 2 ^ 53 + 4722366482869645 / 2 ^ 72 ≤ 1 + 1 / 2 ^ 54 := by
      norm_num
    linarith)
  refine ⟨_, hstep, hk1, Or.inr (rounds_to_pos_normal hr), u2, ?_, q1, ?_, ?_⟩
  · show |double.to_rat (double.add (double.fin mx ex) (double.fin 4722366482869645 (-72)))
        - ((k + 1 : ℕ) : ℚ) * (4722366482869645 / 2 ^ 72)| ≤ ((k + 1 : ℕ) : ℚ) / 2 ^ 54
    push_cast
    rw [abs_le] at u1 hxe ⊢
    constructor <;> linarith [u1.1, u1.2, hxe.1, hxe.2]
  · show Real.exp (((k + 1 : ℕ) : ℝ) * (4722366482869645 / 2 ^ 72 - 2 / 2 ^ 53))
        ≤ (double.to_rat y1 : ℝ)
    have e : ((k + 1 : ℕ) : ℝ) * (4722366482869645 / 2 ^ 72 - 2 / 2 ^ 53)
        = k * (4722366482869645 / 2 ^ 72 - 2 / 2 ^ 53)
          + (4722366482869645 / 2 ^ 72 - 2 / 2 ^ 53) := by
      push_cast
      ring
    rw [e, Real.exp_add]
    exact le_trans (mul_le_mul_of_nonneg_right hlo (le_of_lt (Real.exp_pos _))) g1
  · show (double.to_rat y1 : ℝ)
        ≤ Real.exp (((k + 1 : ℕ) : ℝ) * (4722366482869645 / 2 ^ 72 + 2 / 2 ^ 53))
    have e : ((k + 1 : ℕ) : ℝ) * (4722366482869645 / 2 ^ 72 + 2 / 2 ^ 53)
        = k * (4722366482869645 / 2 ^ 72 + 2 / 2 ^ 53)
          + (4722366482869645 / 2 ^ 72 + 2 / 2 ^ 53) := by
      push_cast
      ring
    rw [e, Real.exp_add]
    exact le_trans g2 (mul_le_mul_of_nonneg_right hup (le_of_lt (Real.exp_pos _)))

/-- After `1000001` full steps the test of line 89 fails. -/
theorem main_inv_stop (s : iter_state double) (h : main_inv 1000001 s) :
    double_ops.lt s.x (double.fin 9007190247541737 (-53)) = false := by
  have hxl := main_inv_x_lower h
  obtain ⟨mx, ex, hx⟩ := main_inv_fin h
  rw [hx] at hxl ⊢
  cases hc : double_ops.lt (double.fin mx ex) (double.fin 9007190247541737 (-53)) with
  | false => rfl
  | true =>
    have h1 := (lt_fin_iff _ _ _ _).1 hc
    rw [bound_rat] at h1
    have : (9007190247541737 : ℚ) / 2 ^ 53 < (1000001 : ℕ) * (4722366482607501 / 2 ^ 72) := by
      norm_num
    linarith

theorem bound_fin : double_ops.sub (double.fin 4503599627370496 (-52))
    (double.fin 4722366482869645 (-72)) = double.fin 9007190247541737 (-53) := by decide!

theorem main_inv_zero :
    main_inv 0 { x := double.fin 0 (-1074), y := double.fin 4503599627370496 (-52) } := by
  refine ⟨by norm_num, Or.inl rfl, ?_, ?_, one_pos_normal, ?_, ?_⟩
  · show double.to_rat (double.fin 0 (-1074)) ≤ 1
    rw [zero_rat]
    norm_num
  · show |double.to_rat (double.fin 0 (-1074)) - ((0 : ℕ) : ℚ) * _| ≤ ((0 : ℕ) : ℚ) / 2 ^ 54
    rw [zero_rat]
    simp
  · show Real.exp (((0 : ℕ) : ℝ) * _) ≤ ((double.to_rat (double.fin 4503599627370496 (-52)) : ℚ) : ℝ)
    rw [one_rat]
    simp
  · show ((double.to_rat (double.fin 4503599627370496 (-52)) : ℚ) : ℝ) ≤ Real.exp (((0 : ℕ) : ℝ) * _)
    rw [one_rat]
    simp

/-- The drive loop of `main` returns, on a state that satisfies the invariant. -/
theorem main_drive (m : ℕ) (hm : 2 ^ 63 ≤ m) :
    ∃ k r, drive_loop double_ops m (double.fin 4722366482869645 (-72)) f
        (double.fin 4503599627370496 (-52)) 1000001
        { x := double.fin 0 (-1074), y := double.fin 4503599627370496 (-52) } = some r ∧
      main_inv k r ∧ double_ops.lt r.x (double.fin 9007190247541737 (-53)) = false := by
  have h := drive_loop_invariant double_ops m (double.fin 4722366482869645 (-72)) f
    (double.fin 4503599627370496 (-52)) main_inv 1000001
    (by
      intro k s hP hlt
      rw [bound_fin] at hlt
      exact main_inv_step m hm k s hP hlt)
    (by
      intro s hP
      rw [bound_fin]
      exact main_inv_stop s hP)
    1000001 0 _ (by norm_num) main_inv_zero
  rw [bound_fin] at h
  exact h

/-- From `exp (1 - η) ≤ y ≤ exp (1 + η)` with `η = 1000002 * 5 * 2 ^ (-54)` to
`|y - e| < 1e-9`. -/
theorem final_bound (Y : ℝ) (h1 : Real.exp (1 - 1000002 * (5 / 2 ^ 54)) ≤ Y)
    (h2 : Y ≤ Real.exp (1 + 1000002 * (5 / 2 ^ 54))) : |Y - Real.exp 1| < 1 / 10 ^ 9 := by
  have he := Real.exp_one_lt_d9
  have hepos : (0 : ℝ) < Real.exp 1 := Real.exp_pos 1
  have a1 : Real.exp (1000002 * (5 / 2 ^ 54)) ≤ 1 / (1 - 1000002 * (5 / 2 ^ 54)) :=
    Real.exp_bound_div_one_sub_of_interval (by norm_num) (by norm_num)
  have a2 : 1 - 1000002 * (5 / 2 ^ 54) ≤ Real.exp (-(1000002 * (5 / 2 ^ 54))) := by
    have := Real.add_one_le_exp (-((1000002 : ℝ) * (5 / 2 ^ 54)))
    linarith
  have u1 : Real.exp (1 + 1000002 * (5 / 2 ^ 54))
      = Real.exp 1 * Real.exp (1000002 * (5 / 2 ^ 54)) := Real.exp_add _ _
  have u2 : Real.exp (1 - 1000002 * (5 / 2 ^ 54))
      = Real.exp 1 * Real.exp (-(1000002 * (5 / 2 ^ 54))) := by
    rw [← Real.exp_add]
    congr 1
  have b1 : Y ≤ Real.exp 1 * (1 / (1 - 1000002 * (5 / 2 ^ 54))) := by
    rw [u1] at h2
    exact le_trans h2 (mul_le_mul_of_nonneg_left a1 (le_of_lt hepos))
  have b2 : Real.exp 1 * (1 - 1000002 * (5 / 2 ^ 54)) ≤ Y := by
    rw [u2] at h1
    exact le_trans (mul_le_mul_of_nonneg_left a2 (le_of_lt hepos)) h1
  have c1 : Real.exp 1 * (1 / (1 - 1000002 * (5 / 2 ^ 54)))
      ≤ 2.7182818286 * (1 / (1 - 1000002 * (5 / 2 ^ 54))) :=
    mul_le_mul_of_nonneg_right (le_of_lt he) (by norm_num)
  have c2 : Real.exp 1 * (1 / (1 - 1000002 * (5 / 2 ^ 54))) - Real.exp 1
      = Real.exp 1 * (1 / (1 - 1000002 * (5 / 2 ^ 54)) - 1) := by ring
  have c3 : Real.exp 1 * (1 / (1 - 1000002 * (5 / 2 ^ 54)) - 1)
      ≤ 2.7182818286 * (1 / (1 - 1000002 * (5 / 2 ^ 54)) - 1) :=
    mul_le_mul_of_nonneg_right (le_of_lt he) (by norm_num)
  have c4 : (2.7182818286 : ℝ) * (1 / (1 - 1000002 * (5 / 2 ^ 54)) - 1) < 1 / 10 ^ 9 := by
    norm_num
  have c5 : Real.exp 1 * (1000002 * (5 / 2 ^ 54)) ≤ 2.7182818286 * (1000002 * (5 / 2 ^ 54)) :=
    mul_le_mul_of_nonneg_right (le_of_lt he) (by norm_num)
  have c6 : (2.7182818286 : ℝ) * (1000002 * (5 / 2 ^ 54)) < 1 / 10 ^ 9 := by norm_num
  rw [abs_lt]
  constructor
  · have : Real.exp 1 * (1 - 1000002 * (5 / 2 ^ 54))
        = Real.exp 1 - Real.exp 1 * (1000002 * (5 / 2 ^ 54)) := by ring
    linarith
  · linarith

/-- Adding a zero to a positive normal number of moderate size gives the number. -/
theorem add_zero_pos_normal {a : double} (ha : pos_normal a) (h1 : 1 ≤ double.to_rat a)
    (h2 : double.to_rat a ≤ 2 ^ 10) : double.add a (double.fin 0 (-1074)) = a := by
  have ha2 := ha
  obtain ⟨M, E, rfl, _⟩ := ha2
  have e : double.to_rat (double.fin (M : ℤ) E) + double.to_rat (double.fin 0 (-1074))
      = double.to_rat (double.fin (M : ℤ) E) := by
    rw [zero_rat, add_zero]
  obtain ⟨lo, hi⟩ := normal_range (double.to_rat (double.fin (M : ℤ) E)
      + double.to_rat (double.fin 0 (-1074)))
    (by rw [e]
        have : (1 : ℚ) / 2 ^ 200 ≤ 1 := by norm_num
        linarith)
    (by rw [e]
        have : (2 : ℚ) ^ 10 ≤ 2 ^ 200 := by norm_num
        linarith)
  exact rounds_to_exact (add_fin_rounds _ _ _ _ lo hi) ha e.symm

/-- A rounding of a multiple of `2 ^ (-53)` that is at most `1` is exact. -/
theorem rounds_to_grid_exact {t : ℚ} {a : double} (h : rounds_to t a) (ht : t ≤ 1)
    (hn : ∃ n : ℕ, t * 2 ^ 53 = n) : double.to_rat a = t := by
  obtain ⟨_, M, E, hv, _, _, hM0, hM1, hx0, _, _, _, habs⟩ := rounds_to_val h
  obtain ⟨n, hn⟩ := hn
  rw [hv]
  have hE := two_zpow_pos E
  have key : ∃ j : ℤ, t / 2 ^ E = j := by
    rcases le_or_lt E (-53) with hle | hgt
    · obtain ⟨k, rfl⟩ : ∃ k : ℕ, E = -53 - k := ⟨(-53 - E).toNat, by omega⟩
      refine ⟨(n : ℤ) * 2 ^ k, ?_⟩
      have e1 : t = n / 2 ^ 53 := by
        rw [← hn]
        field_simp
      have e2 : (2 : ℚ) ^ (-53 - (k : ℤ)) = 1 / (2 ^ 53 * 2 ^ k) := by
        have : (-53 - (k : ℤ)) = -((53 + k : ℕ) : ℤ) := by
          push_cast
          ring
        rw [this, zpow_neg, zpow_natCast, pow_add, one_div]
      rw [e1, e2]
      push_cast
      field_simp
      ring
    · have hE52 : E = -52 := by
        by_contra hne
        have b1 : (2 : ℚ) ^ (-51 : ℤ) ≤ 2 ^ E := two_zpow_mono (by omega)
        have b2 : (2 : ℚ) ^ (-51 : ℤ) = 1 / 2 ^ 51 := by
          rw [zpow_neg, one_div]
          exact congrArg _ (zpow_natCast 2 51)
        rw [b2] at b1
        have b3 : (2 : ℚ) ^ 52 * (1 / 2 ^ 51) ≤ 2 ^ 52 * 2 ^ E :=
          mul_le_mul_of_nonneg_left b1 (by norm_num)
        have b4 : (2 : ℚ) ^ 52 * (1 / 2 ^ 51) = 2 := by norm_num
        linarith
      subst hE52
      have b2 : (2 : ℚ) ^ (-52 : ℤ) = 1 / 2 ^ 52 := by
        rw [zpow_neg, one_div]
        exact congrArg _ (zpow_natCast 2 52)
      rw [b2] at hx0 ⊢
      have c7 : (2 : ℚ) ^ 52 * (1 / 2 ^ 52) = 1 := by norm_num
      rw [c7] at hx0
      have ht1 : t = 1 := le_antisymm ht hx0
      refine ⟨2 ^ 52, ?_⟩
      rw [ht1]
      push_cast
      field_simp
      norm_num
  obtain ⟨j, hj⟩ := key
  rw [hj] at habs
  have h1 : |((M : ℤ) : ℚ) - (j : ℚ)| ≤ 1 / 2 := by
    push_cast
    exact habs
  have h2 : |(((M : ℤ) - j : ℤ) : ℚ)| < 1 := by
    push_cast
    have : (1 : ℚ) / 2 < 1 := by norm_num
    linarith
  have h3 : |(M : ℤ) - j| < 1 := by exact_mod_cast h2
  have h4 : (M : ℤ) - j = 0 := Int.abs_lt_one_iff.1 h3
  have h5 : ((M : ℤ) : ℚ) = j := by
    have : (M : ℤ) = j := by omega
    rw [this]
  have h6 : (M : ℚ) = t / 2 ^ E := by
    rw [hj, ← h5]
    push_cast
    rfl
  rw [h6]
  field_simp

/-- The last step of `main`, of size `xfinal - xy.x`, from a state that satisfies
the invariant and fails the test of line 89. -/
theorem main_last (m : ℕ) (hm : 2 ^ 63 ≤ m) (k : ℕ) (r : iter_state double)
    (h : main_inv k r)
    (hlt : double_ops.lt r.x (double.fin 9007190247541737 (-53)) = false) :
    ∃ r1, one_step double_ops m (double_ops.sub (double.fin 4503599627370496 (-52)) r.x) f r
        = some r1 ∧
      r1.x = double.fin 4503599627370496 (-52) ∧
      Real.exp (1 - 1000002 * (5 / 2 ^ 54)) ≤ ((double.to_rat r1.y : ℚ) : ℝ) ∧
      ((double.to_rat r1.y : ℚ) : ℝ) ≤ Real.exp (1 + 1000002 * (5 / 2 ^ 54)) := by
  obtain ⟨hy1, hy2⟩ := main_inv_y h
  obtain ⟨hk, hxd, hx1, hxe, hy, hlo, hup⟩ := h
  obtain ⟨sx, sy⟩ := r
  simp only at hy1 hy2 hxd hx1 hxe hy hlo hup hlt
  have hkR : (k : ℝ) ≤ 1000001 := by exact_mod_cast hk
  have hk0 : (0 : ℝ) ≤ k := by positivity
  have px : pos_normal sx := by
    rcases hxd with h0 | hp
    · subst h0
      have : double_ops.lt (double.fin 0 (-1074)) (double.fin 9007190247541737 (-53)) = true := by
        decide!
      rw [this] at hlt
      exact Bool.noConfusion hlt
    · exact hp
  have px2 := px
  obtain ⟨M, E, rfl, _⟩ := px2
  have hge : 9007190247541737 / 2 ^ 53 ≤ double.to_rat (double.fin (M : ℤ) E) := by
    by_contra hc
    push_neg at hc
    rw [← bound_rat] at hc
    have h2 : double_ops.lt (double.fin (M : ℤ) E) (double.fin 9007190247541737 (-53)) = true :=
      (lt_fin_iff _ _ _ _).2 hc
    rw [hlt] at h2
    exact Bool.noConfusion h2
  rcases eq_or_lt_of_le hx1 with heq | hlt1
  · -- the abscissa is already `1`: the last step has size zero
    have hsub : double_ops.sub (double.fin 4503599627370496 (-52)) (double.fin (M : ℤ) E)
        = double.fin 0 (-1074) :=
      sub_fin_zero _ _ _ _ (by rw [one_rat, heq])
    rw [hsub]
    have hy3 := hy
    obtain ⟨My, Ey, hsy, _⟩ := hy3
    have hmul : double_ops.mul (double.fin 0 (-1074)) (f (double.fin (M : ℤ) E) sy)
        = double.fin 0 (-1074) := by
      rw [hsy]
      exact mul_fin_zero 0 (-1074) My Ey rfl
    have hadd : double_ops.add sy (double.fin 0 (-1074)) = sy := add_zero_pos_normal hy hy1 hy2
    have hne : double_ops.ne sy
        (double_ops.add sy (double_ops.mul (double.fin 0 (-1074)) (f (double.fin (M : ℤ) E) sy)))
        = false := by
      rw [hmul, hadd]
      exact (ne_pos_normal hy hy).2 rfl
    have hstep := one_step_skip double_ops (double.fin 0 (-1074)) f
      { x := double.fin (M : ℤ) E, y := sy } hne m
    refine ⟨_, hstep, ?_, ?_, ?_⟩
    · show double.add (double.fin (M : ℤ) E) (double.fin 0 (-1074))
        = double.fin 4503599627370496 (-52)
      rw [add_zero_pos_normal px (le_of_eq heq.symm) (by rw [heq]; norm_num)]
      exact pos_normal_inj px one_pos_normal (by rw [heq, one_rat])
    · show Real.exp (1 - 1000002 * (5 / 2 ^ 54)) ≤ ((double.to_rat (double_ops.add sy
        (double_ops.mul (double.fin 0 (-1074)) (f (double.fin (M : ℤ) E) sy))) : ℚ) : ℝ)
      rw [hmul, hadd]
      refine le_trans (Real.exp_le_exp.2 ?_) hlo
      rw [heq] at hxe
      have hxeR := (Rat.cast_le (K := ℝ)).2 hxe
      push_cast at hxeR
      have := (abs_le.1 hxeR).2
      nlinarith
    · show ((double.to_rat (double_ops.add sy
        (double_ops.mul (double.fin 0 (-1074)) (f (double.fin (M : ℤ) E) sy))) : ℚ) : ℝ)
          ≤ Real.exp (1 + 1000002 * (5 / 2 ^ 54))
      rw [hmul, hadd]
      refine le_trans hup (Real.exp_le_exp.2 ?_)
      rw [heq] at hxe
      have hxeR := (Rat.cast_le (K := ℝ)).2 hxe
      push_cast at hxeR
      have := (abs_le.1 hxeR).1
      nlinarith
  · -- a last step of positive size
    obtain ⟨n, hn⟩ := pos_normal_grid_half px (le_trans (by norm_num) hge)
    have hn1 : (n : ℚ) < 2 ^ 53 := by
      rw [← hn]
      have : double.to_rat (double.fin (M : ℤ) E) * 2 ^ 53 < 1 * 2 ^ 53 :=
        mul_lt_mul_of_pos_right hlt1 (by norm_num)
      linarith
    have hn2 : n < 2 ^ 53 := by exact_mod_cast hn1
    have hn3 : n + 1 ≤ 2 ^ 53 := hn2
    have hn4 : (n : ℚ) + 1 ≤ 2 ^ 53 := by exact_mod_cast hn3
    have ht1 : 1 / 2 ^ 53 ≤ 1 - double.to_rat (double.fin (M : ℤ) E) := by
      have : double.to_rat (double.fin (M : ℤ) E) = n / 2 ^ 53 := by
        rw [← hn]
        field_simp
      rw [this]
      rw [div_le_iff₀ (by norm_num)]
      have : (1 - (n : ℚ) / 2 ^ 53) * 2 ^ 53 = 2 ^ 53 - n := by field_simp
      linarith
    have ht2 : 1 - double.to_rat (double.fin (M : ℤ) E) ≤ 1 - 9007190247541737 / 2 ^ 53 := by
      linarith
    have hr : rounds_to (double.to_rat (double.fin 4503599627370496 (-52))
          - double.to_rat (double.fin (M : ℤ) E))
        (double.sub (double.fin 4503599627370496 (-52)) (double.fin (M : ℤ) E)) := by
      obtain ⟨lo, hi⟩ := normal_range (double.to_rat (double.fin 4503599627370496 (-52))
          - double.to_rat (double.fin (M : ℤ) E))
        (by rw [one_rat]
            have : (1 : ℚ) / 2 ^ 200 ≤ 1 / 2 ^ 53 := by norm_num
            linarith)
        (by rw [one_rat]
            have : (1 : ℚ) - 9007190247541737 / 2 ^ 53 ≤ 2 ^ 200 := by norm_num
            linarith)
      exact sub_fin_rounds _ _ _ _ lo hi
    rw [one_rat] at hr
    obtain ⟨v1, v2⟩ := rounds_to_bounds hr
    have hh := rounds_to_pos_normal hr
    have tpos : 0 < 1 - double.to_rat (double.fin (M : ℤ) E) := by linarith
    have hh1 : 1 / 2 ^ 60
        ≤ double.to_rat (double.sub (double.fin 4503599627370496 (-52)) (double.fin (M : ℤ) E)) := by
      have a1 : 1 / 2 ^ 53 * (1 - 1 / 2 ^ 53)
          ≤ (1 - double.to_rat (double.fin (M : ℤ) E)) * (1 - 1 / 2 ^ 53) :=
        mul_le_mul_of_nonneg_right ht1 (by norm_num)
      have a2 : (1 : ℚ) / 2 ^ 60 ≤ 1 / 2 ^ 53 * (1 - 1 / 2 ^ 53) := by norm_num
      linarith
    have hh2 : double.to_rat
        (double.sub (double.fin 4503599627370496 (-52)) (double.fin (M : ℤ) E)) ≤ 1 / 2 ^ 19 := by
      have a1 : (1 - double.to_rat (double.fin (M : ℤ) E)) * (1 + 1 / 2 ^ 53)
          ≤ (1 - 9007190247541737 / 2 ^ 53) * (1 + 1 / 2 ^ 53) :=
        mul_le_mul_of_nonneg_right ht2 (by norm_num)
      have a2 : ((1 : ℚ) - 9007190247541737 / 2 ^ 53) * (1 + 1 / 2 ^ 53) ≤ 1 / 2 ^ 19 := by
        norm_num
      linarith
    obtain ⟨y1, hstep, q1, q2, q3, hfix⟩ := one_step_double (double.fin (M : ℤ) E) hy hy1 hy2
      hh hh1 hh2 m hm
    obtain ⟨g1, g2⟩ := one_step_growth (double.fin (M : ℤ) E) hy hy1 hy2 hh hh1 hh2 q1 q2 q3 hfix
    -- the sum of the step sizes is within `(k + 1) * 2 ^ (-54)` of `1`
    have hsum : |(k : ℚ) * (4722366482869645 / 2 ^ 72)
        + double.to_rat (double.sub (double.fin 4503599627370496 (-52)) (double.fin (M : ℤ) E))
        - 1| ≤ ((k : ℚ) + 1) / 2 ^ 54 := by
      have a1 : (1 - double.to_rat (double.fin (M : ℤ) E)) * (1 / 2 ^ 53) ≤ 1 / 2 ^ 54 := by
        have : (1 - double.to_rat (double.fin (M : ℤ) E)) * (1 / 2 ^ 53)
            ≤ (1 - 9007190247541737 / 2 ^ 53) * (1 / 2 ^ 53) :=
          mul_le_mul_of_nonneg_right ht2 (by norm_num)
        have : ((1 : ℚ) - 9007190247541737 / 2 ^ 53) * (1 / 2 ^ 53) ≤ 1 / 2 ^ 54 := by norm_num
        linarith
      obtain ⟨x1, x2⟩ := abs_le.1 hxe
      rw [abs_le]
      constructor <;> linarith
    have hsumR := (Rat.cast_le (K := ℝ)).2 hsum
    push_cast at hsumR
    obtain ⟨z1, z2⟩ := abs_le.1 hsumR
    refine ⟨_, hstep, ?_, ?_, ?_⟩
    · show double.add (double.fin (M : ℤ) E)
          (double.sub (double.fin 4503599627370496 (-52)) (double.fin (M : ℤ) E))
        = double.fin 4503599627370496 (-52)
      have hexact : double.to_rat
          (double.sub (double.fin 4503599627370496 (-52)) (double.fin (M : ℤ) E))
          = 1 - double.to_rat (double.fin (M : ℤ) E) := by
        apply rounds_to_grid_exact hr (by linarith)
        refine ⟨2 ^ 53 - n, ?_⟩
        rw [Nat.cast_sub (le_of_lt hn2), ← hn]
        push_cast
        ring
      have hsum1 : double.to_rat (double.fin (M : ℤ) E) + double.to_rat
          (double.sub (double.fin 4503599627370496 (-52)) (double.fin (M : ℤ) E)) = 1 := by
        rw [hexact]
        ring
      have hr2 := add_rounds px hh (by rw [hsum1]; norm_num) (by rw [hsum1]; norm_num)
      exact rounds_to_exact hr2 one_pos_normal (by rw [hsum1, one_rat])
    · show Real.exp (1 - 1000002 * (5 / 2 ^ 54)) ≤ ((double.to_rat y1 : ℚ) : ℝ)
      refine le_trans ?_ (le_trans (mul_le_mul_of_nonneg_right hlo (le_of_lt (Real.exp_pos _))) g1)
      rw [← Real.exp_add]
      apply Real.exp_le_exp.2
      have e1 : (k : ℝ) * (4722366482869645 / 2 ^ 72 - 2 / 2 ^ 53)
          = k * (4722366482869645 / 2 ^ 72) - k * (2 / 2 ^ 53) := by ring
      have e2 : ((k : ℝ) + 1) / 2 ^ 54 = k * (1 / 2 ^ 54) + 1 / 2 ^ 54 := by ring
      have e3 : (k : ℝ) * (2 / 2 ^ 53) + k * (1 / 2 ^ 54) ≤ 1000001 * (5 / 2 ^ 54) := by
        have := mul_le_mul_of_nonneg_right hkR (by norm_num : (0 : ℝ) ≤ 5 / 2 ^ 54)
        linarith
      rw [e1]
      rw [e2] at z1
      linarith
    · show ((double.to_rat y1 : ℚ) : ℝ) ≤ Real.exp (1 + 1000002 * (5 / 2 ^ 54))
      refine le_trans (le_trans g2 (mul_le_mul_of_nonneg_right hup (le_of_lt (Real.exp_pos _)))) ?_
      rw [← Real.exp_add]
      apply Real.exp_le_exp.2
      have e1 : (k : ℝ) * (4722366482869645 / 2 ^ 72 + 2 / 2 ^ 53)
          = k * (4722366482869645 / 2 ^ 72) + k * (2 / 2 ^ 53) := by ring
      have e2 : ((k : ℝ) + 1) / 2 ^ 54 = k * (1 / 2 ^ 54) + 1 / 2 ^ 54 := by ring
      have e3 : (k : ℝ) * (2 / 2 ^ 53) + k * (1 / 2 ^ 54) ≤ 1000001 * (5 / 2 ^ 54) := by
        have := mul_le_mul_of_nonneg_right hkR (by norm_num : (0 : ℝ) ≤ 5 / 2 ^ 54)
        linarith
      rw [e1]
      rw [e2] at z2
      linarith

/-- The constants of `main` as binary64 values. -/
theorem main_eq (m n : ℕ) :
    main m n = integrate double_ops m n (double.fin 4722366482869645 (-72)) f
      (double.fin 4503599627370496 (-52))
      { x := double.fin 0 (-1074), y := double.fin 4503599627370496 (-52) } := by
  simp only [main, dx_val, one_val, zero_val]

/-- C7. Computing e: on binary64, `main` (`f(x, y) = y`, initial state `(0, 1)`,
`dx = 1e-6`, `xfinal = 1`) returns, with `2 ^ 63` corrector iterations allowed in
each step and `1000001` full steps allowed; the state it returns has `x = 1`
exactly and a `y` within `1e-9` of `exp 1`. -/
theorem main_computes_e :
    ∃ r, main (2 ^ 63) 1000001 = some r ∧ r.x = double.of_ratio 1 1 ∧
      |((double.to_rat r.y : ℚ) : ℝ) - Real.exp 1| < 1 / 10 ^ 9 := by
  obtain ⟨k, r, hdrive, hinv, hlt⟩ := main_drive (2 ^ 63) (le_refl _)
  obtain ⟨r1, hstep, hx, b1, b2⟩ := main_last (2 ^ 63) (le_refl _) k r hinv hlt
  exact ⟨r1, (main_eq _ _).trans ((integrate_of_drive_some _ _ _ _ _ _ _ _ hdrive).trans hstep),
    hx.trans one_val.symm, final_bound _ b1 b2⟩

end Picard
